import Mathlib

/-!
# Cache simulator (`csim.c`): shallow embedding and verified properties

The development embeds the functions of `csim.c` that decide cache behaviour:
`setTagAndSet`, `checkHitAndMiss` and the replay loop of `runSimulation`.

Conventions of the embedding.

* A C `int` is a Lean `Int`; every `int` increment of the source goes through
  `wrapInt`, the two's-complement wrap-around at 32 bits that the compiled
  program performs.
* An `unsigned long` is a `Nat` below `2 ^ 64`; the shifts `shl64`/`shr64`
  reduce explicitly modulo `2 ^ 64`, and take the shift count modulo 64 as the
  shift instructions of x86-64 and AArch64 do (C leaves a count of 64 or more
  undefined).
* The cache `struct Line cache[S][E]` is a list of `S` rows of `E` lines.  A read
  or write outside the array has no defined result: the functions return `none`.
* Verbose printing is output only and is left out.
-/

namespace CacheSim

/-! ## Machine arithmetic -/

/-- Two's-complement reduction of an integer to the range of a 32-bit `int`. -/
def wrapInt (x : Int) : Int := (x + 2 ^ 31) % 2 ^ 32 - 2 ^ 31

/-- Left shift `x << n` on `unsigned long`. -/
def shl64 (x n : Nat) : Nat := (x * 2 ^ (n % 64)) % 2 ^ 64

/-- Right shift `x >> n` on `unsigned long`. -/
def shr64 (x n : Nat) : Nat := x / 2 ^ (n % 64)

/-! ## Data model -/

/-- One `struct Line`: `int validBit; unsigned long tag; int operationNumber;`. -/
structure Line where
  validBit : Int
  tag : Nat
  operationNumber : Int
deriving DecidableEq

/-- The two-dimensional array `cache[S][E]`: rows are sets, columns are lines. -/
abbrev Cache := List (List Line)

/-- The locals of `runSimulation` that `checkHitAndMiss` and the replay loop
read and write. -/
structure SimState where
  cache : Cache
  operationNum : Int
  numEviction : Int
  numHits : Int
  numMisses : Int
deriving DecidableEq

/-- The read `cache[set][i]`. -/
def lineAt (cache : Cache) (set i : Nat) : Option Line :=
  match cache[set]? with
  | none => none
  | some row => row[i]?

/-- The write `cache[set][i] = l` (no effect outside the array; every write of
the source follows a read of the same place). -/
def storeLine (cache : Cache) (set i : Nat) (l : Line) : Cache :=
  match cache[set]? with
  | none => cache
  | some row => cache.set set (row.set i l)

/-! ## `setTagAndSet` -/

/-- The function `setTagAndSet` (lines 87-91); returns `(set, tag)`.
`(sizeof(long)<<3)-s` is computed in `unsigned long`, and the result of the
double shift is cast to `unsigned int`. -/
def setTagAndSet (addr s b : Nat) : Nat × Nat :=
  let tag := shr64 addr (s + b)
  let x := shr64 addr b
  let k := (64 + 2 ^ 64 - s % 2 ^ 64) % 2 ^ 64
  let set := (shr64 (shl64 x k) k) % 2 ^ 32
  (set, tag)

/-! ## `checkHitAndMiss` -/

/-- The first loop of `checkHitAndMiss` (lines 109-120) from index `i` with `n`
iterations left: the index of the first line with `validBit == 1` and the
target tag, if there is one. -/
def hitScan (cache : Cache) (tag set : Nat) : Nat → Nat → Option (Option Nat)
  | 0, _ => some none
  | n + 1, i =>
    match lineAt cache set i with
    | none => none
    | some l =>
      if l.validBit = 1 ∧ l.tag = tag then some (some i)
      else hitScan cache tag set n (i + 1)

/-- The second loop of `checkHitAndMiss` (lines 124-129) from index `i` with `n`
iterations left, carrying `lru_op` and `lru_line`. -/
def lruScan (cache : Cache) (set : Nat) : Nat → Nat → Int → Nat → Option (Int × Nat)
  | 0, _, lru_op, lru_line => some (lru_op, lru_line)
  | n + 1, i, lru_op, lru_line =>
    match lineAt cache set i with
    | none => none
    | some l =>
      if l.operationNumber ≤ lru_op then lruScan cache set n (i + 1) l.operationNumber i
      else lruScan cache set n (i + 1) lru_op lru_line

/-- The function `checkHitAndMiss` (lines 106-142).  Returns `isEviction` and
the state after the call. -/
def checkHitAndMiss (st : SimState) (tag set E : Nat) : Option (Bool × SimState) :=
  match hitScan st.cache tag set E 0 with
  | none => none
  | some (some i) =>
    match lineAt st.cache set i with
    | none => none
    | some l =>
      let opn := wrapInt (st.operationNum + 1)
      some (false,
        { st with
          cache := storeLine st.cache set i { l with operationNumber := opn }
          operationNum := opn
          numHits := wrapInt (st.numHits + 1) })
  | some none =>
    match lruScan st.cache set E 0 st.operationNum 0 with
    | none => none
    | some (_, lru_line) =>
      match lineAt st.cache set lru_line with
      | none => none
      | some l =>
        let opn := wrapInt (st.operationNum + 1)
        some (decide (l.validBit = 1),
          { st with
            cache := storeLine st.cache set lru_line
              { validBit := 1, tag := tag, operationNumber := opn }
            operationNum := opn
            numMisses := wrapInt (st.numMisses + 1) })

/-! ## `runSimulation` -/

/-- One trace record as the loop of `runSimulation` sees it: the operation
token returned by `strtok` and the address value returned by `strtol`. -/
structure Record where
  operation : String
  addr : Nat
deriving DecidableEq

/-- The value `(int)pow(2,s)`: exact up to `s = 30`; from `s = 31` on `2 ^ s` is
outside the range of `int` and the conversion has no defined result. -/
def numSets (s : Nat) : Option Nat :=
  if s ≤ 30 then some (2 ^ s) else none

/-- The zero line written by the initialisation loops (lines 159-165). -/
def zeroLine : Line := { validBit := 0, tag := 0, operationNumber := 0 }

/-- The state of `runSimulation` when the replay loop is entered
(lines 153-165). -/
def initState (S E : Nat) : SimState :=
  { cache := List.replicate S (List.replicate E zeroLine)
    operationNum := 0
    numEviction := 0
    numHits := 0
    numMisses := 0 }

/-- The statement `if(isEviction) numEviction++;`. -/
def countEviction (r : Bool × SimState) : SimState :=
  if r.1 then { r.2 with numEviction := wrapInt (r.2.numEviction + 1) } else r.2

/-- One call of `checkHitAndMiss` followed by the eviction count update. -/
def access (st : SimState) (tag set E : Nat) : Option SimState :=
  (checkHitAndMiss st tag set E).map countEviction

/-- The body of the `while` loop of `runSimulation` (lines 168-207) on one
record. -/
def processRecord (s E b : Nat) (st : SimState) (r : Record) : Option SimState :=
  let p := setTagAndSet r.addr s b
  if r.operation = "M" then
    match access st p.2 p.1 E with
    | none => none
    | some st1 => access st1 p.2 p.1 E
  else if r.operation ≠ "I" then
    access st p.2 p.1 E
  else some st

/-- The replay loop of `runSimulation` over the records of the trace. -/
def replay (s E b : Nat) : SimState → List Record → Option SimState
  | st, [] => some st
  | st, r :: rest =>
    match processRecord s E b st r with
    | none => none
    | some st1 => replay s E b st1 rest

/-- The result triple `(hits, misses, evictions)` stored at the end of
`runSimulation`. -/
structure Summary where
  hits : Int
  misses : Int
  evictions : Int
deriving DecidableEq

/-- The final state of `runSimulation` (lines 152-208). -/
def runState (s E b : Nat) (trace : List Record) : Option SimState :=
  match numSets s with
  | none => none
  | some S => replay s E b (initState S E) trace

/-- The function `runSimulation` (lines 152-213). -/
def runSimulation (s E b : Nat) (trace : List Record) : Option Summary :=
  (runState s E b trace).map
    (fun st => { hits := st.numHits, misses := st.numMisses, evictions := st.numEviction })

/-- The test of the first loop: the line is valid and holds the tag. -/
def Holds (tag : Nat) (l : Line) : Prop := l.validBit = 1 ∧ l.tag = tag

instance (tag : Nat) (l : Line) : Decidable (Holds tag l) := by
  unfold Holds
  infer_instance


/-- The number of memory references of a trace: two for an `M` record, none
for an `I` record, one for every other record. -/
def refCount : List Record → Nat
  | [] => 0
  | r :: rest =>
    (if r.operation = "M" then 2 else if r.operation ≠ "I" then 1 else 0) + refCount rest

/-- What holds of every line after `n` memory references without `int`
overflow: its `operationNumber` lies between 0 and `n`, its `validBit` is 0
or 1, and it is valid exactly when its `operationNumber` is at least 1. -/
def LineOk (n : Nat) (l : Line) : Prop :=
  0 ≤ l.operationNumber ∧ l.operationNumber ≤ n ∧
  (l.validBit = 1 ↔ 1 ≤ l.operationNumber) ∧ (l.validBit = 0 ∨ l.validBit = 1)

/-- The facts that hold of the state of `runSimulation` after `n` memory
references, as long as no `int` has overflowed: the array keeps its shape
`cache[S][E]`, the counter is `n`, every line satisfies `LineOk n`, and the hit,
miss and eviction counts are non-negative with `hits + misses = n`,
`evictions ≤ misses`, and at least one miss once a reference has been made. -/
def Inv (S E n : Nat) (st : SimState) : Prop :=
  st.cache.length = S ∧
  (∀ row ∈ st.cache, row.length = E) ∧
  st.operationNum = n ∧
  (∀ row ∈ st.cache, ∀ l ∈ row, LineOk n l) ∧
  0 ≤ st.numHits ∧ 0 ≤ st.numMisses ∧ st.numHits + st.numMisses = n ∧
  0 ≤ st.numEviction ∧ st.numEviction ≤ st.numMisses ∧
  (0 < n → 0 < st.numMisses)

/-- Successive calls of `checkHitAndMiss` for the tags of a list, all on set
`set`, each followed by the eviction count update of `runSimulation`; returns
the `isEviction` flags of the calls in order and the final state. -/
def accessList (st : SimState) (set E : Nat) : List Nat → Option (List Bool × SimState)
  | [] => some ([], st)
  | tag :: rest =>
    match checkHitAndMiss st tag set E with
    | none => none
    | some r =>
      match accessList (countEviction r) set E rest with
      | none => none
      | some (evs, st') => some (r.1 :: evs, st')

/-- The lines written by successive misses on distinct tags, most recent first:
the line written by the `k`-th miss is valid, holds the `k`-th tag and has
`operationNumber = k`. -/
def filledLines : List Nat → List Line
  | [] => []
  | t :: ts => { validBit := 1, tag := t, operationNumber := (ts.length : Int) + 1 }
      :: filledLines ts

/-! ## Argument validation and `main` -/

/-- One call `fgets(line, sizeof(line), filePointer)` (line 167) on the unread
characters of the file, `n` being the size of the buffer less one: the
characters stored in the buffer, which are at most `n` and end with the first
newline when there is one among them, and the characters left unread. -/
def fgetsSplit : Nat → List Char → List Char × List Char
  | 0, cs => ([], cs)
  | _ + 1, [] => ([], [])
  | n + 1, c :: cs =>
    if c = '\n' then ([c], cs)
    else (c :: (fgetsSplit n cs).1, (fgetsSplit n cs).2)

/-- The buffers of the loop `while (fgets(line, sizeof(line), filePointer) != NULL)`
(lines 166-167, `char line[128]`) on the characters of the file, in order; the
loop ends when nothing is left to read.  `fuel` bounds the number of calls; each
call reads at least one character, so the number of characters is enough. -/
def fgetsLines : Nat → List Char → List (List Char)
  | 0, _ => []
  | _ + 1, [] => []
  | fuel + 1, c :: cs =>
    (fgetsSplit 127 (c :: cs)).1 :: fgetsLines fuel (fgetsSplit 127 (c :: cs)).2

/-- A further fact about the lines of a reachable state: a line that is not
valid is still the zero line of the initialisation, and two valid lines at
different places of the array carry different `operationNumber`s. -/
def OpsDistinct (st : SimState) : Prop :=
  (∀ (i j : Nat) (l : Line), lineAt st.cache i j = some l → l.validBit ≠ 1 → l = zeroLine) ∧
  (∀ (i j i' j' : Nat) (l l' : Line), lineAt st.cache i j = some l →
    lineAt st.cache i' j' = some l' → l.validBit = 1 → l'.validBit = 1 →
    l.operationNumber = l'.operationNumber → i = i' ∧ j = j')

/-! ## The LRU reference model -/

/-- The memory references of a trace, in order, as pairs `(set, tag)`: two for
an `M` record, none for an `I` record, one for every other record. -/
def refsOf (s b : Nat) : List Record → List (Nat × Nat)
  | [] => []
  | r :: rest =>
    (if r.operation = "M" then [setTagAndSet r.addr s b, setTagAndSet r.addr s b]
      else if r.operation ≠ "I" then [setTagAndSet r.addr s b] else [])
      ++ refsOf s b rest

/-- Successive memory references, each a call of `checkHitAndMiss` followed by
the eviction count update, as the replay loop performs them. -/
def accessAll (E : Nat) : SimState → List (Nat × Nat) → Option SimState
  | st, [] => some st
  | st, p :: rest =>
    match access st p.2 p.1 E with
    | none => none
    | some st1 => accessAll E st1 rest

/-- The tags of the references of a list that map to set `i`, in order. -/
def tagsOfSet (i : Nat) (refs : List (Nat × Nat)) : List Nat :=
  (refs.filter (fun p => p.1 = i)).map (fun p => p.2)

/-- The tags of the references of a trace that map to set `i`, in order. -/
def setRefs (s b i : Nat) (trace : List Record) : List Nat :=
  tagsOfSet i (refsOf s b trace)

/-- The reference model of one set: a reference to tag `t` moves `t` to the
front of the list of distinct tags. -/
def touch (t : Nat) (m : List Nat) : List Nat :=
  t :: m.filter (fun x => x ≠ t)

/-- The reference model of one set: the distinct tags of a list of references,
most recently referenced first. -/
def mruTags (refs : List Nat) : List Nat :=
  refs.foldl (fun m t => touch t m) []

/-- The tags held by the valid lines of a row, in index order. -/
def validTags (row : List Line) : List Nat :=
  (row.filter (fun l => l.validBit = 1)).map (fun l => l.tag)

/-- The operation numbers of the valid lines of a row, in index order. -/
def validOps (row : List Line) : List Int :=
  (row.filter (fun l => l.validBit = 1)).map (fun l => l.operationNumber)

/-- The relation between a row and the reference model `m` of its set: the
valid lines hold the first `E` tags of `m`, each once; a valid line with a
higher `operationNumber` holds a tag that comes earlier in `m`; the valid lines
carry different `operationNumber`s. -/
def LruRow (E : Nat) (row : List Line) (m : List Nat) : Prop :=
  (validTags row).Perm (m.take E) ∧
  (∀ l ∈ row, ∀ l' ∈ row, l.validBit = 1 → l'.validBit = 1 →
    l'.operationNumber < l.operationNumber → List.Sublist [l.tag, l'.tag] m) ∧
  (validOps row).Nodup

/-- The outcome of one memory reference: its set and tag, whether it hit,
whether it evicted, and the tag it replaced when it evicted. -/
structure Outcome where
  set : Nat
  tag : Nat
  hit : Bool
  eviction : Bool
  replaced : Option Nat
deriving DecidableEq

/-- One memory reference together with its outcome, read off the two loops of
`checkHitAndMiss` (the `hit` of line 117 and the `miss` of line 139 of the
verbose output): a hit when the first loop finds a line, and otherwise a miss
that evicts the tag of the line chosen by the second loop when that line is
valid. -/
def accessOutcome (st : SimState) (tag set E : Nat) : Option (Outcome × SimState) :=
  match access st tag set E with
  | none => none
  | some st' =>
    match hitScan st.cache tag set E 0 with
    | some (some _) =>
      some ({ set := set, tag := tag, hit := true, eviction := false, replaced := none }, st')
    | _ =>
      match lruScan st.cache set E 0 st.operationNum 0 with
      | none => none
      | some (_, j) =>
        match lineAt st.cache set j with
        | none => none
        | some l =>
          some ({ set := set, tag := tag, hit := false, eviction := decide (l.validBit = 1)
                  replaced := if l.validBit = 1 then some l.tag else none }, st')

/-- The outcomes of successive memory references. -/
def outcomesAll (E : Nat) : SimState → List (Nat × Nat) → Option (List Outcome)
  | _, [] => some []
  | st, p :: rest =>
    match accessOutcome st p.2 p.1 E with
    | none => none
    | some (o, st1) =>
      match outcomesAll E st1 rest with
      | none => none
      | some os => some (o :: os)

/-- The outcomes of the memory references of a trace replayed by
`runSimulation`, in order. -/
def runOutcomes (s E b : Nat) (trace : List Record) : Option (List Outcome) :=
  match numSets s with
  | none => none
  | some S => outcomesAll E (initState S E) (refsOf s b trace)

/-- The outcome of a reference in the reference model `m` of its set: a hit when
the tag is among the first `E` tags of `m`; otherwise a miss, which evicts the
`E`-th tag of `m` when `m` has `E` tags or more. -/
def modelOutcome (E : Nat) (m : List Nat) (set tag : Nat) : Outcome :=
  if tag ∈ m.take E then
    { set := set, tag := tag, hit := true, eviction := false, replaced := none }
  else if E ≤ m.length then
    { set := set, tag := tag, hit := false, eviction := true, replaced := m[E - 1]? }
  else { set := set, tag := tag, hit := false, eviction := false, replaced := none }

/-- The outcomes of a list of references in the reference model, `M i` being
the model of set `i`. -/
def modelRun (E : Nat) (M : Nat → List Nat) : List (Nat × Nat) → List Outcome
  | [] => []
  | p :: rest =>
    modelOutcome E (M p.1) p.1 p.2
      :: modelRun E (fun i => if i = p.1 then touch p.2 (M i) else M i) rest

/-- The relation between a state and the reference models of its sets, `M i`
being the model of set `i`. -/
def LruInv (E : Nat) (M : Nat → List Nat) (st : SimState) : Prop :=
  ∀ (i : Nat) (row : List Line), st.cache[i]? = some row → LruRow E row (M i) ∧ (M i).Nodup

/-- The reference models of the sets after a list of references, `M i` being
the model of set `i` before them. -/
def modelAfter (M : Nat → List Nat) : List (Nat × Nat) → Nat → List Nat
  | [] => M
  | p :: rest => modelAfter (fun i => if i = p.1 then touch p.2 (M i) else M i) rest
/-! ## Basic facts -/

theorem wrapInt_eq_self (x : Int) (h1 : -2 ^ 31 ≤ x) (h2 : x < 2 ^ 31) : wrapInt x = x := by
  unfold wrapInt
  omega

theorem wrapInt_wrapInt_add (x : Int) (n : Int) : wrapInt (wrapInt x + n) = wrapInt (x + n) := by
  unfold wrapInt
  omega

theorem wrapInt_succ_ne (x : Int) : wrapInt (x + 1) ≠ x := by
  unfold wrapInt
  omega

theorem lineAt_eq {cache : Cache} {set : Nat} {row : List Line} (h : cache[set]? = some row)
    (i : Nat) : lineAt cache set i = row[i]? := by
  simp [lineAt, h]

theorem storeLine_eq {cache : Cache} {set : Nat} {row : List Line} (h : cache[set]? = some row)
    (i : Nat) (l : Line) : storeLine cache set i l = cache.set set (row.set i l) := by
  simp [storeLine, h]

/-- What the first loop computes on a row that holds all scanned indices. -/
theorem hitScan_spec {cache : Cache} {set : Nat} {row : List Line} (tag : Nat)
    (h : cache[set]? = some row) :
    ∀ (n i : Nat), i + n ≤ row.length →
      (∃ j l, hitScan cache tag set n i = some (some j) ∧ i ≤ j ∧ j < i + n ∧
          row[j]? = some l ∧ Holds tag l ∧
          ∀ k l', i ≤ k → k < j → row[k]? = some l' → ¬ Holds tag l') ∨
      (hitScan cache tag set n i = some none ∧
          ∀ k l', i ≤ k → k < i + n → row[k]? = some l' → ¬ Holds tag l') := by
  intro n
  induction n with
  | zero =>
    intro i _
    right
    refine ⟨rfl, ?_⟩
    intro k l' h1 h2
    omega
  | succ n ih =>
    intro i hi
    have hlt : i < row.length := by omega
    have hget : row[i]? = some row[i] := List.getElem?_eq_getElem hlt
    by_cases hm : Holds tag row[i]
    · left
      refine ⟨i, row[i], ?_, le_refl i, by omega, hget, hm, ?_⟩
      · have hm' := hm
        unfold Holds at hm'
        simp [hitScan, lineAt_eq h, hget, hm'.1, hm'.2]
      · intro k l' h1 h2
        omega
    · have hstep : hitScan cache tag set (n + 1) i = hitScan cache tag set n (i + 1) := by
        have hm' : ¬ (row[i].validBit = 1 ∧ row[i].tag = tag) := hm
        simp only [hitScan, lineAt_eq h, hget]
        rw [if_neg hm']
      rcases ih (i + 1) (by omega) with ⟨j, l, h1, h2, h3, h4, h5, h6⟩ | ⟨h1, h2⟩
      · left
        refine ⟨j, l, by rw [hstep, h1], by omega, by omega, h4, h5, ?_⟩
        intro k l' hk1 hk2 hk3
        by_cases hki : k = i
        · subst hki
          rw [hget] at hk3
          cases hk3
          exact hm
        · exact h6 k l' (by omega) hk2 hk3
      · right
        refine ⟨by rw [hstep, h1], ?_⟩
        intro k l' hk1 hk2 hk3
        by_cases hki : k = i
        · subst hki
          rw [hget] at hk3
          cases hk3
          exact hm
        · exact h2 k l' (by omega) (by omega) hk3

/-- What the second loop computes on a row that holds all scanned indices:
either no scanned line is at or below the running minimum and the carried pair
is returned, or the result is the last scanned line carrying the least
`operationNumber`. -/
theorem lruScan_spec {cache : Cache} {set : Nat} {row : List Line}
    (h : cache[set]? = some row) :
    ∀ (n i : Nat) (lo : Int) (ll : Nat), i + n ≤ row.length →
      ∃ op j, lruScan cache set n i lo ll = some (op, j) ∧
        ((j = ll ∧ op = lo ∧
            ∀ k l', i ≤ k → k < i + n → row[k]? = some l' → lo < l'.operationNumber) ∨
         (i ≤ j ∧ j < i + n ∧ op ≤ lo ∧ (∃ l, row[j]? = some l ∧ l.operationNumber = op) ∧
            (∀ k l', i ≤ k → k < i + n → row[k]? = some l' → op ≤ l'.operationNumber) ∧
            (∀ k l', j < k → k < i + n → row[k]? = some l' → op < l'.operationNumber))) := by
  intro n
  induction n with
  | zero =>
    intro i lo ll _
    refine ⟨lo, ll, rfl, Or.inl ⟨rfl, rfl, ?_⟩⟩
    intro k l' h1 h2
    omega
  | succ n ih =>
    intro i lo ll hi
    have hlt : i < row.length := by omega
    have hget : row[i]? = some row[i] := List.getElem?_eq_getElem hlt
    by_cases hle : row[i].operationNumber ≤ lo
    · have hstep : lruScan cache set (n + 1) i lo ll
          = lruScan cache set n (i + 1) row[i].operationNumber i := by
        simp only [lruScan, lineAt_eq h, hget]
        rw [if_pos hle]
      rcases ih (i + 1) row[i].operationNumber i (by omega) with ⟨op, j, h1, h2⟩
      refine ⟨op, j, by rw [hstep, h1], Or.inr ?_⟩
      rcases h2 with ⟨hj, hop, hall⟩ | ⟨hj1, hj2, hop, hl, hmin, hlast⟩
      · rw [hj, hop]
        refine ⟨le_refl _, by omega, hle, ⟨row[i], hget, rfl⟩, ?_, ?_⟩
        · intro k l' hk1 hk2 hk3
          by_cases hki : k = i
          · subst hki
            rw [hget] at hk3
            cases hk3
            exact le_refl _
          · exact le_of_lt (hall k l' (by omega) (by omega) hk3)
        · intro k l' hk1 hk2 hk3
          exact hall k l' (by omega) (by omega) hk3
      · refine ⟨by omega, by omega, le_trans hop hle, hl, ?_, ?_⟩
        · intro k l' hk1 hk2 hk3
          by_cases hki : k = i
          · subst hki
            rw [hget] at hk3
            cases hk3
            exact hop
          · exact hmin k l' (by omega) (by omega) hk3
        · intro k l' hk1 hk2 hk3
          exact hlast k l' hk1 (by omega) hk3
    · have hstep : lruScan cache set (n + 1) i lo ll = lruScan cache set n (i + 1) lo ll := by
        simp only [lruScan, lineAt_eq h, hget]
        rw [if_neg hle]
      rcases ih (i + 1) lo ll (by omega) with ⟨op, j, h1, h2⟩
      refine ⟨op, j, by rw [hstep, h1], ?_⟩
      rcases h2 with ⟨hj, hop, hall⟩ | ⟨hj1, hj2, hop, hl, hmin, hlast⟩
      · left
        refine ⟨hj, hop, ?_⟩
        intro k l' hk1 hk2 hk3
        by_cases hki : k = i
        · subst hki
          rw [hget] at hk3
          cases hk3
          exact not_le.mp hle
        · exact hall k l' (by omega) (by omega) hk3
      · right
        refine ⟨by omega, by omega, hop, hl, ?_, fun k l' a b c => hlast k l' a (by omega) c⟩
        intro k l' hk1 hk2 hk3
        by_cases hki : k = i
        · subst hki
          rw [hget] at hk3
          cases hk3
          exact le_of_lt (lt_of_le_of_lt hop (not_le.mp hle))
        · exact hmin k l' (by omega) (by omega) hk3


theorem replay_cons_of_some {s E b : Nat} {st st1 : SimState} {r : Record}
    (h : processRecord s E b st r = some st1) (rest : List Record) :
    replay s E b st (r :: rest) = replay s E b st1 rest := by
  simp only [replay, h]

theorem runState_of_numSets {s S : Nat} (h : numSets s = some S) (E b : Nat)
    (trace : List Record) : runState s E b trace = replay s E b (initState S E) trace := by
  simp only [runState, h]

theorem countEviction_cache (ev : Bool) (st : SimState) :
    (countEviction (ev, st)).cache = st.cache := by
  cases ev <;> rfl

theorem countEviction_operationNum (ev : Bool) (st : SimState) :
    (countEviction (ev, st)).operationNum = st.operationNum := by
  cases ev <;> rfl

theorem countEviction_numHits (ev : Bool) (st : SimState) :
    (countEviction (ev, st)).numHits = st.numHits := by
  cases ev <;> rfl

theorem countEviction_numMisses (ev : Bool) (st : SimState) :
    (countEviction (ev, st)).numMisses = st.numMisses := by
  cases ev <;> rfl

theorem countEviction_numEviction (ev : Bool) (st : SimState) :
    (countEviction (ev, st)).numEviction
      = if ev = true then wrapInt (st.numEviction + 1) else st.numEviction := by
  cases ev <;> rfl

/-! ## One call of `checkHitAndMiss` on a well-formed row -/

/-- The state after a hit on line `j` of set `set`. -/
theorem checkHitAndMiss_of_hit (st : SimState) (tag : Nat) {set E : Nat} {row : List Line}
    (hrow : st.cache[set]? = some row) (hlen : row.length = E) {j : Nat} {l : Line}
    (hj : row[j]? = some l) (hm : Holds tag l)
    (hfirst : ∀ (k : Nat) (l' : Line), k < j → row[k]? = some l' → ¬ Holds tag l') :
    checkHitAndMiss st tag set E = some (false,
      { st with
        cache := st.cache.set set
          (row.set j { l with operationNumber := wrapInt (st.operationNum + 1) })
        operationNum := wrapInt (st.operationNum + 1)
        numHits := wrapInt (st.numHits + 1) }) := by
  have hjlt : j < row.length := by
    rcases List.getElem?_eq_some.mp hj with ⟨hlt, _⟩
    exact hlt
  rcases hitScan_spec tag hrow E 0 (by omega) with ⟨j', l', h1, _, h3, h4, h5, h6⟩ | ⟨_, h2⟩
  · have hjj : j' = j := by
      rcases Nat.lt_trichotomy j' j with hlt | heq | hgt
      · exact absurd h5 (hfirst j' l' hlt h4)
      · exact heq
      · exact absurd hm (h6 j l (Nat.zero_le _) hgt hj)
    subst hjj
    rw [hj] at h4
    cases h4
    unfold checkHitAndMiss
    rw [h1]
    simp [lineAt_eq hrow, hj, storeLine_eq hrow]
  · exact absurd hm (h2 j l (Nat.zero_le _) (by omega) hj)

/-- The state after a miss: some line `j` of the set is overwritten; when a line
of the set has an `operationNumber` at or below the counter, `j` is the last
line carrying the least `operationNumber` of the set, and otherwise `j = 0`. -/
theorem checkHitAndMiss_of_miss (st : SimState) (tag : Nat) {set E : Nat} {row : List Line}
    (hrow : st.cache[set]? = some row) (hlen : row.length = E) (hE : 1 ≤ E)
    (hno : ∀ (k : Nat) (l' : Line), row[k]? = some l' → ¬ Holds tag l') :
    ∃ (j : Nat) (l : Line), j < E ∧ row[j]? = some l ∧
      checkHitAndMiss st tag set E = some (decide (l.validBit = 1),
        { st with
          cache := st.cache.set set
            (row.set j
              { validBit := 1, tag := tag, operationNumber := wrapInt (st.operationNum + 1) })
          operationNum := wrapInt (st.operationNum + 1)
          numMisses := wrapInt (st.numMisses + 1) }) ∧
      ((∃ (k : Nat) (l' : Line), row[k]? = some l' ∧ l'.operationNumber ≤ st.operationNum) →
        (∀ (k : Nat) (l' : Line), row[k]? = some l' → l.operationNumber ≤ l'.operationNumber) ∧
        (∀ (k : Nat) (l' : Line), j < k → row[k]? = some l' → l.operationNumber < l'.operationNumber)) ∧
      ((∀ (k : Nat) (l' : Line), row[k]? = some l' → st.operationNum < l'.operationNumber) → j = 0) := by
  have hscan : hitScan st.cache tag set E 0 = some none := by
    rcases hitScan_spec tag hrow E 0 (by omega) with ⟨j', l', _, _, _, h4, h5, _⟩ | ⟨h1, _⟩
    · exact absurd h5 (hno j' l' h4)
    · exact h1
  have hin : ∀ (k : Nat) (l' : Line), row[k]? = some l' → k < 0 + E := by
    intro k l' hk
    rcases List.getElem?_eq_some.mp hk with ⟨hlt, _⟩
    omega
  rcases lruScan_spec hrow E 0 st.operationNum 0 (by omega) with ⟨op, j, h1, h2⟩
  rcases h2 with ⟨hj, hop, hall⟩ | ⟨_, hj2, hop, ⟨l, hl1, hl2⟩, hmin, hlast⟩
  · have h0 : (0 : Nat) < row.length := by omega
    refine ⟨0, row[0], by omega, List.getElem?_eq_getElem h0, ?_, ?_, fun _ => rfl⟩
    · unfold checkHitAndMiss
      rw [hscan]
      simp only []
      rw [h1, hj]
      simp [lineAt_eq hrow, List.getElem?_eq_getElem h0, storeLine_eq hrow]
    · rintro ⟨k, l', hk1, hk2⟩
      have := hall k l' (Nat.zero_le _) (hin k l' hk1) hk1
      omega
  · refine ⟨j, l, by omega, hl1, ?_, ?_, ?_⟩
    · unfold checkHitAndMiss
      rw [hscan]
      simp only []
      rw [h1]
      simp [lineAt_eq hrow, hl1, storeLine_eq hrow]
    · intro _
      rw [hl2]
      exact ⟨fun k l' hk => hmin k l' (Nat.zero_le _) (hin k l' hk) hk,
        fun k l' hjk hk => hlast k l' hjk (hin k l' hk) hk⟩
    · intro hgt
      have := hgt j l hl1
      omega

/-- Every row either has a first line holding the tag or no such line. -/
theorem first_holds_or_none (tag : Nat) (row : List Line) :
    (∃ (j : Nat) (l : Line), row[j]? = some l ∧ Holds tag l ∧
        ∀ (k : Nat) (l' : Line), k < j → row[k]? = some l' → ¬ Holds tag l') ∨
    (∀ (k : Nat) (l' : Line), row[k]? = some l' → ¬ Holds tag l') := by
  have hrow : ([row] : Cache)[0]? = some row := rfl
  rcases hitScan_spec tag hrow row.length 0 (by omega) with ⟨j, l, _, _, _, h4, h5, h6⟩ | ⟨_, h2⟩
  · left
    exact ⟨j, l, h4, h5, fun k l' hk => h6 k l' (Nat.zero_le _) hk⟩
  · right
    intro k l' hk
    rcases List.getElem?_eq_some.mp hk with ⟨hlt, _⟩
    exact h2 k l' (Nat.zero_le _) (by omega) hk

/-! ## A call only reads and writes the addressed row -/

theorem hitScan_row {cache : Cache} {set : Nat} {row : List Line} (tag : Nat)
    (h : cache[set]? = some row) :
    ∀ (n i : Nat), hitScan cache tag set n i = hitScan [row] tag 0 n i := by
  intro n
  induction n with
  | zero => intro i; rfl
  | succ n ih =>
    intro i
    have h0 : ([row] : Cache)[0]? = some row := rfl
    simp only [hitScan, lineAt_eq h, lineAt_eq h0, ih]

theorem lruScan_row {cache : Cache} {set : Nat} {row : List Line}
    (h : cache[set]? = some row) :
    ∀ (n i : Nat) (lo : Int) (ll : Nat),
      lruScan cache set n i lo ll = lruScan [row] 0 n i lo ll := by
  intro n
  induction n with
  | zero => intro i lo ll; rfl
  | succ n ih =>
    intro i lo ll
    have h0 : ([row] : Cache)[0]? = some row := rfl
    simp only [lruScan, lineAt_eq h, lineAt_eq h0, ih]

/-- A call on set `set` of a cache behaves as the same call on a one-set cache
made of that row alone, and writes the resulting row back in place. -/
theorem checkHitAndMiss_row (st : SimState) (tag set E : Nat) (row row' : List Line)
    (ev : Bool) (c e h m : Int) (hrow : st.cache[set]? = some row)
    (hcall : checkHitAndMiss
        { cache := [row], operationNum := st.operationNum, numEviction := st.numEviction,
          numHits := st.numHits, numMisses := st.numMisses } tag 0 E
      = some (ev, { cache := [row'], operationNum := c, numEviction := e,
                    numHits := h, numMisses := m })) :
    checkHitAndMiss st tag set E
      = some (ev, { cache := st.cache.set set row', operationNum := c, numEviction := e,
                    numHits := h, numMisses := m }) := by
  have h0 : ([row] : Cache)[0]? = some row := rfl
  unfold checkHitAndMiss at hcall ⊢
  simp only [hitScan_row tag hrow, lruScan_row hrow]
  simp only [] at hcall
  cases hs : hitScan [row] tag 0 E 0 with
  | none => simp [hs] at hcall
  | some r =>
    cases r with
    | some i =>
      simp only [hs, lineAt_eq h0, lineAt_eq hrow] at hcall ⊢
      cases hl : row[i]? with
      | none => simp [hl] at hcall
      | some l =>
        simp only [hl, storeLine_eq h0, storeLine_eq hrow, Option.some.injEq, Prod.mk.injEq,
          SimState.mk.injEq, List.set_cons_zero, List.cons.injEq, and_true] at hcall ⊢
        obtain ⟨h1, h2, h3, h4, h5, h6⟩ := hcall
        exact ⟨h1, by rw [h2], h3, h4, h5, h6⟩
    | none =>
      simp only [hs] at hcall ⊢
      cases hlru : lruScan [row] 0 E 0 st.operationNum 0 with
      | none => simp [hlru] at hcall
      | some p =>
        simp only [hlru, lineAt_eq h0, lineAt_eq hrow] at hcall ⊢
        cases hl : row[p.2]? with
        | none => simp [hl] at hcall
        | some l =>
          simp only [hl, storeLine_eq h0, storeLine_eq hrow, Option.some.injEq, Prod.mk.injEq,
            SimState.mk.injEq, List.set_cons_zero, List.cons.injEq, and_true] at hcall ⊢
          obtain ⟨h1, h2, h3, h4, h5, h6⟩ := hcall
          exact ⟨h1, by rw [h2], h3, h4, h5, h6⟩

/-! ## After a call the tag is resident -/

/-- Every call on a well-formed row returns; afterwards some valid line of the
row holds the tag, the counter has advanced once, and either the call was a hit
(hit count advanced, no eviction returned) or it was a miss (miss count
advanced, eviction returned exactly when the overwritten line was valid). -/
theorem checkHitAndMiss_resident (st : SimState) (tag : Nat) {set E : Nat} {row : List Line}
    (hrow : st.cache[set]? = some row) (hlen : row.length = E) (hE : 1 ≤ E) :
    ∃ (ev : Bool) (st1 : SimState) (row1 : List Line),
      checkHitAndMiss st tag set E = some (ev, st1) ∧
      st1.cache[set]? = some row1 ∧ row1.length = E ∧
      (∃ (j : Nat) (l : Line), row1[j]? = some l ∧ Holds tag l) ∧
      st1.operationNum = wrapInt (st.operationNum + 1) ∧
      st1.numEviction = st.numEviction ∧
      ((ev = false ∧ st1.numHits = wrapInt (st.numHits + 1) ∧ st1.numMisses = st.numMisses ∧
          ∃ (j : Nat) (l : Line), row[j]? = some l ∧ Holds tag l) ∨
       (st1.numHits = st.numHits ∧ st1.numMisses = wrapInt (st.numMisses + 1) ∧
          (∀ (k : Nat) (l' : Line), row[k]? = some l' → ¬ Holds tag l') ∧
          ∃ (j : Nat) (l : Line), row[j]? = some l ∧ ev = decide (l.validBit = 1))) := by
  have hset : set < st.cache.length := (List.getElem?_eq_some.mp hrow).1
  rcases first_holds_or_none tag row with ⟨j, l, hj, hm, hfirst⟩ | hno
  · have hjlt : j < row.length := (List.getElem?_eq_some.mp hj).1
    refine ⟨_, _, _, checkHitAndMiss_of_hit st tag hrow hlen hj hm hfirst,
      List.getElem?_set_self hset, by rw [List.length_set, hlen], ?_, rfl, rfl,
      Or.inl ⟨rfl, rfl, rfl, j, l, hj, hm⟩⟩
    exact ⟨j, _, List.getElem?_set_self hjlt, hm⟩
  · rcases checkHitAndMiss_of_miss st tag hrow hlen hE hno with ⟨j, l, hjE, hj, hres, _, _⟩
    have hjlt : j < row.length := by omega
    refine ⟨_, _, _, hres, List.getElem?_set_self hset, by rw [List.length_set, hlen], ?_,
      rfl, rfl, Or.inr ⟨rfl, rfl, hno, j, l, hj, rfl⟩⟩
    exact ⟨j, _, List.getElem?_set_self hjlt, rfl, rfl⟩

/-! ## `setTagAndSet` -/

/-- With `1 ≤ s ≤ 32` the double shift keeps the low `s` bits of `addr >> b`. -/
theorem setTagAndSet_set (addr s b : Nat) (hs1 : 1 ≤ s) (hs2 : s ≤ 32) :
    (setTagAndSet addr s b).1 = addr / 2 ^ (b % 64) % 2 ^ s := by
  have hk : (64 + 2 ^ 64 - s % 2 ^ 64) % 2 ^ 64 = 64 - s := by
    have h1 : s % 2 ^ 64 = s := Nat.mod_eq_of_lt (by omega)
    rw [h1]
    omega
  have hk64 : (64 - s) % 64 = 64 - s := Nat.mod_eq_of_lt (by omega)
  have hpow : (2 : Nat) ^ 64 = 2 ^ s * 2 ^ (64 - s) := by
    rw [← pow_add]
    congr 1
    omega
  have hpos : 0 < (2 : Nat) ^ (64 - s) := Nat.two_pow_pos _
  have hle : (2 : Nat) ^ s ≤ 2 ^ 32 := Nat.pow_le_pow_right (by decide) hs2
  have hlt : addr / 2 ^ (b % 64) % 2 ^ s < 2 ^ s := Nat.mod_lt _ (Nat.two_pow_pos _)
  simp only [setTagAndSet, shl64, shr64, hk, hk64]
  rw [hpow, Nat.mul_mod_mul_right, Nat.mul_div_cancel _ hpos]
  exact Nat.mod_eq_of_lt (by omega)

/-- With `1 ≤ s ≤ 32` the set index lies below `2 ^ s`. -/
theorem setTagAndSet_set_lt (addr s b : Nat) (hs1 : 1 ≤ s) (hs2 : s ≤ 32) :
    (setTagAndSet addr s b).1 < 2 ^ s := by
  rw [setTagAndSet_set addr s b hs1 hs2]
  exact Nat.mod_lt _ (Nat.two_pow_pos _)

/-! ## Reachable states -/

theorem checkHitAndMiss_out_of_range {st : SimState} {tag set E : Nat} (hE : 1 ≤ E)
    (h : st.cache[set]? = none) : checkHitAndMiss st tag set E = none := by
  obtain ⟨n, rfl⟩ : ∃ n, E = n + 1 := ⟨E - 1, by omega⟩
  simp [checkHitAndMiss, hitScan, lineAt, h]

theorem inv_initState (S E : Nat) : Inv S E 0 (initState S E) := by
  refine ⟨by simp [initState], ?_, rfl, ?_, le_refl _, le_refl _, rfl, le_refl _, le_refl _,
    fun h => absurd h (lt_irrefl 0)⟩
  · intro row hrow
    simp only [initState] at hrow
    rw [List.eq_of_mem_replicate hrow]
    simp
  · intro row hrow l hl
    simp only [initState] at hrow
    rw [List.eq_of_mem_replicate hrow] at hl
    rw [List.eq_of_mem_replicate hl]
    simp [LineOk, zeroLine]

theorem lineOk_succ {n : Nat} {l : Line} (h : LineOk n l) : LineOk (n + 1) l := by
  obtain ⟨h1, h2, h3, h4⟩ := h
  refine ⟨h1, ?_, h3, h4⟩
  push_cast
  omega

/-- One memory reference keeps the invariant, as long as the counter stays in
the range of `int`. -/
theorem access_inv {S E n : Nat} {st st' : SimState} {tag set : Nat} (hinv : Inv S E n st)
    (hE : 1 ≤ E) (hn : n + 1 < 2 ^ 31) (h : access st tag set E = some st') :
    Inv S E (n + 1) st' := by
  obtain ⟨hS, hshape, hc, hops, hh, hm, hsum, he1, he2, hpos⟩ := hinv
  have hwc : wrapInt (st.operationNum + 1) = ((n + 1 : Nat) : Int) := by
    rw [wrapInt_eq_self _ (by omega) (by omega), hc]
    push_cast
    rfl
  cases hrow : st.cache[set]? with
  | none =>
    rw [access, checkHitAndMiss_out_of_range hE hrow] at h
    cases h
  | some row =>
    have hmem : row ∈ st.cache := List.getElem?_mem hrow
    have hlen : row.length = E := hshape row hmem
    have hkey : ∀ (j : Nat) (l' : Line), LineOk (n + 1) l' →
        (st.cache.set set (row.set j l')).length = S ∧
        (∀ r ∈ st.cache.set set (row.set j l'), r.length = E) ∧
        (∀ r ∈ st.cache.set set (row.set j l'), ∀ l ∈ r, LineOk (n + 1) l) := by
      intro j l' hl'
      refine ⟨by simp [hS], ?_, ?_⟩
      · intro r hr
        rcases List.mem_or_eq_of_mem_set hr with hr | hr
        · exact hshape r hr
        · rw [hr, List.length_set, hlen]
      · intro r hr l hl
        rcases List.mem_or_eq_of_mem_set hr with hr | hr
        · exact lineOk_succ (hops r hr l hl)
        · rw [hr] at hl
          rcases List.mem_or_eq_of_mem_set hl with hl | hl
          · exact lineOk_succ (hops row hmem l hl)
          · rw [hl]
            exact hl'
    rcases first_holds_or_none tag row with ⟨j, l, hj, hhold, hfirst⟩ | hno
    · rw [access, checkHitAndMiss_of_hit st tag hrow hlen hj hhold hfirst] at h
      simp only [Option.map_some', countEviction, Bool.false_eq_true, if_false,
        Option.some.injEq] at h
      subst h
      have hwh : wrapInt (st.numHits + 1) = st.numHits + 1 :=
        wrapInt_eq_self _ (by omega) (by omega)
      have hlok := hops row hmem l (List.getElem?_mem hj)
      have hl1 : 1 ≤ l.operationNumber := hlok.2.2.1.mp hhold.1
      have hnpos : 0 < n := by
        have := hlok.2.1
        omega
      obtain ⟨k1, k2, k3⟩ := hkey j { l with operationNumber := wrapInt (st.operationNum + 1) }
        (by
          refine ⟨?_, ?_, ?_, hlok.2.2.2⟩
          · simp only [hwc]
            omega
          · simp only [hwc]
            exact le_refl _
          · simp only [hwc, hhold.1, true_iff]
            omega)
      refine ⟨k1, k2, hwc, k3, ?_, hm, ?_, he1, he2, fun _ => hpos hnpos⟩
      · simp only [hwh]
        omega
      · simp only [hwh]
        push_cast
        omega
    · rcases checkHitAndMiss_of_miss st tag hrow hlen hE hno with ⟨j, l, _, _, hres, _, _⟩
      rw [access, hres] at h
      have hwm : wrapInt (st.numMisses + 1) = st.numMisses + 1 :=
        wrapInt_eq_self _ (by omega) (by omega)
      have hwe : wrapInt (st.numEviction + 1) = st.numEviction + 1 :=
        wrapInt_eq_self _ (by omega) (by omega)
      obtain ⟨k1, k2, k3⟩ := hkey j
        { validBit := 1, tag := tag, operationNumber := wrapInt (st.operationNum + 1) }
        (by
          refine ⟨?_, ?_, ?_, Or.inr rfl⟩
          · simp only [hwc]
            omega
          · simp only [hwc]
            exact le_refl _
          · simp only [hwc, true_iff]
            omega)
      simp only [Option.map_some', countEviction, Option.some.injEq] at h
      subst h
      by_cases hv : l.validBit = 1
      · simp only [hv, decide_True, if_true, hwm, hwe]
        refine ⟨k1, k2, hwc, k3, hh, ?_, ?_, ?_, ?_, ?_⟩ <;> dsimp only <;> push_cast <;> omega
      · simp only [hv, decide_False, Bool.false_eq_true, if_false, hwm]
        refine ⟨k1, k2, hwc, k3, hh, ?_, ?_, he1, ?_, ?_⟩ <;> dsimp only <;> push_cast <;> omega

/-- The body of the replay loop keeps the invariant. -/
theorem processRecord_inv {s E b S n : Nat} {st st' : SimState} {r : Record}
    (hinv : Inv S E n st) (hE : 1 ≤ E) (hn : n + refCount [r] < 2 ^ 31)
    (h : processRecord s E b st r = some st') : Inv S E (n + refCount [r]) st' := by
  unfold processRecord at h
  by_cases hM : r.operation = "M"
  · simp only [hM, if_true] at h
    have hcount : refCount [r] = 2 := by simp [refCount, hM]
    rw [hcount] at hn ⊢
    cases h1 : access st (setTagAndSet r.addr s b).2 (setTagAndSet r.addr s b).1 E with
    | none => simp [h1] at h
    | some st1 =>
      simp only [h1] at h
      have i1 := access_inv hinv hE (by omega) h1
      exact access_inv i1 hE (by omega) h
  · by_cases hI : r.operation = "I"
    · have hcount : refCount [r] = 0 := by simp [refCount, hI]
      simp only [hI] at h
      simp at h
      subst h
      rw [hcount]
      exact hinv
    · have hcount : refCount [r] = 1 := by simp [refCount, hM, hI]
      rw [hcount] at hn ⊢
      simp only [hM, if_false, ne_eq, hI, not_false_eq_true, if_true] at h
      exact access_inv hinv hE hn h

theorem refCount_cons (r : Record) (rest : List Record) :
    refCount (r :: rest) = refCount [r] + refCount rest := by
  simp [refCount]

/-- The replay loop keeps the invariant. -/
theorem replay_inv {s E b S : Nat} (hE : 1 ≤ E) :
    ∀ (trace : List Record) (n : Nat) (st st' : SimState), Inv S E n st →
      n + refCount trace < 2 ^ 31 → replay s E b st trace = some st' →
      Inv S E (n + refCount trace) st' := by
  intro trace
  induction trace with
  | nil =>
    intro n st st' hinv _ h
    simp only [replay, Option.some.injEq] at h
    subst h
    simpa [refCount] using hinv
  | cons r rest ih =>
    intro n st st' hinv hn h
    rw [refCount_cons] at hn ⊢
    cases h1 : processRecord s E b st r with
    | none => simp [replay, h1] at h
    | some st1 =>
      simp only [replay, h1] at h
      have i1 := processRecord_inv hinv hE (by omega) h1
      have i2 := ih (n + refCount [r]) st1 st' i1 (by omega) h
      rw [Nat.add_assoc] at i2
      exact i2

/-- Every state reached by `runSimulation` on a trace of fewer than `2 ^ 31`
references satisfies the invariant, with `S = 2 ^ s` sets. -/
theorem runState_inv {s E b : Nat} {trace : List Record} {st : SimState} (hE : 1 ≤ E)
    (hn : refCount trace < 2 ^ 31) (h : runState s E b trace = some st) :
    Inv (2 ^ s) E (refCount trace) st := by
  unfold runState numSets at h
  by_cases hs : s ≤ 30
  · simp only [hs, if_true] at h
    have := replay_inv (s := s) (b := b) hE trace 0 _ st (inv_initState (2 ^ s) E)
      (by omega) h
    simpa using this
  · simp [hs] at h

/-! ## C1: the hit path of `checkHitAndMiss` -/

/-- C1 (as stated, refuted): in a state whose operation counter and hit count
are both `INT_MAX`, a hit stores `-2147483648` in the line, in the counter and in
the hit count, not the old values plus one. -/
theorem checkHitAndMiss_hit_counter_overflow :
    checkHitAndMiss
        { cache := [[{ validBit := 1, tag := 5, operationNumber := 0 }]]
          operationNum := 2147483647, numEviction := 0, numHits := 2147483647
          numMisses := 0 } 5 0 1
      = some (false,
        { cache := [[{ validBit := 1, tag := 5, operationNumber := -2147483648 }]]
          operationNum := -2147483648, numEviction := 0, numHits := -2147483648
          numMisses := 0 }) ∧
    (-2147483648 : Int) ≠ 2147483647 + 1 := by
  decide

/-- C1 (amended): for every cache state whose operation counter and hit count
are `int` values below `INT_MAX`, every `E ≥ 1`, every in-range set index and
every tag, `checkHitAndMiss` returns, and it records a hit (the hit count grows
by one) if and only if some line of the addressed set has `validBit = 1` and the
target tag; in that case the lowest-index such line gets `operationNumber` = old
counter + 1 with `validBit` and `tag` unchanged, the counter and the hit count
each grow by one, the miss count is unchanged and the call returns
"no eviction". -/
theorem checkHitAndMiss_hit_contract (st : SimState) (tag set E : Nat) (row : List Line)
    (hE : 1 ≤ E) (hrow : st.cache[set]? = some row) (hlen : row.length = E)
    (hc1 : -2 ^ 31 ≤ st.operationNum) (hc2 : st.operationNum < 2 ^ 31 - 1)
    (hh1 : -2 ^ 31 ≤ st.numHits) (hh2 : st.numHits < 2 ^ 31 - 1) :
    ∃ (ev : Bool) (st' : SimState), checkHitAndMiss st tag set E = some (ev, st') ∧
      (st'.numHits = st.numHits + 1 ↔
        ∃ (i : Nat) (l : Line), row[i]? = some l ∧ l.validBit = 1 ∧ l.tag = tag) ∧
      ∀ (i : Nat) (l : Line), row[i]? = some l → l.validBit = 1 → l.tag = tag →
        (∀ (k : Nat) (l' : Line), k < i → row[k]? = some l' →
          ¬ (l'.validBit = 1 ∧ l'.tag = tag)) →
        lineAt st'.cache set i = some { l with operationNumber := st.operationNum + 1 } ∧
        st'.operationNum = st.operationNum + 1 ∧ st'.numHits = st.numHits + 1 ∧
        st'.numMisses = st.numMisses ∧ ev = false := by
  have hwc : wrapInt (st.operationNum + 1) = st.operationNum + 1 :=
    wrapInt_eq_self _ (by omega) (by omega)
  have hwh : wrapInt (st.numHits + 1) = st.numHits + 1 :=
    wrapInt_eq_self _ (by omega) (by omega)
  have hset : set < st.cache.length := by
    rcases List.getElem?_eq_some.mp hrow with ⟨hlt, _⟩
    exact hlt
  rcases first_holds_or_none tag row with ⟨j, l, hj, hm, hfirst⟩ | hno
  · have hjlt : j < row.length := by
      rcases List.getElem?_eq_some.mp hj with ⟨hlt, _⟩
      exact hlt
    refine ⟨_, _, checkHitAndMiss_of_hit st tag hrow hlen hj hm hfirst, ?_, ?_⟩
    · simp only [hwh, true_iff]
      exact ⟨j, l, hj, hm.1, hm.2⟩
    · intro i l2 hi hv ht hfirst2
      have hij : i = j := by
        rcases Nat.lt_trichotomy i j with hlt | heq | hgt
        · exact absurd ⟨hv, ht⟩ (hfirst i l2 hlt hi)
        · exact heq
        · exact absurd hm (hfirst2 j l hgt hj)
      subst hij
      rw [hj] at hi
      cases hi
      refine ⟨?_, hwc, hwh, rfl, rfl⟩
      simp [lineAt, hset, hjlt, hwc]
  · rcases checkHitAndMiss_of_miss st tag hrow hlen hE hno with ⟨j, l, _, _, hres, _, _⟩
    refine ⟨_, _, hres, ?_, ?_⟩
    · constructor
      · intro h
        simp only at h
        omega
      · rintro ⟨i, l2, hi, hv, ht⟩
        exact absurd ⟨hv, ht⟩ (hno i l2 hi)
    · intro i l2 hi hv ht _
      exact absurd ⟨hv, ht⟩ (hno i l2 hi)

/-- C1 (amended), instance: a two-line set whose second line holds tag 5. -/
theorem checkHitAndMiss_hit_contract_witness :
    ∃ (ev : Bool) (st' : SimState),
      checkHitAndMiss
        { cache := [[{ validBit := 0, tag := 0, operationNumber := 0 },
                     { validBit := 1, tag := 5, operationNumber := 3 }]]
          operationNum := 7, numEviction := 0, numHits := 2, numMisses := 5 } 5 0 2
        = some (ev, st') ∧
      lineAt st'.cache 0 1 = some { validBit := 1, tag := 5, operationNumber := 8 } ∧
      st'.operationNum = 8 ∧ st'.numHits = 3 ∧ st'.numMisses = 5 ∧ ev = false := by
  obtain ⟨ev, st', h1, _, h3⟩ := checkHitAndMiss_hit_contract
    { cache := [[{ validBit := 0, tag := 0, operationNumber := 0 },
                 { validBit := 1, tag := 5, operationNumber := 3 }]]
      operationNum := 7, numEviction := 0, numHits := 2, numMisses := 5 } 5 0 2
    [{ validBit := 0, tag := 0, operationNumber := 0 },
     { validBit := 1, tag := 5, operationNumber := 3 }]
    (by decide) rfl rfl (by decide) (by decide) (by decide) (by decide)
  refine ⟨ev, st', h1, ?_⟩
  have h := h3 1 { validBit := 1, tag := 5, operationNumber := 3 } rfl rfl rfl (by
    intro k l' hk hl'
    have hk0 : k = 0 := by omega
    subst hk0
    cases hl'
    decide)
  exact h

/-! ## C2: the miss path of `checkHitAndMiss` -/

theorem wrapInt_range (x : Int) : -2 ^ 31 ≤ wrapInt x ∧ wrapInt x < 2 ^ 31 := by
  unfold wrapInt
  omega

/-- Replaying `n + 1` loads of address 0 with `s = 1`, `E = 1`, `b = 0` on a state
whose set 0 holds tag 0: every load is a hit, and the counter and the hit count
advance `n + 1` times in `int` arithmetic. -/
theorem replay_repeated_hit (n : Nat) : ∀ (c h : Int),
    replay 1 1 0
      { cache := [[{ validBit := 1, tag := 0, operationNumber := c }], [zeroLine]]
        operationNum := c, numEviction := 0, numHits := h, numMisses := 1 }
      (List.replicate (n + 1) { operation := "L", addr := 0 })
    = some
      { cache := [[{ validBit := 1, tag := 0, operationNumber := wrapInt (c + (n + 1 : Nat)) }],
          [zeroLine]]
        operationNum := wrapInt (c + (n + 1 : Nat)), numEviction := 0
        numHits := wrapInt (h + (n + 1 : Nat)), numMisses := 1 } := by
  have hdec : setTagAndSet 0 1 0 = (0, 0) := by decide
  have hstep : ∀ (c h : Int),
      processRecord 1 1 0
        { cache := [[{ validBit := 1, tag := 0, operationNumber := c }], [zeroLine]]
          operationNum := c, numEviction := 0, numHits := h, numMisses := 1 }
        { operation := "L", addr := 0 }
      = some
        { cache := [[{ validBit := 1, tag := 0, operationNumber := wrapInt (c + 1) }], [zeroLine]]
          operationNum := wrapInt (c + 1), numEviction := 0
          numHits := wrapInt (h + 1), numMisses := 1 } := by
    intro c h
    simp [processRecord, hdec, access, checkHitAndMiss, hitScan, lineAt, storeLine,
      countEviction]
  induction n with
  | zero =>
    intro c h
    rw [List.replicate_succ, replay_cons_of_some (hstep c h)]
    simp [replay]
  | succ n ih =>
    intro c h
    rw [List.replicate_succ, replay_cons_of_some (hstep c h),
      ih (wrapInt (c + 1)) (wrapInt (h + 1))]
    have e1 : wrapInt (wrapInt (c + 1) + ((n + 1 : Nat) : Int)) = wrapInt (c + ((n + 1 + 1 : Nat) : Int)) := by
      rw [wrapInt_wrapInt_add]
      congr 1
      push_cast
      ring
    have e2 : wrapInt (wrapInt (h + 1) + ((n + 1 : Nat) : Int)) = wrapInt (h + ((n + 1 + 1 : Nat) : Int)) := by
      rw [wrapInt_wrapInt_add]
      congr 1
      push_cast
      ring
    rw [e1, e2]

/-- Replaying `2^31 - 1` loads of address 0 with `s = 1`, `E = 1`, `b = 0` on a
freshly initialised cache: one miss and `2^31 - 2` hits, which leave the counter
at `INT_MAX`. -/
theorem runState_repeated_load :
    runState 1 1 0 (List.replicate 2147483647 { operation := "L", addr := 0 })
      = some
        { cache := [[{ validBit := 1, tag := 0, operationNumber := 2147483647 }], [zeroLine]]
          operationNum := 2147483647, numEviction := 0, numHits := 2147483646
          numMisses := 1 } := by
  have hfirst : processRecord 1 1 0 (initState 2 1) { operation := "L", addr := 0 }
      = some
        { cache := [[{ validBit := 1, tag := 0, operationNumber := 1 }], [zeroLine]]
          operationNum := 1, numEviction := 0, numHits := 0, numMisses := 1 } := by
    decide
  have hsplit : List.replicate 2147483647 ({ operation := "L", addr := 0 } : Record)
      = { operation := "L", addr := 0 }
        :: List.replicate (2147483645 + 1) { operation := "L", addr := 0 } :=
    List.replicate_succ _ 2147483646
  have hnum : numSets 1 = some 2 := by decide
  rw [hsplit, runState_of_numSets hnum, replay_cons_of_some hfirst,
    replay_repeated_hit 2147483645 1 0]
  have e1 : wrapInt (1 + ((2147483645 + 1 : Nat) : Int)) = 2147483647 := by decide
  have e2 : wrapInt (0 + ((2147483645 + 1 : Nat) : Int)) = 2147483646 := by decide
  rw [e1, e2]

/-- C2 (as stated, refuted): replaying `2^31 - 1` loads of address 0 with
`s = 1`, `E = 1`, `b = 0` reaches a state whose counter is `INT_MAX`; a miss in
that state (tag 1, set 0) overwrites the line with `operationNumber`
`-2147483648`, not the old counter plus one. -/
theorem checkHitAndMiss_miss_counter_overflow :
    runState 1 1 0 (List.replicate 2147483647 { operation := "L", addr := 0 })
      = some
        { cache := [[{ validBit := 1, tag := 0, operationNumber := 2147483647 }], [zeroLine]]
          operationNum := 2147483647, numEviction := 0, numHits := 2147483646
          numMisses := 1 } ∧
    checkHitAndMiss
        { cache := [[{ validBit := 1, tag := 0, operationNumber := 2147483647 }], [zeroLine]]
          operationNum := 2147483647, numEviction := 0, numHits := 2147483646
          numMisses := 1 } 1 0 1
      = some (true,
        { cache := [[{ validBit := 1, tag := 1, operationNumber := -2147483648 }], [zeroLine]]
          operationNum := -2147483648, numEviction := 0, numHits := 2147483646
          numMisses := 2 }) ∧
    (-2147483648 : Int) ≠ 2147483647 + 1 :=
  ⟨runState_repeated_load, by decide, by decide⟩

/-- C2 (amended): in every cache state reachable by replaying, on a freshly
initialised cache, a trace of fewer than `2^31 - 1` memory references, for every
`E ≥ 1` and every miss (no valid line of the set holds the tag), the line `j`
that `checkHitAndMiss` overwrites is the highest-index line among those of the
set carrying the minimum `operationNumber`; on a never-touched set (all
`operationNumber` 0) it is line `E - 1`.  That line ends with `validBit = 1`, the
target tag and `operationNumber` = old counter + 1, and the call returns
"eviction" exactly when that line was valid before the call. -/
theorem checkHitAndMiss_miss_contract (s E b : Nat) (trace : List Record) (st : SimState)
    (tag set : Nat) (row : List Line)
    (hreach : runState s E b trace = some st) (hrefs : refCount trace < 2 ^ 31 - 1)
    (hE : 1 ≤ E) (hrow : st.cache[set]? = some row)
    (hmiss : ∀ (k : Nat) (l' : Line), row[k]? = some l' →
      ¬ (l'.validBit = 1 ∧ l'.tag = tag)) :
    ∃ (j : Nat) (l : Line) (ev : Bool) (st' : SimState),
      checkHitAndMiss st tag set E = some (ev, st') ∧ j < E ∧ row[j]? = some l ∧
      (∀ (k : Nat) (l' : Line), row[k]? = some l' → l.operationNumber ≤ l'.operationNumber) ∧
      (∀ (k : Nat) (l' : Line), j < k → row[k]? = some l' →
        l.operationNumber < l'.operationNumber) ∧
      ((∀ (k : Nat) (l' : Line), row[k]? = some l' → l'.operationNumber = 0) → j = E - 1) ∧
      st'.cache = st.cache.set set
        (row.set j { validBit := 1, tag := tag, operationNumber := st.operationNum + 1 }) ∧
      lineAt st'.cache set j
        = some { validBit := 1, tag := tag, operationNumber := st.operationNum + 1 } ∧
      (ev = true ↔ l.validBit = 1) := by
  obtain ⟨_, hshape, hc, hops, _, _, _, _, _, _⟩ := runState_inv hE (by omega) hreach
  have hmem : row ∈ st.cache := List.getElem?_mem hrow
  have hlen : row.length = E := hshape row hmem
  have hset : set < st.cache.length := (List.getElem?_eq_some.mp hrow).1
  have hwc : wrapInt (st.operationNum + 1) = st.operationNum + 1 :=
    wrapInt_eq_self _ (by omega) (by omega)
  rcases checkHitAndMiss_of_miss st tag hrow hlen hE hmiss with
    ⟨j, l, hjE, hj, hres, hmin, _⟩
  have h0 : 0 < row.length := by omega
  have hsome : ∃ (k : Nat) (l' : Line), row[k]? = some l' ∧
      l'.operationNumber ≤ st.operationNum := by
    refine ⟨0, row[0], List.getElem?_eq_getElem h0, ?_⟩
    rw [hc]
    exact (hops row hmem row[0] (List.getElem_mem h0)).2.1
  obtain ⟨hmin1, hmin2⟩ := hmin hsome
  rw [hwc] at hres
  refine ⟨j, l, _, _, hres, hjE, hj, hmin1, hmin2, ?_, rfl, ?_, ?_⟩
  · intro hzero
    have hlast : E - 1 < row.length := by omega
    by_contra hne
    have hlt : j < E - 1 := by omega
    have h1 := hmin2 (E - 1) row[E - 1] hlt (List.getElem?_eq_getElem hlast)
    have h2 := hzero (E - 1) row[E - 1] (List.getElem?_eq_getElem hlast)
    have h3 := hzero j l hj
    omega
  · have hjlt : j < row.length := by omega
    simp [lineAt, hset, hjlt]
  · simp

/-- C2 (amended), instance: the first miss on a fresh set of `E = 4` lines
overwrites line 3. -/
theorem checkHitAndMiss_miss_contract_witness :
    ∃ (l : Line) (ev : Bool) (st' : SimState),
      checkHitAndMiss (initState 2 4) 7 0 4 = some (ev, st') ∧
      (List.replicate 4 zeroLine)[3]? = some l ∧
      lineAt st'.cache 0 3 = some { validBit := 1, tag := 7, operationNumber := 0 + 1 } ∧
      (ev = true ↔ l.validBit = 1) := by
  have hmiss : ∀ (k : Nat) (l' : Line), (List.replicate 4 zeroLine)[k]? = some l' →
      ¬ (l'.validBit = 1 ∧ l'.tag = 7) := by
    intro k l' hk
    rw [List.eq_of_mem_replicate (List.getElem?_mem hk)]
    decide
  have hzero : ∀ (k : Nat) (l' : Line), (List.replicate 4 zeroLine)[k]? = some l' →
      l'.operationNumber = 0 := by
    intro k l' hk
    rw [List.eq_of_mem_replicate (List.getElem?_mem hk)]
    rfl
  obtain ⟨j, l, ev, st', h1, _, h3, _, _, h6, _, h8, h9⟩ :=
    checkHitAndMiss_miss_contract 1 4 0 [] (initState 2 4) 7 0 (List.replicate 4 zeroLine)
      (by decide) (by decide) (by decide) rfl hmiss
  have hj : j = 3 := h6 hzero
  subst hj
  exact ⟨l, ev, st', h1, h3, h8, h9⟩

/-! ## C3: address decomposition -/

/-- C3: for every address (in particular every 64-bit one) and every `s`, `b`
with `1 ≤ s ≤ 32` and `s + b ≤ 63`, `setTagAndSet` yields `tag = ⌊addr / 2^(s+b)⌋` and
`set = ⌊addr / 2^b⌋ mod 2^s`, which is `(addr >> b) & ((1 << s) - 1)`, so the set
index lies in `[0, 2^s)`. -/
theorem setTagAndSet_contract (addr s b : Nat)
    (hs1 : 1 ≤ s) (hs2 : s ≤ 32) (hsb : s + b ≤ 63) :
    (setTagAndSet addr s b).2 = addr / 2 ^ (s + b) ∧
    (setTagAndSet addr s b).1 = addr / 2 ^ b % 2 ^ s ∧
    (setTagAndSet addr s b).1 = (addr >>> b) &&& ((1 <<< s) - 1) ∧
    (setTagAndSet addr s b).1 < 2 ^ s := by
  have hb : b % 64 = b := Nat.mod_eq_of_lt (by omega)
  have hsb64 : (s + b) % 64 = s + b := Nat.mod_eq_of_lt (by omega)
  have hset := setTagAndSet_set addr s b hs1 hs2
  rw [hb] at hset
  refine ⟨?_, hset, ?_, setTagAndSet_set_lt addr s b hs1 hs2⟩
  · simp [setTagAndSet, shr64, hsb64]
  · rw [hset, Nat.shiftRight_eq_div_pow, Nat.one_shiftLeft, Nat.and_pow_two_sub_one_eq_mod]

/-- C3, instance: address `0x7ff000a8` with `s = 4`, `b = 5`. -/
theorem setTagAndSet_contract_witness :
    1 ≤ 4 ∧ 4 ≤ 32 ∧ 4 + 5 ≤ 63 ∧
    ((setTagAndSet 2146435240 4 5).2 = 2146435240 / 2 ^ (4 + 5) ∧
     (setTagAndSet 2146435240 4 5).1 = 2146435240 / 2 ^ 5 % 2 ^ 4 ∧
     (setTagAndSet 2146435240 4 5).1 = (2146435240 >>> 5) &&& ((1 <<< 4) - 1) ∧
     (setTagAndSet 2146435240 4 5).1 < 2 ^ 4) :=
  ⟨by decide, by decide, by decide,
    setTagAndSet_contract 2146435240 4 5 (by decide) (by decide) (by decide)⟩

/-! ## C4: filling a set and the first eviction -/

theorem filledLines_length (ts : List Nat) : (filledLines ts).length = ts.length := by
  induction ts with
  | nil => rfl
  | cons t ts ih => simp [filledLines, ih]

theorem filledLines_get : ∀ (ts : List Nat) (i : Nat) (l : Line),
    (filledLines ts)[i]? = some l →
      l.validBit = 1 ∧ l.tag ∈ ts ∧ 1 ≤ l.operationNumber ∧
      l.operationNumber ≤ (ts.length : Int) := by
  intro ts
  induction ts with
  | nil =>
    intro i l h
    simp [filledLines] at h
  | cons t ts ih =>
    intro i l h
    cases i with
    | zero =>
      simp only [filledLines, List.getElem?_cons_zero, Option.some.injEq] at h
      subst h
      simp
    | succ i =>
      simp only [filledLines, List.getElem?_cons_succ] at h
      obtain ⟨h1, h2, h3, h4⟩ := ih i l h
      refine ⟨h1, List.mem_cons_of_mem _ h2, h3, ?_⟩
      simp only [List.length_cons]
      push_cast
      omega

/-- A miss on a set with `m + 1` untouched lines followed by filled lines
overwrites the last untouched line and returns "no eviction". -/
theorem checkHitAndMiss_fill (st : SimState) (t set E m : Nat) (done : List Nat)
    (hrow : st.cache[set]? = some (List.replicate (m + 1) zeroLine ++ filledLines done))
    (hE : E = m + 1 + done.length) (ht : t ∉ done)
    (hc : st.operationNum = (done.length : Int)) (hmax : done.length + 1 < 2 ^ 31) :
    checkHitAndMiss st t set E = some (false,
      { st with
        cache := st.cache.set set (List.replicate m zeroLine ++ filledLines (t :: done))
        operationNum := (done.length : Int) + 1
        numMisses := wrapInt (st.numMisses + 1) }) := by
  have hlen : (List.replicate (m + 1) zeroLine ++ filledLines done).length = E := by
    simp [filledLines_length, hE]
  have hat : ∀ (k : Nat) (l' : Line),
      (List.replicate (m + 1) zeroLine ++ filledLines done)[k]? = some l' →
      (k < m + 1 ∧ l' = zeroLine) ∨
      (m + 1 ≤ k ∧ l'.validBit = 1 ∧ l'.tag ∈ done ∧ 1 ≤ l'.operationNumber) := by
    intro k l' hk
    by_cases hkm : k < m + 1
    · rw [List.getElem?_append_left (by simpa using hkm)] at hk
      exact Or.inl ⟨hkm, List.eq_of_mem_replicate (List.getElem?_mem hk)⟩
    · rw [List.getElem?_append_right (by simpa using hkm)] at hk
      obtain ⟨h1, h2, h3, _⟩ := filledLines_get done _ l' hk
      exact Or.inr ⟨by omega, h1, h2, h3⟩
  have hno : ∀ (k : Nat) (l' : Line),
      (List.replicate (m + 1) zeroLine ++ filledLines done)[k]? = some l' → ¬ Holds t l' := by
    intro k l' hk hh
    rcases hat k l' hk with ⟨_, hz⟩ | ⟨_, _, hmem, _⟩
    · rw [hz] at hh
      exact absurd hh.1 (by decide)
    · rw [hh.2] at hmem
      exact ht hmem
  have hm : (List.replicate (m + 1) zeroLine ++ filledLines done)[m]? = some zeroLine := by
    rw [List.getElem?_append_left (by simp)]
    simp
  rcases checkHitAndMiss_of_miss st t hrow hlen (by omega) hno with
    ⟨j, l, _, hj, hres, hmin, _⟩
  obtain ⟨hmin1, hmin2⟩ := hmin ⟨m, zeroLine, hm, by rw [hc]; simp [zeroLine]⟩
  have hle := hmin1 m zeroLine hm
  have hjm : j = m ∧ l = zeroLine := by
    rcases hat j l hj with ⟨hjlt, hz⟩ | ⟨_, _, _, hop⟩
    · refine ⟨?_, hz⟩
      by_contra hne
      have hlt := hmin2 m zeroLine (by omega) hm
      rw [hz] at hlt
      exact absurd hlt (lt_irrefl _)
    · simp only [zeroLine] at hle
      omega
  obtain ⟨hjeq, hleq⟩ := hjm
  subst hjeq hleq
  have hw : wrapInt (st.operationNum + 1) = (done.length : Int) + 1 := by
    rw [wrapInt_eq_self _ (by omega) (by omega), hc]
  have hsetrow : (List.replicate (j + 1) zeroLine ++ filledLines done).set j
        { validBit := 1, tag := t, operationNumber := (done.length : Int) + 1 }
      = List.replicate j zeroLine ++ filledLines (t :: done) := by
    rw [List.replicate_succ', List.append_assoc,
      List.set_append_right _ _ (by simp)]
    simp [filledLines]
  rw [hres, hw, hsetrow]
  rfl

/-- A miss on a set whose lines are all filled returns "eviction". -/
theorem checkHitAndMiss_evict (st : SimState) (t set E : Nat) (done : List Nat)
    (hrow : st.cache[set]? = some (filledLines done)) (hE : E = done.length) (hE1 : 1 ≤ E)
    (ht : t ∉ done) :
    ∃ (st' : SimState), checkHitAndMiss st t set E = some (true, st') ∧
      st'.numHits = st.numHits ∧ st'.numMisses = wrapInt (st.numMisses + 1) ∧
      st'.numEviction = st.numEviction := by
  have hlen : (filledLines done).length = E := by rw [filledLines_length, hE]
  have hno : ∀ (k : Nat) (l' : Line), (filledLines done)[k]? = some l' → ¬ Holds t l' := by
    intro k l' hk hh
    obtain ⟨_, hmem, _, _⟩ := filledLines_get done k l' hk
    rw [hh.2] at hmem
    exact ht hmem
  rcases checkHitAndMiss_of_miss st t hrow hlen hE1 hno with ⟨j, l, _, hj, hres, _, _⟩
  obtain ⟨hv, _, _, _⟩ := filledLines_get done j l hj
  rw [hv] at hres
  exact ⟨_, hres, rfl, rfl, rfl⟩

/-- Accessing `m + 1` new distinct tags on a set with `m` untouched lines: `m`
misses without eviction, then one miss with eviction. -/
theorem accessList_fill (set E : Nat) (hE1 : 1 ≤ E) (hmax : E < 2 ^ 31) :
    ∀ (m : Nat) (rest done : List Nat) (st : SimState),
      E = m + done.length → rest.length = m + 1 → (∀ t ∈ rest, t ∉ done) → rest.Nodup →
      st.cache[set]? = some (List.replicate m zeroLine ++ filledLines done) →
      st.operationNum = (done.length : Int) → st.numHits = 0 →
      st.numMisses = (done.length : Int) → st.numEviction = 0 →
      ∃ (st' : SimState),
        accessList st set E rest = some (List.replicate m false ++ [true], st') ∧
        st'.numHits = 0 ∧ st'.numMisses = wrapInt ((E : Int) + 1) ∧ st'.numEviction = 1 := by
  intro m
  induction m with
  | zero =>
    intro rest done st hE hlen hnew _ hrow _ hh hm he
    obtain ⟨t, rfl⟩ : ∃ t, rest = [t] := by
      match rest, hlen with
      | [t], _ => exact ⟨t, rfl⟩
    simp only [List.replicate, List.nil_append] at hrow
    obtain ⟨st1, h1, k1, k2, k3⟩ := checkHitAndMiss_evict st t set E done hrow (by omega) hE1
      (hnew t (List.mem_singleton_self t))
    refine ⟨countEviction (true, st1), ?_, ?_, ?_, ?_⟩
    · simp [accessList, h1]
    · rw [countEviction_numHits, k1, hh]
    · rw [countEviction_numMisses, k2, hm, hE]
      simp
    · rw [countEviction_numEviction, k3, he]
      decide
  | succ m ih =>
    intro rest done st hE hlen hnew hnd hrow hc hh hm he
    obtain ⟨t, rest', rfl⟩ : ∃ t rest', rest = t :: rest' := by
      match rest, hlen with
      | t :: rest', _ => exact ⟨t, rest', rfl⟩
    have hstep := checkHitAndMiss_fill st t set E m done hrow (by omega)
      (hnew t (List.mem_cons_self t rest')) hc (by omega)
    have hsetlt : set < st.cache.length := (List.getElem?_eq_some.mp hrow).1
    obtain ⟨st', h1, k1, k2, k3⟩ := ih rest' (t :: done)
      { st with
        cache := st.cache.set set (List.replicate m zeroLine ++ filledLines (t :: done))
        operationNum := (done.length : Int) + 1
        numMisses := wrapInt (st.numMisses + 1) }
      (by simp only [List.length_cons]; omega)
      (by simpa using hlen)
      (by
        intro t' ht' hmem
        rcases List.mem_cons.mp hmem with heq | hmem
        · subst heq
          exact (List.nodup_cons.mp hnd).1 ht'
        · exact hnew t' (List.mem_cons_of_mem _ ht') hmem)
      (List.nodup_cons.mp hnd).2
      (List.getElem?_set_self hsetlt)
      (by simp)
      hh
      (by
        simp only [List.length_cons]
        rw [hm, wrapInt_eq_self _ (by omega) (by omega)]
        push_cast
        rfl)
      he
    refine ⟨st', ?_, k1, k2, k3⟩
    simp only [accessList, hstep]
    have hce : countEviction (false,
        { st with
          cache := st.cache.set set (List.replicate m zeroLine ++ filledLines (t :: done))
          operationNum := (done.length : Int) + 1
          numMisses := wrapInt (st.numMisses + 1) })
      = { st with
          cache := st.cache.set set (List.replicate m zeroLine ++ filledLines (t :: done))
          operationNum := (done.length : Int) + 1
          numMisses := wrapInt (st.numMisses + 1) } := rfl
    rw [hce, h1]
    rfl

/-- Accessing `E + 1` pairwise distinct tags on one set of a freshly initialised
cache, for every `E` in the range of `int`: the miss count is `E + 1` reduced to
`int`. -/
theorem accessList_fresh (S E set : Nat) (tags : List Nat) (hE : 1 ≤ E) (hmax : E < 2 ^ 31)
    (hset : set < S) (hlen : tags.length = E + 1) (hnd : tags.Nodup) :
    ∃ (st' : SimState),
      accessList (initState S E) set E tags = some (List.replicate E false ++ [true], st') ∧
      st'.numHits = 0 ∧ st'.numMisses = wrapInt ((E : Int) + 1) ∧ st'.numEviction = 1 := by
  refine accessList_fill set E hE hmax E tags [] (initState S E) rfl hlen ?_ hnd ?_
    rfl rfl rfl rfl
  · intro t _ hmem
    cases hmem
  · simp [initState, hset, filledLines]

/-- C4 (as stated, refuted): with `E = INT_MAX` lines in the set, accessing the
`E + 1` distinct tags `0, 1, ..., 2^31 - 1` gives `E` misses without eviction and
one miss with eviction, and the miss count ends at `-2147483648`, not at
`E + 1`. -/
theorem capacity_miss_count_overflow :
    ∃ (st' : SimState),
      accessList (initState 1 2147483647) 0 2147483647 (List.range 2147483648)
        = some (List.replicate 2147483647 false ++ [true], st') ∧
      st'.numMisses = -2147483648 ∧ st'.numMisses ≠ 2147483647 + 1 := by
  obtain ⟨st', h1, _, h3, _⟩ := accessList_fresh 1 2147483647 0 (List.range 2147483648)
    (by decide) (by decide) (by decide) (by rw [List.length_range]) (List.nodup_range _)
  have hw : wrapInt (((2147483647 : Nat) : Int) + 1) = -2147483648 := by decide
  rw [hw] at h3
  refine ⟨st', h1, h3, ?_⟩
  rw [h3]
  decide

/-- C4 (amended): for every `E` with `1 ≤ E` and `E + 1 < 2^31`, and every
sequence of `E + 1` pairwise distinct tags that all map to the same set,
performing those `E + 1` accesses in order on a freshly initialised cache
produces exactly `E` misses that return "no eviction" followed by exactly one
miss that returns "eviction" (hits = 0, misses = `E + 1`, evictions = 1). -/
theorem capacity_contract (S E set : Nat) (tags : List Nat) (hE : 1 ≤ E)
    (hmax : E + 1 < 2 ^ 31) (hset : set < S) (hlen : tags.length = E + 1)
    (hnd : tags.Nodup) :
    ∃ (st' : SimState),
      accessList (initState S E) set E tags = some (List.replicate E false ++ [true], st') ∧
      st'.numHits = 0 ∧ st'.numMisses = (E : Int) + 1 ∧ st'.numEviction = 1 := by
  obtain ⟨st', h1, h2, h3, h4⟩ := accessList_fresh S E set tags hE (by omega) hset hlen hnd
  rw [wrapInt_eq_self _ (by omega) (by omega)] at h3
  exact ⟨st', h1, h2, h3, h4⟩

/-- C4 (amended), instance: tags 5, 6, 7 on set 1 of a two-set cache with
`E = 2`. -/
theorem capacity_contract_witness :
    ∃ (st' : SimState),
      accessList (initState 2 2) 1 2 [5, 6, 7] = some (List.replicate 2 false ++ [true], st') ∧
      st'.numHits = 0 ∧ st'.numMisses = ((2 : Nat) : Int) + 1 ∧ st'.numEviction = 1 :=
  capacity_contract 2 2 1 [5, 6, 7] (by decide) (by decide) (by decide) rfl (by decide)

/-! ## C5: LRU order with two lines -/

/-- C5: with `E = 2` and three pairwise distinct tags `A`, `B`, `C` mapping to
the same set, accessing `A`, `B`, `A`, `C` in that order on a freshly initialised
cache gives miss, miss, hit, miss-with-eviction; the fourth access overwrites the
line holding `B`, so that afterwards the two valid lines of the set hold `C` and
`A`. -/
theorem lru_order_two_lines (S set A B C : Nat) (hset : set < S)
    (hAB : A ≠ B) (hAC : A ≠ C) (hBC : B ≠ C) :
    ∃ (st1 st2 st3 st4 : SimState),
      checkHitAndMiss (initState S 2) A set 2 = some (false, st1) ∧
      st1.numHits = 0 ∧ st1.numMisses = 1 ∧
      checkHitAndMiss st1 B set 2 = some (false, st2) ∧
      st2.numHits = 0 ∧ st2.numMisses = 2 ∧
      checkHitAndMiss st2 A set 2 = some (false, st3) ∧
      st3.numHits = 1 ∧ st3.numMisses = 2 ∧
      st3.cache[set]? = some [{ validBit := 1, tag := B, operationNumber := 2 },
                              { validBit := 1, tag := A, operationNumber := 3 }] ∧
      checkHitAndMiss st3 C set 2 = some (true, st4) ∧
      st4.numHits = 1 ∧ st4.numMisses = 3 ∧
      st4.cache[set]? = some [{ validBit := 1, tag := C, operationNumber := 4 },
                              { validBit := 1, tag := A, operationNumber := 3 }] := by
  have hlen : set < (initState S 2).cache.length := by
    simp [initState, hset]
  have hBA : B ≠ A := Ne.symm hAB
  have hCA : C ≠ A := Ne.symm hAC
  have hCB : C ≠ B := Ne.symm hBC
  have h0 : (initState S 2).cache[set]? = some [zeroLine, zeroLine] := by
    simp [initState, hset]
  have c1 := checkHitAndMiss_row (initState S 2) A set 2 [zeroLine, zeroLine]
    [zeroLine, { validBit := 1, tag := A, operationNumber := 1 }] false 1 0 0 1 h0
    (by simp [initState, checkHitAndMiss, hitScan, lruScan, lineAt, storeLine, zeroLine,
      wrapInt])
  have c2 := checkHitAndMiss_row
    { cache := (initState S 2).cache.set set
        [zeroLine, { validBit := 1, tag := A, operationNumber := 1 }]
      operationNum := 1, numEviction := 0, numHits := 0, numMisses := 1 } B set 2
    [zeroLine, { validBit := 1, tag := A, operationNumber := 1 }]
    [{ validBit := 1, tag := B, operationNumber := 2 },
     { validBit := 1, tag := A, operationNumber := 1 }] false 2 0 0 2
    (List.getElem?_set_self hlen)
    (by simp [checkHitAndMiss, hitScan, lruScan, lineAt, storeLine, zeroLine, wrapInt, hAB])
  have c3 := checkHitAndMiss_row
    { cache := ((initState S 2).cache.set set
        [zeroLine, { validBit := 1, tag := A, operationNumber := 1 }]).set set
        [{ validBit := 1, tag := B, operationNumber := 2 },
         { validBit := 1, tag := A, operationNumber := 1 }]
      operationNum := 2, numEviction := 0, numHits := 0, numMisses := 2 } A set 2
    [{ validBit := 1, tag := B, operationNumber := 2 },
     { validBit := 1, tag := A, operationNumber := 1 }]
    [{ validBit := 1, tag := B, operationNumber := 2 },
     { validBit := 1, tag := A, operationNumber := 3 }] false 3 0 1 2
    (List.getElem?_set_self (by simpa using hlen))
    (by simp [checkHitAndMiss, hitScan, lruScan, lineAt, storeLine, zeroLine, wrapInt, hBA])
  have c4 := checkHitAndMiss_row
    { cache := (((initState S 2).cache.set set
        [zeroLine, { validBit := 1, tag := A, operationNumber := 1 }]).set set
        [{ validBit := 1, tag := B, operationNumber := 2 },
         { validBit := 1, tag := A, operationNumber := 1 }]).set set
        [{ validBit := 1, tag := B, operationNumber := 2 },
         { validBit := 1, tag := A, operationNumber := 3 }]
      operationNum := 3, numEviction := 0, numHits := 1, numMisses := 2 } C set 2
    [{ validBit := 1, tag := B, operationNumber := 2 },
     { validBit := 1, tag := A, operationNumber := 3 }]
    [{ validBit := 1, tag := C, operationNumber := 4 },
     { validBit := 1, tag := A, operationNumber := 3 }] true 4 0 1 3
    (List.getElem?_set_self (by simpa using hlen))
    (by simp [checkHitAndMiss, hitScan, lruScan, lineAt, storeLine, zeroLine, wrapInt, hBC,
      hAC])
  refine ⟨_, _, _, _, c1, rfl, rfl, c2, rfl, rfl, c3, rfl, rfl, ?_, c4, rfl, rfl, ?_⟩
  · exact List.getElem?_set_self (by simpa using hlen)
  · exact List.getElem?_set_self (by simpa using hlen)

/-- C5, instance: tags 10, 20, 30 in set 2 of a four-set cache. -/
theorem lru_order_two_lines_witness :
    ∃ (st1 st2 st3 st4 : SimState),
      checkHitAndMiss (initState 4 2) 10 2 2 = some (false, st1) ∧
      st1.numHits = 0 ∧ st1.numMisses = 1 ∧
      checkHitAndMiss st1 20 2 2 = some (false, st2) ∧
      st2.numHits = 0 ∧ st2.numMisses = 2 ∧
      checkHitAndMiss st2 10 2 2 = some (false, st3) ∧
      st3.numHits = 1 ∧ st3.numMisses = 2 ∧
      st3.cache[2]? = some [{ validBit := 1, tag := 20, operationNumber := 2 },
                            { validBit := 1, tag := 10, operationNumber := 3 }] ∧
      checkHitAndMiss st3 30 2 2 = some (true, st4) ∧
      st4.numHits = 1 ∧ st4.numMisses = 3 ∧
      st4.cache[2]? = some [{ validBit := 1, tag := 30, operationNumber := 4 },
                            { validBit := 1, tag := 10, operationNumber := 3 }] :=
  lru_order_two_lines 4 2 10 20 30 (by decide) (by decide) (by decide) (by decide)

/-! ## C6: modify records -/

/-- C6 (as stated, refuted), in two reachable states.  With `s = 0`, `E = 1`,
`b = 0` the fresh cache is reachable (empty trace) and an `M` record at address
`0x10` gets set index 16, outside the one-set array, so nothing is added to the
counts.  With `s = 1`, `E = 1`, `b = 0` the state after `2^31 - 1` loads of
address 0 is reachable, and an `M` record at address 0 wraps the hit count from
`2147483646` to `-2147483648`, so `hits + misses` does not grow by 2. -/
theorem modify_record_refuted :
    (runState 0 1 0 [] = some (initState 1 1) ∧
      processRecord 0 1 0 (initState 1 1) { operation := "M", addr := 16 } = none) ∧
    (runState 1 1 0 (List.replicate 2147483647 { operation := "L", addr := 0 })
      = some
        { cache := [[{ validBit := 1, tag := 0, operationNumber := 2147483647 }], [zeroLine]]
          operationNum := 2147483647, numEviction := 0, numHits := 2147483646
          numMisses := 1 } ∧
      processRecord 1 1 0
        { cache := [[{ validBit := 1, tag := 0, operationNumber := 2147483647 }], [zeroLine]]
          operationNum := 2147483647, numEviction := 0, numHits := 2147483646
          numMisses := 1 } { operation := "M", addr := 0 }
      = some
        { cache := [[{ validBit := 1, tag := 0, operationNumber := -2147483647 }], [zeroLine]]
          operationNum := -2147483647, numEviction := 0, numHits := -2147483648
          numMisses := 1 } ∧
      (-2147483648 : Int) + 1 ≠ 2147483646 + 1 + 2) :=
  ⟨⟨by decide, by decide⟩, runState_repeated_load, by decide, by decide⟩

/-- C6 (amended): for every geometry with `s ≥ 1` and `E ≥ 1`, every cache state
reached by replaying a trace of fewer than `2^31 - 1` memory references on a
freshly initialised cache, and every address, processing an `M` record performs
two calls of `checkHitAndMiss` on the same (tag, set), of which the second is a
hit and returns "no eviction": the record adds exactly 2 to `hits + misses`, at
most 1 to `misses`, at least 1 to `hits`, and to `evictions` exactly 1 if the
first call returned "eviction" and 0 otherwise. -/
theorem modify_record_contract (s E b : Nat) (trace : List Record) (st : SimState)
    (addr : Nat) (hreach : runState s E b trace = some st)
    (hrefs : refCount trace < 2 ^ 31 - 1) (hE : 1 ≤ E) (hs : 1 ≤ s) :
    ∃ (ev1 : Bool) (st1 st2 : SimState),
      checkHitAndMiss st (setTagAndSet addr s b).2 (setTagAndSet addr s b).1 E
        = some (ev1, st1) ∧
      checkHitAndMiss (countEviction (ev1, st1)) (setTagAndSet addr s b).2
          (setTagAndSet addr s b).1 E
        = some (false, st2) ∧
      st2.numHits = st1.numHits + 1 ∧ st2.numMisses = st1.numMisses ∧
      processRecord s E b st { operation := "M", addr := addr } = some st2 ∧
      st2.numHits + st2.numMisses = st.numHits + st.numMisses + 2 ∧
      st2.numMisses ≤ st.numMisses + 1 ∧ st.numHits + 1 ≤ st2.numHits ∧
      st2.numEviction = st.numEviction + (if ev1 = true then 1 else 0) ∧
      st2.numEviction ≤ st.numEviction + 1 := by
  have hs30 : s ≤ 30 := by
    by_contra hgt
    simp [runState, numSets, hgt] at hreach
  obtain ⟨hS, hshape, hc, hops, hh, hm, hsum, he1, he2, hpos⟩ :=
    runState_inv hE (by omega) hreach
  have hlt : (setTagAndSet addr s b).1 < 2 ^ s := setTagAndSet_set_lt addr s b hs (by omega)
  obtain ⟨set, tag, hp⟩ : ∃ (set tag : Nat), setTagAndSet addr s b = (set, tag) := ⟨_, _, rfl⟩
  rw [hp] at hlt
  simp only [hp]
  have hsetlt : set < st.cache.length := by omega
  have hrow : st.cache[set]? = some st.cache[set] := List.getElem?_eq_getElem hsetlt
  have hlen : st.cache[set].length = E := hshape _ (List.getElem_mem hsetlt)
  obtain ⟨ev1, st1, row1, h1, hrow1, hlen1, hres1, _, hev1, hcase1⟩ :=
    checkHitAndMiss_resident st tag hrow hlen hE
  have hrow1' : (countEviction (ev1, st1)).cache[set]? = some row1 := by
    rw [countEviction_cache]
    exact hrow1
  obtain ⟨ev2, st2, row2, h2, _, _, _, _, hev2, hcase2⟩ :=
    checkHitAndMiss_resident (countEviction (ev1, st1)) tag hrow1' hlen1 hE
  rw [countEviction_numHits, countEviction_numMisses] at hcase2
  rw [countEviction_numEviction, hev1] at hev2
  rcases hcase2 with ⟨hevf, hh2, hm2, _⟩ | ⟨_, _, hno, _⟩
  · subst hevf
    have hacc1 : access st tag set E = some (countEviction (ev1, st1)) := by
      simp only [access, h1, Option.map_some']
    have hacc2 : access (countEviction (ev1, st1)) tag set E = some st2 := by
      rw [access, h2]
      rfl
    have hproc : processRecord s E b st { operation := "M", addr := addr } = some st2 := by
      simp [processRecord, hp, hacc1, hacc2]
    have hbounds : 0 ≤ st1.numHits ∧ st1.numHits + 1 < 2 ^ 31 ∧
        st1.numHits + st1.numMisses = st.numHits + st.numMisses + 1 ∧
        st.numHits ≤ st1.numHits ∧ st.numMisses ≤ st1.numMisses := by
      rcases hcase1 with ⟨_, k1, k2, j, l, hj, hhold⟩ | ⟨k1, k2, _, _⟩
      · have hlok := hops _ (List.getElem_mem hsetlt) l (List.getElem?_mem hj)
        have hl1 : 1 ≤ l.operationNumber := hlok.2.2.1.mp hhold.1
        have hnpos : 0 < refCount trace := by
          have := hlok.2.1
          omega
        have hmpos := hpos hnpos
        rw [k1, k2, wrapInt_eq_self _ (by omega) (by omega)]
        omega
      · rw [k1, k2, wrapInt_eq_self _ (by omega) (by omega)]
        omega
    have hw2 : wrapInt (st1.numHits + 1) = st1.numHits + 1 :=
      wrapInt_eq_self _ (by omega) (by omega)
    have hwe : wrapInt (st.numEviction + 1) = st.numEviction + 1 :=
      wrapInt_eq_self _ (by omega) (by omega)
    rw [hw2] at hh2
    rw [hwe] at hev2
    refine ⟨ev1, st1, st2, h1, h2, hh2, hm2, hproc, by omega, by omega, by omega, ?_, ?_⟩
    · rw [hev2]
      split <;> simp
    · rw [hev2]
      split <;> omega
  · obtain ⟨j, l, hj, hl⟩ := hres1
    exact absurd hl (hno j l hj)

/-- C6 (amended), instance: `M 0` after `L 0`, `L 4` with `s = 1`, `E = 1`,
`b = 1` misses with eviction, then hits. -/
theorem modify_record_contract_witness :
    ∃ (st : SimState),
      runState 1 1 1 [{ operation := "L", addr := 0 }, { operation := "L", addr := 4 }]
        = some st ∧
      ∃ (st2 : SimState),
        processRecord 1 1 1 st { operation := "M", addr := 0 } = some st2 ∧
        st2.numHits + st2.numMisses = st.numHits + st.numMisses + 2 ∧
        st2.numMisses ≤ st.numMisses + 1 ∧ st.numHits + 1 ≤ st2.numHits ∧
        st2.numEviction ≤ st.numEviction + 1 := by
  refine ⟨_, rfl, ?_⟩
  obtain ⟨_, _, st2, _, _, _, _, h5, h6, h7, h8, _, h10⟩ :=
    modify_record_contract 1 1 1
      [{ operation := "L", addr := 0 }, { operation := "L", addr := 4 }] _ 0
      rfl (by decide) (by decide) (by decide)
  exact ⟨st2, h5, h6, h7, h8, h10⟩

/-! ## C7: the same load twice -/

/-- C7 (as stated, refuted).  With `s = 0`, `E = 1`, `b = 0` and address `0x10`
the set index computed by `setTagAndSet` is 16, outside the single-set cache, and
replaying `L 10`, `L 10` does not return hits = 1, misses = 1, evictions = 0.
With `s = 31` the number of sets `2^31` is outside the range of `int` and the
replay has no defined result either. -/
theorem repeated_load_single_set_refuted :
    (setTagAndSet 16 0 0).1 = 16 ∧ numSets 0 = some 1 ∧
    runSimulation 0 1 0 [{ operation := "L", addr := 16 }, { operation := "L", addr := 16 }]
      ≠ some { hits := 1, misses := 1, evictions := 0 } ∧
    runSimulation 31 1 0 [{ operation := "L", addr := 16 }, { operation := "L", addr := 16 }]
      ≠ some { hits := 1, misses := 1, evictions := 0 } := by
  decide

/-- C7 (amended): for every `E ≥ 1`, every `s` with `1 ≤ s ≤ 30`, every `b` and
every address `a`, replaying `L a`, `L a` on a freshly initialised cache yields
one miss without eviction (the result after the first record is hits = 0,
misses = 1, evictions = 0) followed by one hit: final hits = 1, misses = 1,
evictions = 0. -/
theorem repeated_load_contract (s E b a : Nat) (hE : 1 ≤ E) (hs1 : 1 ≤ s) (hs2 : s ≤ 30) :
    runSimulation s E b [{ operation := "L", addr := a }]
      = some { hits := 0, misses := 1, evictions := 0 } ∧
    runSimulation s E b [{ operation := "L", addr := a }, { operation := "L", addr := a }]
      = some { hits := 1, misses := 1, evictions := 0 } := by
  have hnum : numSets s = some (2 ^ s) := by simp [numSets, hs2]
  have hlt : (setTagAndSet a s b).1 < 2 ^ s := setTagAndSet_set_lt a s b hs1 (by omega)
  obtain ⟨set, tag, hp⟩ : ∃ (set tag : Nat), setTagAndSet a s b = (set, tag) := ⟨_, _, rfl⟩
  rw [hp] at hlt
  have hrec : ∀ (st : SimState), processRecord s E b st { operation := "L", addr := a }
      = access st tag set E := by
    intro st
    simp [processRecord, hp]
  have hzero : ∀ (k : Nat) (l' : Line), (List.replicate E zeroLine)[k]? = some l' →
      l' = zeroLine := fun k l' hk => List.eq_of_mem_replicate (List.getElem?_mem hk)
  have hrow0 : (initState (2 ^ s) E).cache[set]? = some (List.replicate E zeroLine) := by
    simp [initState, hlt]
  obtain ⟨ev1, st1, row1, h1, hrow1, hlen1, hres1, _, he1, hcase1⟩ :=
    checkHitAndMiss_resident (initState (2 ^ s) E) tag hrow0 (List.length_replicate _ _) hE
  have hmiss1 : ev1 = false ∧ st1.numHits = 0 ∧ st1.numMisses = 1 := by
    rcases hcase1 with ⟨_, _, _, j, l, hj, hv, _⟩ | ⟨hh, hm, _, j, l, hj, hev⟩
    · rw [hzero j l hj] at hv
      exact absurd hv (by decide)
    · rw [hzero j l hj] at hev
      have hw : wrapInt (0 + 1) = 1 := by decide
      refine ⟨by rw [hev]; decide, hh, ?_⟩
      rw [hm]
      exact hw
  obtain ⟨hev1, hh1, hm1⟩ := hmiss1
  subst hev1
  have hacc1 : access (initState (2 ^ s) E) tag set E = some st1 := by
    simp [access, h1, countEviction]
  obtain ⟨ev2, st2, row2, h2, _, _, _, _, he2, hcase2⟩ :=
    checkHitAndMiss_resident st1 tag hrow1 hlen1 hE
  have hhit2 : ev2 = false ∧ st2.numHits = 1 ∧ st2.numMisses = 1 := by
    rcases hcase2 with ⟨hev, hh, hm, _⟩ | ⟨_, _, hno, _⟩
    · refine ⟨hev, ?_, by rw [hm, hm1]⟩
      have hw : wrapInt (0 + 1) = 1 := by decide
      rw [hh, hh1]
      exact hw
    · obtain ⟨j, l, hj, hl⟩ := hres1
      exact absurd hl (hno j l hj)
  obtain ⟨hev2, hh2, hm2⟩ := hhit2
  subst hev2
  have hacc2 : access st1 tag set E = some st2 := by
    simp [access, h2, countEviction]
  have hev0 : (initState (2 ^ s) E).numEviction = 0 := rfl
  constructor
  · simp [runSimulation, runState_of_numSets hnum, replay, hrec, hacc1, hh1, hm1, he1, hev0]
  · simp [runSimulation, runState_of_numSets hnum, replay, hrec, hacc1, hacc2, hh2, hm2, he1,
      he2, hev0]

/-- C7 (amended), instance: `s = 4`, `E = 2`, `b = 5`, address `0x7ff000a8`. -/
theorem repeated_load_contract_witness :
    1 ≤ 2 ∧ 1 ≤ 4 ∧ 4 ≤ 30 ∧
    (runSimulation 4 2 5 [{ operation := "L", addr := 2146435240 }]
      = some { hits := 0, misses := 1, evictions := 0 } ∧
     runSimulation 4 2 5
        [{ operation := "L", addr := 2146435240 }, { operation := "L", addr := 2146435240 }]
      = some { hits := 1, misses := 1, evictions := 0 }) :=
  ⟨by decide, by decide, by decide,
    repeated_load_contract 4 2 5 2146435240 (by decide) (by decide) (by decide)⟩

/-! ## C8: instruction records -/

theorem replay_filter_instruction (s E b : Nat) (trace : List Record) :
    ∀ (st : SimState),
      replay s E b st trace
        = replay s E b st (trace.filter (fun r => decide (r.operation ≠ "I"))) := by
  induction trace with
  | nil => intro st; rfl
  | cons r rest ih =>
    intro st
    by_cases hI : r.operation = "I"
    · have hstep : processRecord s E b st r = some st := by
        simp [processRecord, hI]
      have hdrop : (r :: rest).filter (fun r => decide (r.operation ≠ "I"))
          = rest.filter (fun r => decide (r.operation ≠ "I")) := by
        simp [List.filter, hI]
      rw [replay_cons_of_some hstep, hdrop]
      exact ih st
    · have hkeep : (r :: rest).filter (fun r => decide (r.operation ≠ "I"))
          = r :: rest.filter (fun r => decide (r.operation ≠ "I")) := by
        simp [List.filter, hI]
      rw [hkeep]
      simp only [replay]
      cases processRecord s E b st r with
      | none => rfl
      | some st1 => exact ih st1

/-- C8: instruction records are ignored.  For every geometry and every state,
processing an `I` record leaves every cache line, the operation counter and the
hit, miss and eviction counts unchanged, and replaying a trace gives the same
result as replaying it with all `I` records removed. -/
theorem instruction_records_ignored (s E b : Nat) (trace : List Record) :
    (∀ (st : SimState) (addr : Nat),
      processRecord s E b st { operation := "I", addr := addr } = some st) ∧
    runSimulation s E b trace
      = runSimulation s E b (trace.filter (fun r => decide (r.operation ≠ "I"))) := by
  constructor
  · intro st addr
    simp [processRecord]
  · unfold runSimulation runState
    cases numSets s with
    | none => rfl
    | some S =>
      simp only []
      rw [replay_filter_instruction]

/-! ## C9 and C10: the two concrete scenarios -/

/-- C9 (as stated, refuted): with `s = 1`, `E = 1`, `b = 1`, addresses 0 and 8
have the same set index, and replaying `L 0`, `L 8`, `L 0` does not return
hits = 1, misses = 2, evictions = 0. -/
theorem scenario_two_sets_refuted :
    (setTagAndSet 0 1 1).1 = (setTagAndSet 8 1 1).1 ∧
    runSimulation 1 1 1
        [{ operation := "L", addr := 0 }, { operation := "L", addr := 8 },
         { operation := "L", addr := 0 }]
      ≠ some { hits := 1, misses := 2, evictions := 0 } := by
  decide

/-- C9 (amended): with `s = 1`, `E = 1`, `b = 1`, addresses 0 and 8 both map to
set 0, with tags 0 and 2, and replaying `L 0`, `L 8`, `L 0` on a freshly
initialised cache returns hits = 0, misses = 3, evictions = 2. -/
theorem scenario_shared_set :
    setTagAndSet 0 1 1 = (0, 0) ∧ setTagAndSet 8 1 1 = (0, 2) ∧
    runSimulation 1 1 1
        [{ operation := "L", addr := 0 }, { operation := "L", addr := 8 },
         { operation := "L", addr := 0 }]
      = some { hits := 0, misses := 3, evictions := 2 } := by
  decide

/-- C10 (the code at the failing input): with `s = 0` the mask shift of
`setTagAndSet` has count 64 and leaves `addr >> b` unchanged, so addresses
`0x10` and `0x20` get set indices 16 and 32; the cache has a single set, both
reads fall outside the array and the replay has no defined result. -/
theorem scenario_single_set_out_of_range :
    setTagAndSet 16 0 0 = (16, 16) ∧ setTagAndSet 32 0 0 = (32, 32) ∧
    numSets 0 = some 1 ∧
    runSimulation 0 1 0 [{ operation := "L", addr := 16 }, { operation := "L", addr := 32 }]
      = none := by
  decide

/-! ## C11: the frame of one call -/

/-- Writing line `j` of set `set` leaves every other place of the array as it
was. -/
theorem lineAt_set_other (cache : Cache) (set j : Nat) (row : List Line) (l : Line)
    (set' i : Nat) (h : set' ≠ set ∨ i ≠ j) (hrow : cache[set]? = some row) :
    lineAt (cache.set set (row.set j l)) set' i = lineAt cache set' i := by
  by_cases hs : set' = set
  · subst hs
    have hi : i ≠ j := by
      rcases h with h | h
      · exact absurd rfl h
      · exact h
    have hlt : set' < cache.length := (List.getElem?_eq_some.mp hrow).1
    simp only [lineAt, List.getElem?_set_self hlt, hrow]
    exact List.getElem?_set_ne (Ne.symm hi)
  · simp only [lineAt, List.getElem?_set_ne (Ne.symm hs)]

/-- Reading back the line just written. -/
theorem lineAt_set_self (cache : Cache) (set j : Nat) (row : List Line) (l : Line)
    (hrow : cache[set]? = some row) (hj : j < row.length) :
    lineAt (cache.set set (row.set j l)) set j = some l := by
  have hlt : set < cache.length := (List.getElem?_eq_some.mp hrow).1
  simp [lineAt, hlt, hj]

/-- C11 (as stated, refuted), in three states.  A hit on a line that already
carries `operationNumber` = counter + 1 leaves the whole cache unchanged, so no
line changes.  With the counter and the hit count at `INT_MAX` a hit wraps both
to `-2147483648`, and with the miss count at `INT_MAX` a miss wraps it, so the
counts do not grow by one. -/
theorem checkHitAndMiss_frame_refuted :
    checkHitAndMiss
        { cache := [[{ validBit := 1, tag := 5, operationNumber := 1 }]]
          operationNum := 0, numEviction := 0, numHits := 0, numMisses := 0 } 5 0 1
      = some (false,
        { cache := [[{ validBit := 1, tag := 5, operationNumber := 1 }]]
          operationNum := 1, numEviction := 0, numHits := 1, numMisses := 0 }) ∧
    checkHitAndMiss
        { cache := [[{ validBit := 1, tag := 5, operationNumber := 3 }]]
          operationNum := 2147483647, numEviction := 0, numHits := 2147483647
          numMisses := 0 } 5 0 1
      = some (false,
        { cache := [[{ validBit := 1, tag := 5, operationNumber := -2147483648 }]]
          operationNum := -2147483648, numEviction := 0, numHits := -2147483648
          numMisses := 0 }) ∧
    checkHitAndMiss
        { cache := [[{ validBit := 1, tag := 5, operationNumber := 3 }]]
          operationNum := 7, numEviction := 0, numHits := 0
          numMisses := 2147483647 } 6 0 1
      = some (true,
        { cache := [[{ validBit := 1, tag := 6, operationNumber := 8 }]]
          operationNum := 8, numEviction := 0, numHits := 0
          numMisses := -2147483648 }) ∧
    (-2147483648 : Int) ≠ 2147483647 + 1 := by
  decide

/-- C11 (amended): for every cache state whose operation counter, hit count and
miss count are `int` values below `INT_MAX` and in which no valid line of the
addressed set holding the tag already carries `operationNumber` = counter + 1
(as in every reachable state), every `E ≥ 1`, every in-range set index and every
tag, one call of `checkHitAndMiss` changes exactly one line `j`, which lies in
the addressed set (every other line of that set and every line of every other
set is unchanged), advances the operation counter by exactly 1, and increases
exactly one of the hit count and the miss count by exactly 1. -/
theorem checkHitAndMiss_frame (st : SimState) (tag set E : Nat) (row : List Line)
    (hE : 1 ≤ E) (hrow : st.cache[set]? = some row) (hlen : row.length = E)
    (hc1 : -2 ^ 31 ≤ st.operationNum) (hc2 : st.operationNum < 2 ^ 31 - 1)
    (hh1 : -2 ^ 31 ≤ st.numHits) (hh2 : st.numHits < 2 ^ 31 - 1)
    (hm1 : -2 ^ 31 ≤ st.numMisses) (hm2 : st.numMisses < 2 ^ 31 - 1)
    (hnew : ∀ (i : Nat) (l : Line), row[i]? = some l → l.validBit = 1 → l.tag = tag →
      l.operationNumber ≠ st.operationNum + 1) :
    ∃ (ev : Bool) (st' : SimState) (j : Nat),
      checkHitAndMiss st tag set E = some (ev, st') ∧ j < E ∧
      lineAt st'.cache set j ≠ lineAt st.cache set j ∧
      (∀ (set' i : Nat), set' ≠ set ∨ i ≠ j →
        lineAt st'.cache set' i = lineAt st.cache set' i) ∧
      st'.operationNum = st.operationNum + 1 ∧
      ((st'.numHits = st.numHits + 1 ∧ st'.numMisses = st.numMisses) ∨
       (st'.numHits = st.numHits ∧ st'.numMisses = st.numMisses + 1)) := by
  have hwc : wrapInt (st.operationNum + 1) = st.operationNum + 1 :=
    wrapInt_eq_self _ (by omega) (by omega)
  have hwh : wrapInt (st.numHits + 1) = st.numHits + 1 :=
    wrapInt_eq_self _ (by omega) (by omega)
  have hwm : wrapInt (st.numMisses + 1) = st.numMisses + 1 :=
    wrapInt_eq_self _ (by omega) (by omega)
  rcases first_holds_or_none tag row with ⟨j, l, hj, hm, hfirst⟩ | hno
  · have hjlt : j < row.length := (List.getElem?_eq_some.mp hj).1
    refine ⟨_, _, j, checkHitAndMiss_of_hit st tag hrow hlen hj hm hfirst, by omega, ?_,
      ?_, hwc, Or.inl ⟨hwh, rfl⟩⟩
    · simp only []
      rw [lineAt_set_self _ _ _ _ _ hrow hjlt, lineAt_eq hrow, hj, hwc]
      intro heq
      have hop := congrArg Line.operationNumber (Option.some.inj heq)
      exact hnew j l hj hm.1 hm.2 hop.symm
    · intro set' i hne
      exact lineAt_set_other _ _ _ _ _ _ _ hne hrow
  · rcases checkHitAndMiss_of_miss st tag hrow hlen hE hno with ⟨j, l, hjE, hj, hres, _, _⟩
    have hjlt : j < row.length := by omega
    refine ⟨_, _, j, hres, hjE, ?_, ?_, hwc, Or.inr ⟨rfl, hwm⟩⟩
    · simp only []
      rw [lineAt_set_self _ _ _ _ _ hrow hjlt, lineAt_eq hrow, hj]
      intro heq
      have hl := Option.some.inj heq
      refine hno j l hj ⟨?_, ?_⟩
      · rw [← hl]
      · rw [← hl]
    · intro set' i hne
      exact lineAt_set_other _ _ _ _ _ _ _ hne hrow

/-- C11 (amended), instance: a miss on the second set of a two-set cache. -/
theorem checkHitAndMiss_frame_witness :
    ∃ (ev : Bool) (st' : SimState) (j : Nat),
      checkHitAndMiss
        { cache := [[zeroLine], [{ validBit := 1, tag := 5, operationNumber := 3 }]]
          operationNum := 7, numEviction := 0, numHits := 2, numMisses := 5 } 6 1 1
        = some (ev, st') ∧ j < 1 ∧
      lineAt st'.cache 1 j ≠ some { validBit := 1, tag := 5, operationNumber := 3 } ∧
      lineAt st'.cache 0 0 = some zeroLine ∧ st'.operationNum = 8 := by
  obtain ⟨ev, st', j, h1, h2, h3, h4, h5, _⟩ := checkHitAndMiss_frame
    { cache := [[zeroLine], [{ validBit := 1, tag := 5, operationNumber := 3 }]]
      operationNum := 7, numEviction := 0, numHits := 2, numMisses := 5 } 6 1 1
    [{ validBit := 1, tag := 5, operationNumber := 3 }]
    (by decide) rfl rfl (by decide) (by decide) (by decide) (by decide) (by decide)
    (by decide) (by
      intro i l hi _ ht
      have hmem := List.getElem?_mem hi
      simp only [List.mem_singleton] at hmem
      rw [hmem] at ht
      exact absurd ht (by decide))
  have hj0 : j = 0 := by omega
  subst hj0
  exact ⟨ev, st', 0, h1, h2, h3, h4 0 0 (Or.inl (by decide)), h5⟩

/-! ## C12: the counts after a replay -/

/-- On a state that satisfies the invariant, a call with an in-range set index
returns. -/
theorem access_some {S E n : Nat} {st : SimState} (tag : Nat) {set : Nat}
    (hinv : Inv S E n st) (hE : 1 ≤ E) (hset : set < S) :
    ∃ (st' : SimState), access st tag set E = some st' := by
  obtain ⟨hS, hshape, _⟩ := hinv
  have hsetlt : set < st.cache.length := by omega
  have hrow : st.cache[set]? = some st.cache[set] := List.getElem?_eq_getElem hsetlt
  obtain ⟨ev, st1, _, h1, _⟩ :=
    checkHitAndMiss_resident st tag hrow (hshape _ (List.getElem_mem hsetlt)) hE
  exact ⟨countEviction (ev, st1), by simp only [access, h1, Option.map_some']⟩

/-- With `1 ≤ s ≤ 30` the body of the replay loop returns on every record. -/
theorem processRecord_some {s E b n : Nat} {st : SimState} (r : Record)
    (hinv : Inv (2 ^ s) E n st) (hE : 1 ≤ E) (hs1 : 1 ≤ s) (hs2 : s ≤ 30)
    (hn : n + refCount [r] < 2 ^ 31) :
    ∃ (st' : SimState), processRecord s E b st r = some st' := by
  have hlt : (setTagAndSet r.addr s b).1 < 2 ^ s :=
    setTagAndSet_set_lt r.addr s b hs1 (by omega)
  unfold processRecord
  by_cases hM : r.operation = "M"
  · have hcount : refCount [r] = 2 := by simp [refCount, hM]
    obtain ⟨st1, h1⟩ := access_some (setTagAndSet r.addr s b).2 hinv hE hlt
    have i1 := access_inv hinv hE (by omega) h1
    obtain ⟨st2, h2⟩ := access_some (setTagAndSet r.addr s b).2 i1 hE hlt
    exact ⟨st2, by simp only [hM, if_true, h1, h2]⟩
  · by_cases hI : r.operation = "I"
    · exact ⟨st, by simp [hI]⟩
    · obtain ⟨st1, h1⟩ := access_some (setTagAndSet r.addr s b).2 hinv hE hlt
      exact ⟨st1, by simp only [hM, if_false, ne_eq, hI, not_false_eq_true, if_true, h1]⟩

/-- With `1 ≤ s ≤ 30` the replay loop returns on every trace that keeps the
counter in the range of `int`. -/
theorem replay_some {s E b : Nat} (hE : 1 ≤ E) (hs1 : 1 ≤ s) (hs2 : s ≤ 30) :
    ∀ (trace : List Record) (n : Nat) (st : SimState), Inv (2 ^ s) E n st →
      n + refCount trace < 2 ^ 31 → ∃ (st' : SimState), replay s E b st trace = some st' := by
  intro trace
  induction trace with
  | nil =>
    intro n st _ _
    exact ⟨st, rfl⟩
  | cons r rest ih =>
    intro n st hinv hn
    rw [refCount_cons] at hn
    obtain ⟨st1, h1⟩ := processRecord_some (b := b) r hinv hE hs1 hs2 (by omega)
    have i1 := processRecord_inv hinv hE (by omega) h1
    obtain ⟨st', h2⟩ := ih (n + refCount [r]) st1 i1 (by omega)
    exact ⟨st', by rw [replay_cons_of_some h1, h2]⟩

/-- With `1 ≤ s ≤ 30` and `E ≥ 1`, `runSimulation` reaches a final state on
every trace of fewer than `2^31` references. -/
theorem runState_some {s E b : Nat} (trace : List Record) (hE : 1 ≤ E) (hs1 : 1 ≤ s)
    (hs2 : s ≤ 30) (hn : refCount trace < 2 ^ 31) :
    ∃ (st : SimState), runState s E b trace = some st := by
  have hnum : numSets s = some (2 ^ s) := by simp [numSets, hs2]
  obtain ⟨st, h⟩ := replay_some (b := b) hE hs1 hs2 trace 0 _ (inv_initState (2 ^ s) E)
    (by omega)
  exact ⟨st, by rw [runState_of_numSets hnum, h]⟩

theorem refCount_instructions (trace : List Record)
    (h : ∀ r ∈ trace, r.operation = "I") : refCount trace = 0 := by
  induction trace with
  | nil => rfl
  | cons r rest ih =>
    have hr : r.operation = "I" := h r (List.mem_cons_self r rest)
    have hrest := ih (fun x hx => h x (List.mem_cons_of_mem r hx))
    simp [refCount, hr, hrest]

/-- C12 (as stated, refuted): with `s = 0`, `E = 1`, `b = 0` the one-reference
trace `L 10` (address `0x10`, set index 16) makes `runSimulation` read outside the
one-set array, and no counts are reported; with `s = 31` the number of sets does
not fit an `int` and the empty trace does not report hits = misses = evictions
= 0. -/
theorem run_counts_refuted :
    refCount [{ operation := "L", addr := 16 }] = 1 ∧
    runSimulation 0 1 0 [{ operation := "L", addr := 16 }] = none ∧
    runSimulation 31 1 0 [] ≠ some { hits := 0, misses := 0, evictions := 0 } := by
  decide

/-- C12 (amended): for every geometry with `1 ≤ s ≤ 30` and `E ≥ 1` and every
trace with fewer than `2^31` memory references, `runSimulation` returns, the
reported `hits + misses` equals the number of references in the trace (one per
record that is neither `M` nor `I`, two per `M` record) and equals the final value
of the operation counter, and `evictions ≤ misses`; in particular a trace with no
records, or with `I` records only, reports hits = misses = evictions = 0. -/
theorem run_counts (s E b : Nat) (trace : List Record) (hE : 1 ≤ E) (hs1 : 1 ≤ s)
    (hs2 : s ≤ 30) (hrefs : refCount trace < 2 ^ 31) :
    ∃ (st : SimState), runState s E b trace = some st ∧
      runSimulation s E b trace
        = some { hits := st.numHits, misses := st.numMisses, evictions := st.numEviction } ∧
      st.numHits + st.numMisses = (refCount trace : Int) ∧
      st.operationNum = (refCount trace : Int) ∧
      st.numEviction ≤ st.numMisses ∧
      ((∀ r ∈ trace, r.operation = "I") →
        runSimulation s E b trace = some { hits := 0, misses := 0, evictions := 0 }) := by
  obtain ⟨st, hst⟩ := runState_some (b := b) trace hE hs1 hs2 hrefs
  obtain ⟨_, _, hc, _, hh, hm, hsum, he1, he2, _⟩ := runState_inv hE hrefs hst
  have hrun : runSimulation s E b trace
      = some { hits := st.numHits, misses := st.numMisses, evictions := st.numEviction } := by
    simp only [runSimulation, hst, Option.map_some']
  refine ⟨st, hst, hrun, hsum, hc, he2, ?_⟩
  intro hall
  have h0 := refCount_instructions trace hall
  rw [h0] at hsum
  have e1 : st.numHits = 0 := by
    simp only [Nat.cast_zero] at hsum
    omega
  have e2 : st.numMisses = 0 := by
    simp only [Nat.cast_zero] at hsum
    omega
  have e3 : st.numEviction = 0 := by omega
  rw [hrun, e1, e2, e3]

/-- C12 (amended), instance: `L 0`, `I 4`, `M 8` with `s = 1`, `E = 1`, `b = 1`. -/
theorem run_counts_witness :
    ∃ (st : SimState),
      runState 1 1 1
        [{ operation := "L", addr := 0 }, { operation := "I", addr := 4 },
         { operation := "M", addr := 8 }] = some st ∧
      st.numHits + st.numMisses = 3 ∧ st.operationNum = 3 ∧
      st.numEviction ≤ st.numMisses := by
  obtain ⟨st, h1, _, h3, h4, h5, _⟩ := run_counts 1 1 1
    [{ operation := "L", addr := 0 }, { operation := "I", addr := 4 },
     { operation := "M", addr := 8 }] (by decide) (by decide) (by decide) (by decide)
  exact ⟨st, h1, h3, h4, h5⟩

/-! ## C13 and C14: shift counts of 64 and more in `setTagAndSet` -/

/-- C13 (the code at the failing input): with `s = 0` the set index is the low 32
bits of `addr >> b`, for every address and every `b`; for address `0x10` and
`b = 0` it is 16, not 0. -/
theorem setTagAndSet_no_set_bits :
    (∀ (addr b : Nat), (setTagAndSet addr 0 b).1 = addr / 2 ^ (b % 64) % 2 ^ 32) ∧
    (setTagAndSet 16 0 0).1 = 16 := by
  constructor
  · intro addr b
    simp [setTagAndSet, shl64, shr64]
    omega
  · decide

/-- C14 (the code at the failing input): the tag is `addr >> ((s + b) mod 64)`,
for every address, `s` and `b`; for address 1 with `s = 1`, `b = 63`
(`s + b = 64`) it is 1, not 0. -/
theorem setTagAndSet_no_tag_bits :
    (∀ (addr s b : Nat), (setTagAndSet addr s b).2 = addr / 2 ^ ((s + b) % 64)) ∧
    1 + 63 ≥ 64 ∧ (setTagAndSet 1 1 63).2 = 1 := by
  refine ⟨?_, by decide, by decide⟩
  intro addr s b
  simp [setTagAndSet, shr64]

/-! ## C15: argument validation -/

/-- A call of `fgets` splits the unread characters in two, and the buffer
holds at most `n` characters. -/
theorem fgetsSplit_append : ∀ (n : Nat) (cs : List Char),
    (fgetsSplit n cs).1 ++ (fgetsSplit n cs).2 = cs ∧ (fgetsSplit n cs).1.length ≤ n := by
  intro n
  induction n with
  | zero =>
    intro cs
    simp [fgetsSplit]
  | succ n ih =>
    intro cs
    cases cs with
    | nil => simp [fgetsSplit]
    | cons c cs =>
      by_cases hc : c = '\n'
      · simp [fgetsSplit, hc]
      · obtain ⟨h1, h2⟩ := ih cs
        simp only [fgetsSplit, hc, if_false, List.cons_append, h1, List.length_cons]
        exact ⟨trivial, by omega⟩

/-- A call of `fgets` with a buffer of two or more characters on a file that
is not at its end reads at least one character. -/
theorem fgetsSplit_rest_length (n : Nat) (c : Char) (cs : List Char) :
    (fgetsSplit (n + 1) (c :: cs)).2.length ≤ cs.length := by
  by_cases hc : c = '\n'
  · simp [fgetsSplit, hc]
  · simp only [fgetsSplit, hc, if_false]
    have h := (fgetsSplit_append n cs).1
    have hl := congrArg List.length h
    rw [List.length_append] at hl
    omega

/-- The loop reads the whole file: with as many calls allowed as the file has
characters, the buffers put together are the characters of the file, and no
buffer holds more than 127 characters. -/
theorem fgetsLines_join : ∀ (fuel : Nat) (cs : List Char), cs.length ≤ fuel →
    (fgetsLines fuel cs).flatten = cs ∧ ∀ l ∈ fgetsLines fuel cs, l.length ≤ 127 := by
  intro fuel
  induction fuel with
  | zero =>
    intro cs hlen
    cases cs with
    | nil => simp [fgetsLines]
    | cons c cs => simp at hlen
  | succ fuel ih =>
    intro cs hlen
    cases cs with
    | nil => simp [fgetsLines]
    | cons c cs =>
      simp only [List.length_cons] at hlen
      have hrest : (fgetsSplit 127 (c :: cs)).2.length ≤ cs.length :=
        fgetsSplit_rest_length 126 c cs
      obtain ⟨h1, h2⟩ := ih (fgetsSplit 127 (c :: cs)).2 (by omega)
      obtain ⟨h3, h4⟩ := fgetsSplit_append 127 (c :: cs)
      constructor
      · simp only [fgetsLines, List.flatten_cons, h1]
        exact h3
      · intro l hl
        simp only [fgetsLines, List.mem_cons] at hl
        rcases hl with rfl | hl
        · exact h4
        · exact h2 l hl

/-- What one memory reference does to a state that satisfies the invariant:
it writes one line `j` of the addressed row; the written line is valid, holds
the tag and carries the new counter value `n + 1`.  On a hit the line held the
tag before and is the first such line; on a miss no line held the tag and the
overwritten line is the last one carrying the least `operationNumber`. -/
theorem access_step {S E n : Nat} {st st' : SimState} {tag set : Nat}
    (hinv : Inv S E n st) (hE : 1 ≤ E) (hn : n + 1 < 2 ^ 31)
    (h : access st tag set E = some st') :
    ∃ (row : List Line) (j : Nat) (l : Line),
      st.cache[set]? = some row ∧ row.length = E ∧ j < E ∧ row[j]? = some l ∧
      st'.cache = st.cache.set set
        (row.set j { validBit := 1, tag := tag, operationNumber := (n : Int) + 1 }) ∧
      st'.operationNum = (n : Int) + 1 ∧
      ((Holds tag l ∧
          (∀ (k : Nat) (l' : Line), k < j → row[k]? = some l' → ¬ Holds tag l') ∧
          st'.numHits = st.numHits + 1 ∧ st'.numMisses = st.numMisses ∧
          st'.numEviction = st.numEviction) ∨
       ((∀ (k : Nat) (l' : Line), row[k]? = some l' → ¬ Holds tag l') ∧
          (∀ (k : Nat) (l' : Line), row[k]? = some l' →
            l.operationNumber ≤ l'.operationNumber) ∧
          (∀ (k : Nat) (l' : Line), j < k → row[k]? = some l' →
            l.operationNumber < l'.operationNumber) ∧
          st'.numHits = st.numHits ∧ st'.numMisses = st.numMisses + 1 ∧
          st'.numEviction = st.numEviction + (if l.validBit = 1 then 1 else 0))) := by
  obtain ⟨hS, hshape, hc, hops, hh, hm, hsum, he1, he2, hpos⟩ := hinv
  have hwc : wrapInt (st.operationNum + 1) = (n : Int) + 1 := by
    rw [wrapInt_eq_self _ (by omega) (by omega), hc]
  cases hrow : st.cache[set]? with
  | none =>
    rw [access, checkHitAndMiss_out_of_range hE hrow] at h
    cases h
  | some row =>
    have hmem : row ∈ st.cache := List.getElem?_mem hrow
    have hlen : row.length = E := hshape row hmem
    rcases first_holds_or_none tag row with ⟨j, l, hj, hhold, hfirst⟩ | hno
    · rw [access, checkHitAndMiss_of_hit st tag hrow hlen hj hhold hfirst] at h
      simp only [Option.map_some', countEviction, Bool.false_eq_true, if_false,
        Option.some.injEq] at h
      subst h
      have hjlt : j < row.length := (List.getElem?_eq_some.mp hj).1
      have hwh : wrapInt (st.numHits + 1) = st.numHits + 1 :=
        wrapInt_eq_self _ (by omega) (by omega)
      have hline : ({ l with operationNumber := wrapInt (st.operationNum + 1) } : Line)
          = { validBit := 1, tag := tag, operationNumber := (n : Int) + 1 } := by
        rw [hwc, ← hhold.1, ← hhold.2]
      refine ⟨row, j, l, rfl, hlen, by omega, hj, ?_, hwc,
        Or.inl ⟨hhold, hfirst, hwh, rfl, rfl⟩⟩
      simp only [hline]
    · rcases checkHitAndMiss_of_miss st tag hrow hlen hE hno with
        ⟨j, l, hjE, hj, hres, hmin, _⟩
      rw [access, hres] at h
      have hwm : wrapInt (st.numMisses + 1) = st.numMisses + 1 :=
        wrapInt_eq_self _ (by omega) (by omega)
      have hwe : wrapInt (st.numEviction + 1) = st.numEviction + 1 :=
        wrapInt_eq_self _ (by omega) (by omega)
      have h0 : 0 < row.length := by omega
      obtain ⟨hmin1, hmin2⟩ := hmin ⟨0, row[0], List.getElem?_eq_getElem h0, by
        rw [hc]
        exact (hops row hmem row[0] (List.getElem_mem h0)).2.1⟩
      simp only [Option.map_some', countEviction, Option.some.injEq] at h
      subst h
      refine ⟨row, j, l, rfl, hlen, hjE, hj, ?_, ?_, Or.inr ⟨hno, hmin1, hmin2, ?_, ?_, ?_⟩⟩
      · by_cases hv : l.validBit = 1 <;> simp [hv, hwc]
      · by_cases hv : l.validBit = 1 <;> simp [hv, hwc]
      · by_cases hv : l.validBit = 1 <;> simp [hv]
      · by_cases hv : l.validBit = 1 <;> simp [hv, hwm]
      · by_cases hv : l.validBit = 1 <;> simp [hv, hwe]

/-! ## Distinct operation numbers -/

theorem lineAt_mem {cache : Cache} {i j : Nat} {l : Line} (h : lineAt cache i j = some l) :
    ∃ (row : List Line), cache[i]? = some row ∧ row ∈ cache ∧ row[j]? = some l ∧ l ∈ row := by
  unfold lineAt at h
  cases hrow : cache[i]? with
  | none => simp [hrow] at h
  | some row =>
    simp only [hrow] at h
    exact ⟨row, rfl, List.getElem?_mem hrow, h, List.getElem?_mem h⟩

/-- Every line of a state that satisfies the invariant satisfies `LineOk`. -/
theorem lineOk_of_lineAt {S E n : Nat} {st : SimState} (hinv : Inv S E n st) {i j : Nat}
    {l : Line} (h : lineAt st.cache i j = some l) : LineOk n l := by
  obtain ⟨row, _, hmem, _, hl⟩ := lineAt_mem h
  exact hinv.2.2.2.1 row hmem l hl

/-- The lines of the array after line `j` of set `set` has been written. -/
theorem lineAt_set_cases (cache : Cache) (set j : Nat) (row : List Line) (new : Line)
    (hrow : cache[set]? = some row) (hj : j < row.length) (i k : Nat) (l : Line)
    (h : lineAt (cache.set set (row.set j new)) i k = some l) :
    (i = set ∧ k = j ∧ l = new) ∨ ((i ≠ set ∨ k ≠ j) ∧ lineAt cache i k = some l) := by
  by_cases hik : i = set ∧ k = j
  · obtain ⟨rfl, rfl⟩ := hik
    rw [lineAt_set_self _ _ _ _ _ hrow hj] at h
    exact Or.inl ⟨rfl, rfl, (Option.some.inj h).symm⟩
  · have hne : i ≠ set ∨ k ≠ j := by
      by_cases hi : i = set
      · exact Or.inr (fun hk => hik ⟨hi, hk⟩)
      · exact Or.inl hi
    rw [lineAt_set_other _ _ _ _ _ _ _ hne hrow] at h
    exact Or.inr ⟨hne, h⟩

theorem opsDistinct_initState (S E : Nat) : OpsDistinct (initState S E) := by
  have hz : ∀ (i j : Nat) (l : Line), lineAt (initState S E).cache i j = some l →
      l = zeroLine := by
    intro i j l h
    obtain ⟨row, _, hmem, _, hl⟩ := lineAt_mem h
    simp only [initState] at hmem
    rw [List.eq_of_mem_replicate hmem] at hl
    exact List.eq_of_mem_replicate hl
  constructor
  · intro i j l h _
    exact hz i j l h
  · intro i j i' j' l l' h _ hv _ _
    rw [hz i j l h] at hv
    exact absurd hv (by decide)

/-- One memory reference keeps `OpsDistinct`. -/
theorem access_opsDistinct {S E n : Nat} {st st' : SimState} {tag set : Nat}
    (hinv : Inv S E n st) (hd : OpsDistinct st) (hE : 1 ≤ E) (hn : n + 1 < 2 ^ 31)
    (h : access st tag set E = some st') : OpsDistinct st' := by
  obtain ⟨row, j, l, hrow, hlen, hjE, hj, hcache, _, _⟩ := access_step hinv hE hn h
  have hjlt : j < row.length := by omega
  obtain ⟨hd1, hd2⟩ := hd
  rw [OpsDistinct, hcache]
  constructor
  · intro i k l1 h1 hv
    rcases lineAt_set_cases _ _ _ _ _ hrow hjlt i k l1 h1 with ⟨_, _, rfl⟩ | ⟨_, h1'⟩
    · exact absurd rfl hv
    · exact hd1 i k l1 h1' hv
  · intro i k i' k' l1 l2 h1 h2 hv1 hv2 hop
    rcases lineAt_set_cases _ _ _ _ _ hrow hjlt i k l1 h1 with ⟨e1, e2, rfl⟩ | ⟨_, h1'⟩
    · rcases lineAt_set_cases _ _ _ _ _ hrow hjlt i' k' l2 h2 with ⟨e3, e4, _⟩ | ⟨_, h2'⟩
      · exact ⟨by rw [e1, e3], by rw [e2, e4]⟩
      · have := (lineOk_of_lineAt hinv h2').2.1
        simp only at hop
        omega
    · rcases lineAt_set_cases _ _ _ _ _ hrow hjlt i' k' l2 h2 with ⟨_, _, rfl⟩ | ⟨_, h2'⟩
      · have := (lineOk_of_lineAt hinv h1').2.1
        simp only at hop
        omega
      · exact hd2 i k i' k' l1 l2 h1' h2' hv1 hv2 hop

/-- A property of states that every memory reference keeps, on states that
satisfy the invariant, is kept by the body of the replay loop. -/
theorem processRecord_preserves {s E b S : Nat} (P : SimState → Prop)
    (hstep : ∀ (n : Nat) (st st' : SimState) (tag set : Nat), Inv S E n st → P st →
      n + 1 < 2 ^ 31 → access st tag set E = some st' → P st')
    (hE : 1 ≤ E) {n : Nat} {st st' : SimState} {r : Record} (hinv : Inv S E n st)
    (hP : P st) (hn : n + refCount [r] < 2 ^ 31)
    (h : processRecord s E b st r = some st') : P st' := by
  unfold processRecord at h
  by_cases hM : r.operation = "M"
  · simp only [hM, if_true] at h
    have hcount : refCount [r] = 2 := by simp [refCount, hM]
    rw [hcount] at hn
    cases h1 : access st (setTagAndSet r.addr s b).2 (setTagAndSet r.addr s b).1 E with
    | none => simp [h1] at h
    | some st1 =>
      simp only [h1] at h
      have i1 := access_inv hinv hE (by omega) h1
      have p1 := hstep n st st1 _ _ hinv hP (by omega) h1
      exact hstep (n + 1) st1 st' _ _ i1 p1 (by omega) h
  · by_cases hI : r.operation = "I"
    · simp only [hI] at h
      simp at h
      subst h
      exact hP
    · have hcount : refCount [r] = 1 := by simp [refCount, hM, hI]
      rw [hcount] at hn
      simp only [hM, if_false, ne_eq, hI, not_false_eq_true, if_true] at h
      exact hstep n st st' _ _ hinv hP hn h

/-- A property of states that every memory reference keeps, on states that
satisfy the invariant, is kept by the replay loop. -/
theorem replay_preserves {s E b S : Nat} (P : SimState → Prop)
    (hstep : ∀ (n : Nat) (st st' : SimState) (tag set : Nat), Inv S E n st → P st →
      n + 1 < 2 ^ 31 → access st tag set E = some st' → P st')
    (hE : 1 ≤ E) :
    ∀ (trace : List Record) (n : Nat) (st st' : SimState), Inv S E n st → P st →
      n + refCount trace < 2 ^ 31 → replay s E b st trace = some st' → P st' := by
  intro trace
  induction trace with
  | nil =>
    intro n st st' _ hP _ h
    simp only [replay, Option.some.injEq] at h
    subst h
    exact hP
  | cons r rest ih =>
    intro n st st' hinv hP hn h
    rw [refCount_cons] at hn
    cases h1 : processRecord s E b st r with
    | none => simp [replay, h1] at h
    | some st1 =>
      simp only [replay, h1] at h
      have i1 := processRecord_inv hinv hE (by omega) h1
      have p1 := processRecord_preserves P hstep hE hinv hP (by omega) h1
      exact ih (n + refCount [r]) st1 st' i1 p1 (by omega) h

/-- Every state reached by `runSimulation` on a trace of fewer than `2 ^ 31`
references satisfies `OpsDistinct`. -/
theorem runState_opsDistinct {s E b : Nat} {trace : List Record} {st : SimState}
    (hE : 1 ≤ E) (hn : refCount trace < 2 ^ 31) (h : runState s E b trace = some st) :
    OpsDistinct st := by
  unfold runState numSets at h
  by_cases hs : s ≤ 30
  · simp only [hs, if_true] at h
    exact replay_preserves OpsDistinct
      (fun n st st' tag set hinv hP hn1 hacc => access_opsDistinct hinv hP hE hn1 hacc)
      hE trace 0 _ st (inv_initState (2 ^ s) E) (opsDistinct_initState _ _) (by omega) h
  · simp [hs] at h

/-! ## C18: valid lines and eviction -/

/-- C18: in every cache state reachable by replaying a trace of fewer than
`2^31` references on a freshly initialised cache with `E ≥ 1`, a line is valid if
and only if its `operationNumber` is at least 1, and every `operationNumber` is at
most the operation counter; consequently a miss returns "eviction" if and only
if all `E` lines of the addressed set are valid, so that no valid line is
overwritten while its set still has an invalid line. -/
theorem valid_lines_and_eviction (s E b : Nat) (trace : List Record) (st : SimState)
    (hreach : runState s E b trace = some st) (hrefs : refCount trace < 2 ^ 31)
    (hE : 1 ≤ E) :
    (∀ (i j : Nat) (l : Line), lineAt st.cache i j = some l →
      (l.validBit = 1 ↔ 1 ≤ l.operationNumber) ∧ l.operationNumber ≤ st.operationNum) ∧
    (∀ (tag set : Nat) (row : List Line), st.cache[set]? = some row →
      (∀ (k : Nat) (l' : Line), row[k]? = some l' → ¬ (l'.validBit = 1 ∧ l'.tag = tag)) →
      ∃ (ev : Bool) (st' : SimState) (j : Nat) (l : Line),
        checkHitAndMiss st tag set E = some (ev, st') ∧
        row[j]? = some l ∧
        lineAt st'.cache set j ≠ some l ∧
        (ev = true ↔ ∀ (k : Nat) (l' : Line), row[k]? = some l' → l'.validBit = 1) ∧
        ((∃ (k : Nat) (l' : Line), row[k]? = some l' ∧ l'.validBit ≠ 1) → l.validBit ≠ 1)) := by
  have hinv := runState_inv hE hrefs hreach
  have hshape := hinv.2.1
  have hc := hinv.2.2.1
  have hops := hinv.2.2.2.1
  constructor
  · intro i j l h
    have hok := lineOk_of_lineAt hinv h
    exact ⟨hok.2.2.1, by rw [hc]; exact hok.2.1⟩
  · intro tag set row hrow hmiss
    have hmem : row ∈ st.cache := List.getElem?_mem hrow
    have hlen : row.length = E := hshape row hmem
    rcases checkHitAndMiss_of_miss st tag hrow hlen hE hmiss with
      ⟨j, l, hjE, hj, hres, hmin, _⟩
    have h0 : 0 < row.length := by omega
    obtain ⟨hmin1, _⟩ := hmin ⟨0, row[0], List.getElem?_eq_getElem h0, by
      rw [hc]
      exact (hops row hmem row[0] (List.getElem_mem h0)).2.1⟩
    have hlok := hops row hmem l (List.getElem?_mem hj)
    have hall : l.validBit = 1 ↔ ∀ (k : Nat) (l' : Line), row[k]? = some l' →
        l'.validBit = 1 := by
      constructor
      · intro hv k l' hk
        have hl'ok := hops row hmem l' (List.getElem?_mem hk)
        have h1 := hlok.2.2.1.mp hv
        have h2 := hmin1 k l' hk
        exact hl'ok.2.2.1.mpr (by omega)
      · intro hallv
        exact hallv j l hj
    refine ⟨_, _, j, l, hres, hj, ?_, ?_, ?_⟩
    · simp only []
      rw [lineAt_set_self _ _ _ _ _ hrow (by omega)]
      intro heq
      have hl := Option.some.inj heq
      refine hmiss j l hj ⟨?_, ?_⟩
      · rw [← hl]
      · rw [← hl]
    · rw [decide_eq_true_iff]
      exact hall
    · rintro ⟨k, l', hk, hnv⟩ hv
      exact hnv (hall.mp hv k l' hk)

/-- C18, instance: after `L 0` with `s = 1`, `E = 2`, `b = 0`, a miss on tag 1 in
set 0 returns "no eviction", since line 0 of the set is still invalid. -/
theorem valid_lines_and_eviction_witness :
    ∃ (ev : Bool) (st' : SimState),
      checkHitAndMiss
        { cache := [[zeroLine, { validBit := 1, tag := 0, operationNumber := 1 }],
                    [zeroLine, zeroLine]]
          operationNum := 1, numEviction := 0, numHits := 0, numMisses := 1 } 1 0 2
        = some (ev, st') ∧
      (ev = true ↔ ∀ (k : Nat) (l' : Line),
        [zeroLine, { validBit := 1, tag := 0, operationNumber := 1 }][k]? = some l' →
        l'.validBit = 1) := by
  obtain ⟨_, h2⟩ := valid_lines_and_eviction 1 2 0 [{ operation := "L", addr := 0 }]
    { cache := [[zeroLine, { validBit := 1, tag := 0, operationNumber := 1 }],
                [zeroLine, zeroLine]]
      operationNum := 1, numEviction := 0, numHits := 0, numMisses := 1 }
    (by decide) (by decide) (by decide)
  obtain ⟨ev, st', _, _, h3, _, _, h6, _⟩ := h2 1 0
    [zeroLine, { validBit := 1, tag := 0, operationNumber := 1 }] rfl (by
      intro k l' hk
      have hmem := List.getElem?_mem hk
      simp only [List.mem_cons, List.mem_singleton, List.not_mem_nil, or_false] at hmem
      rcases hmem with rfl | rfl <;> decide)
  exact ⟨ev, st', h3, h6⟩

/-! ## C19: distinct operation numbers -/

theorem access_no_lines (st : SimState) (tag set : Nat)
    (h : ∀ row ∈ st.cache, row = []) : access st tag set 0 = none := by
  have hl : lineAt st.cache set 0 = none := by
    unfold lineAt
    cases hrow : st.cache[set]? with
    | none => rfl
    | some row =>
      rw [h row (List.getElem?_mem hrow)]
      rfl
  simp [access, checkHitAndMiss, hitScan, lruScan, hl]

theorem replay_no_lines (s b : Nat) :
    ∀ (trace : List Record) (st st' : SimState), (∀ row ∈ st.cache, row = []) →
      replay s 0 b st trace = some st' → st' = st := by
  intro trace
  induction trace with
  | nil =>
    intro st st' _ h
    simp only [replay, Option.some.injEq] at h
    exact h.symm
  | cons r rest ih =>
    intro st st' hrows h
    cases h1 : processRecord s 0 b st r with
    | none => simp [replay, h1] at h
    | some st1 =>
      simp only [replay, h1] at h
      have hst1 : st1 = st := by
        unfold processRecord at h1
        by_cases hM : r.operation = "M"
        · simp [hM, access_no_lines st _ _ hrows] at h1
        · by_cases hI : r.operation = "I"
          · simp only [hI] at h1
            simp at h1
            exact h1.symm
          · simp [hM, hI, access_no_lines st _ _ hrows] at h1
      subst hst1
      exact ih st1 st' hrows h

/-- With `E = 0` the array has no line, whatever the trace. -/
theorem runState_no_lines {s b : Nat} {trace : List Record} {st : SimState}
    (h : runState s 0 b trace = some st) (i j : Nat) : lineAt st.cache i j = none := by
  unfold runState at h
  cases hnum : numSets s with
  | none => simp [hnum] at h
  | some S =>
    simp only [hnum] at h
    have hrows : ∀ row ∈ (initState S 0).cache, row = [] := by
      intro row hrow
      simp only [initState, List.replicate] at hrow
      exact List.eq_of_mem_replicate hrow
    have hst := replay_no_lines s b trace _ st hrows h
    subst hst
    unfold lineAt
    cases hrow : (initState S 0).cache[i]? with
    | none => rfl
    | some row =>
      rw [hrows row (List.getElem?_mem hrow)]
      rfl

/-- C19: in every cache state reachable by replaying a trace of fewer than
`2^31` references on a freshly initialised cache, any two lines at different
places of the array that carry the same `operationNumber` both carry 0 and are
still the invalid zero line of the initialisation (never referenced); two valid
lines at different places carry different `operationNumber`s. -/
theorem operationNumbers_distinct (s E b : Nat) (trace : List Record) (st : SimState)
    (hreach : runState s E b trace = some st) (hrefs : refCount trace < 2 ^ 31) :
    (∀ (i j i' j' : Nat) (l l' : Line), (i ≠ i' ∨ j ≠ j') →
      lineAt st.cache i j = some l → lineAt st.cache i' j' = some l' →
      l.operationNumber = l'.operationNumber →
      l.operationNumber = 0 ∧ l'.operationNumber = 0 ∧ l = zeroLine ∧ l' = zeroLine) ∧
    (∀ (i j i' j' : Nat) (l l' : Line), (i ≠ i' ∨ j ≠ j') →
      lineAt st.cache i j = some l → lineAt st.cache i' j' = some l' →
      l.validBit = 1 → l'.validBit = 1 → l.operationNumber ≠ l'.operationNumber) := by
  rcases Nat.eq_zero_or_pos E with hE0 | hEpos
  · subst hE0
    constructor
    · intro i j i' j' l l' _ h1
      rw [runState_no_lines hreach i j] at h1
      cases h1
    · intro i j i' j' l l' _ h1
      rw [runState_no_lines hreach i j] at h1
      cases h1
  · have hinv := runState_inv hEpos hrefs hreach
    obtain ⟨hd1, hd2⟩ := runState_opsDistinct hEpos hrefs hreach
    have hdist : ∀ (i j i' j' : Nat) (l l' : Line), (i ≠ i' ∨ j ≠ j') →
        lineAt st.cache i j = some l → lineAt st.cache i' j' = some l' →
        l.validBit = 1 → l'.validBit = 1 → l.operationNumber ≠ l'.operationNumber := by
      intro i j i' j' l l' hne h1 h2 hv1 hv2 hop
      obtain ⟨e1, e2⟩ := hd2 i j i' j' l l' h1 h2 hv1 hv2 hop
      rcases hne with hne | hne
      · exact hne e1
      · exact hne e2
    refine ⟨?_, hdist⟩
    intro i j i' j' l l' hne h1 h2 hop
    have hok1 := lineOk_of_lineAt hinv h1
    have hok2 := lineOk_of_lineAt hinv h2
    have hnv1 : l.validBit ≠ 1 := by
      intro hv1
      have hv2 : l'.validBit = 1 := hok2.2.2.1.mpr (by
        have := hok1.2.2.1.mp hv1
        omega)
      exact hdist i j i' j' l l' hne h1 h2 hv1 hv2 hop
    have hz1 := hd1 i j l h1 hnv1
    have hnv2 : l'.validBit ≠ 1 := by
      intro hv2
      have := hok2.2.2.1.mp hv2
      rw [← hop, hz1] at this
      exact absurd this (by decide)
    have hz2 := hd1 i' j' l' h2 hnv2
    refine ⟨by rw [hz1]; rfl, by rw [hz2]; rfl, hz1, hz2⟩

/-- C19, instance: in the state after `L 0`, `L 1` with `s = 1`, `E = 2`, `b = 0`,
the valid lines of the two sets carry different `operationNumber`s. -/
theorem operationNumbers_distinct_witness :
    runState 1 2 0 [{ operation := "L", addr := 0 }, { operation := "L", addr := 1 }]
      = some
        { cache := [[zeroLine, { validBit := 1, tag := 0, operationNumber := 1 }],
                    [zeroLine, { validBit := 1, tag := 0, operationNumber := 2 }]]
          operationNum := 2, numEviction := 0, numHits := 0, numMisses := 2 } ∧
    ({ validBit := 1, tag := 0, operationNumber := 1 } : Line).operationNumber
      ≠ ({ validBit := 1, tag := 0, operationNumber := 2 } : Line).operationNumber :=
  ⟨by decide,
    (operationNumbers_distinct 1 2 0
      [{ operation := "L", addr := 0 }, { operation := "L", addr := 1 }]
      { cache := [[zeroLine, { validBit := 1, tag := 0, operationNumber := 1 }],
                  [zeroLine, { validBit := 1, tag := 0, operationNumber := 2 }]]
        operationNum := 2, numEviction := 0, numHits := 0, numMisses := 2 }
      (by decide) (by decide)).2 0 1 1 1 _ _ (Or.inl (by decide)) rfl rfl rfl rfl⟩

/-! ## Lists: move-to-front and order of occurrence -/

theorem touch_nodup (t : Nat) (m : List Nat) (h : m.Nodup) : (touch t m).Nodup := by
  unfold touch
  refine List.nodup_cons.mpr ⟨?_, h.filter _⟩
  intro hmem
  have := (List.mem_filter.mp hmem).2
  simp at this

theorem mruTags_append (refs : List Nat) (t : Nat) :
    mruTags (refs ++ [t]) = touch t (mruTags refs) := by
  simp [mruTags, List.foldl_append]

theorem mruTags_nodup (refs : List Nat) : (mruTags refs).Nodup := by
  have hgen : ∀ (l m : List Nat), m.Nodup → (l.foldl (fun m t => touch t m) m).Nodup := by
    intro l
    induction l with
    | nil => intro m hm; exact hm
    | cons t l ih =>
      intro m hm
      exact ih (touch t m) (touch_nodup t m hm)
  exact hgen refs [] List.nodup_nil

/-- Removing a tag that does not occur among the first `k` tags leaves the
first `k` tags as they are. -/
theorem filter_take_of_not_mem (t : Nat) :
    ∀ (m : List Nat) (k : Nat), t ∉ m.take k →
      (m.filter (fun x => x ≠ t)).take k = m.take k := by
  intro m
  induction m with
  | nil => intro k _; simp
  | cons x m ih =>
    intro k hk
    cases k with
    | zero => simp
    | succ k =>
      simp only [List.take_succ_cons, List.mem_cons, not_or] at hk
      have hx : x ≠ t := fun h => hk.1 h.symm
      simp only [List.filter_cons, hx, ne_eq, not_false_eq_true, decide_True, if_true,
        List.take_succ_cons, ih k hk.2]

/-- Moving to the front a tag that is among the first `E` tags keeps the set
of the first `E` tags. -/
theorem take_touch_perm (t : Nat) :
    ∀ (m : List Nat) (E : Nat), m.Nodup → t ∈ m.take E →
      ((touch t m).take E).Perm (m.take E) := by
  intro m
  induction m with
  | nil => intro E _ h; simp at h
  | cons x m ih =>
    intro E hnd hmem
    cases E with
    | zero => simp at hmem
    | succ E =>
      have hxm : x ∉ m := (List.nodup_cons.mp hnd).1
      have hm : m.Nodup := (List.nodup_cons.mp hnd).2
      by_cases hx : x = t
      · subst hx
        have hfil : m.filter (fun y => y ≠ x) = m := by
          rw [List.filter_eq_self]
          intro a ha
          simp only [ne_eq, decide_eq_true_eq]
          intro hax
          exact hxm (hax ▸ ha)
        unfold touch
        rw [List.filter_cons_of_neg (by simp), hfil]
      · simp only [List.take_succ_cons, List.mem_cons] at hmem
        have hmem' : t ∈ m.take E := by
          rcases hmem with h | h
          · exact absurd h.symm hx
          · exact h
        have hE : 0 < E := by
          cases E with
          | zero => simp at hmem'
          | succ E => omega
        obtain ⟨E', rfl⟩ : ∃ E', E = E' + 1 := ⟨E - 1, by omega⟩
        have ih' := ih (E' + 1) hm hmem'
        simp only [touch, List.take_succ_cons] at ih'
        simp only [touch, List.filter_cons, hx, ne_eq, not_false_eq_true, decide_True, if_true,
          List.take_succ_cons]
        exact (List.Perm.swap x t _).trans (List.Perm.cons x ih')

/-- In a list without duplicates two elements do not occur in both orders. -/
theorem pair_sublist_asymm : ∀ (m : List Nat), m.Nodup → ∀ (x y : Nat),
    List.Sublist [x, y] m → List.Sublist [y, x] m → False := by
  intro m
  induction m with
  | nil =>
    intro _ x y h _
    cases h
  | cons a m ih =>
    intro hnd x y h1 h2
    have ham : a ∉ m := (List.nodup_cons.mp hnd).1
    have hm : m.Nodup := (List.nodup_cons.mp hnd).2
    cases h1 with
    | cons _ h1 =>
      cases h2 with
      | cons _ h2 => exact ih hm x y h1 h2
      | cons₂ _ h2 =>
        have : a ∈ m := h1.subset (by simp)
        exact ham this
    | cons₂ _ h1 =>
      cases h2 with
      | cons _ h2 =>
        have : a ∈ m := h2.subset (by simp)
        exact ham this
      | cons₂ _ h2 =>
        have : a ∈ m := h1.subset (by simp)
        exact ham this

/-- An element of the first `k` elements occurs before an element of the
rest. -/
theorem pair_sublist_of_take_drop (m : List Nat) (k x y : Nat) (hx : x ∈ m.take k)
    (hy : y ∈ m.drop k) : List.Sublist [x, y] m := by
  have h1 : List.Sublist [x] (m.take k) := List.singleton_sublist.mpr hx
  have h2 : List.Sublist [y] (m.drop k) := List.singleton_sublist.mpr hy
  have := List.Sublist.append h1 h2
  rw [List.take_append_drop] at this
  exact this

/-- A tag among the first `E` tags that comes after all the others of them is
the `E`-th tag. -/
theorem last_of_take (m : List Nat) (E u : Nat) (hnd : m.Nodup) (hE : 1 ≤ E)
    (hlen : E ≤ m.length) (hu : u ∈ m.take E)
    (hafter : ∀ x ∈ m.take E, x ≠ u → List.Sublist [x, u] m) :
    m[E - 1]? = some u ∧ m.take E = m.take (E - 1) ++ [u] := by
  obtain ⟨k, rfl⟩ : ∃ k, E = k + 1 := ⟨E - 1, by omega⟩
  have hk : k < m.length := by omega
  have hget : m[k]? = some m[k] := List.getElem?_eq_getElem hk
  have htake : m.take (k + 1) = m.take k ++ [m[k]] := by
    rw [List.take_succ, hget]
    rfl
  have hw : m[k] ∈ m.take (k + 1) := by
    have hw' : m[k] ∈ m.take k ++ [m[k]] :=
      List.mem_append.mpr (Or.inr (List.mem_singleton_self _))
    rw [← htake] at hw'
    exact hw'
  have hwd : m[k] ∈ m.drop k := by
    rw [List.drop_eq_getElem_cons hk]
    exact List.mem_cons_self _ _
  have hnot : u ∉ m.take k := by
    intro hin
    have hne : m[k] ≠ u := by
      intro heq
      have hdisj := List.disjoint_take_drop hnd (le_refl k)
      exact hdisj hin (heq ▸ hwd)
    exact pair_sublist_asymm m hnd u m[k] (pair_sublist_of_take_drop m k u m[k] hin hwd)
      (hafter m[k] hw hne)
  have hueq : u = m[k] := by
    rw [htake] at hu
    rcases List.mem_append.mp hu with h | h
    · exact absurd h hnot
    · simpa using h
  simp only [Nat.add_sub_cancel]
  rw [hueq]
  exact ⟨hget, htake⟩

/-! ## A row and its reference model -/

theorem validTags_append_cons (A B : List Line) (x : Line) :
    validTags (A ++ x :: B)
      = validTags A ++ (if x.validBit = 1 then [x.tag] else []) ++ validTags B := by
  by_cases hv : x.validBit = 1 <;> simp [validTags, List.filter_cons, hv]

theorem validOps_append_cons (A B : List Line) (x : Line) :
    validOps (A ++ x :: B)
      = validOps A ++ (if x.validBit = 1 then [x.operationNumber] else []) ++ validOps B := by
  by_cases hv : x.validBit = 1 <;> simp [validOps, List.filter_cons, hv]

theorem mem_validTags (row : List Line) (t : Nat) :
    t ∈ validTags row ↔ ∃ x ∈ row, x.validBit = 1 ∧ x.tag = t := by
  simp [validTags, and_assoc]

theorem mem_validOps (row : List Line) (o : Int) :
    o ∈ validOps row ↔ ∃ x ∈ row, x.validBit = 1 ∧ x.operationNumber = o := by
  simp [validOps, and_assoc]

theorem validTags_length_le (row : List Line) : (validTags row).length ≤ row.length := by
  simp only [validTags, List.length_map]
  exact List.length_filter_le _ _

theorem validTags_length_of_valid (row : List Line) (h : ∀ x ∈ row, x.validBit = 1) :
    (validTags row).length = row.length := by
  have hfil : row.filter (fun l => decide (l.validBit = 1)) = row := by
    rw [List.filter_eq_self]
    intro a ha
    simp [h a ha]
  simp only [validTags, List.length_map, hfil]

/-- With the row related to the model, a valid line holds the tag exactly when
the tag is among the first `E` tags of the model. -/
theorem lruRow_holds_iff {E : Nat} {row : List Line} {m : List Nat} (h : LruRow E row m)
    (t : Nat) : (∃ x ∈ row, Holds t x) ↔ t ∈ m.take E := by
  rw [← h.1.mem_iff, mem_validTags]
  rfl

/-- On a miss the overwritten line `l`, which carries the least
`operationNumber` of the row, is valid exactly when the model has `E` tags or
more, and then it holds the `E`-th tag of the model. -/
theorem lruRow_victim {E n : Nat} {A B : List Line} {l : Line} {m : List Nat}
    (hlen : (A ++ l :: B).length = E) (hok : ∀ x ∈ A ++ l :: B, LineOk n x) (hm : m.Nodup)
    (hrow : LruRow E (A ++ l :: B) m)
    (hmin : ∀ x ∈ A ++ l :: B, l.operationNumber ≤ x.operationNumber) :
    (l.validBit = 1 ↔ E ≤ m.length) ∧
    (l.validBit = 1 → m[E - 1]? = some l.tag ∧ m.take E = m.take (E - 1) ++ [l.tag] ∧
      (validTags A ++ validTags B).Perm (m.take (E - 1))) := by
  obtain ⟨J1, J2, J3⟩ := hrow
  have hlmem : l ∈ A ++ l :: B := by simp
  have hE : 1 ≤ E := by
    rw [← hlen]
    simp
    omega
  have hlenAB : A.length + B.length + 1 = E := by
    rw [← hlen]
    simp
    omega
  have hvalid : l.validBit = 1 → ∀ x ∈ A ++ l :: B, x.validBit = 1 := by
    intro hv x hx
    have h1 := (hok l hlmem).2.2.1.mp hv
    have h2 := hmin x hx
    exact (hok x hx).2.2.1.mpr (by omega)
  have hfull : l.validBit = 1 → E ≤ m.length := by
    intro hv
    have h1 := validTags_length_of_valid _ (hvalid hv)
    have h2 := J1.length_eq
    rw [h1, hlen, List.length_take] at h2
    omega
  have hlast : l.validBit = 1 → m[E - 1]? = some l.tag ∧
      m.take E = m.take (E - 1) ++ [l.tag] := by
    intro hv
    have hu : l.tag ∈ m.take E := by
      rw [← J1.mem_iff, mem_validTags]
      exact ⟨l, hlmem, hv, rfl⟩
    refine last_of_take m E l.tag hm hE (hfull hv) hu ?_
    intro x hx hne
    rw [← J1.mem_iff, mem_validTags] at hx
    obtain ⟨y, hy, hyv, hyt⟩ := hx
    have hyAB : y ∈ A ∨ y ∈ B := by
      rcases List.mem_append.mp hy with h | h
      · exact Or.inl h
      · rcases List.mem_cons.mp h with h | h
        · rw [h] at hyt
          exact absurd hyt.symm hne
        · exact Or.inr h
    have hnd := J3
    rw [validOps_append_cons, if_pos hv, List.append_assoc] at hnd
    have hlop : l.operationNumber ≠ y.operationNumber := by
      intro heq
      have hA : l.operationNumber ∉ validOps A := by
        intro hin
        exact (List.nodup_append.mp hnd).2.2 hin (by simp)
      have hB : l.operationNumber ∉ validOps B := by
        intro hin
        have := (List.nodup_append.mp hnd).2.1
        simp only [List.singleton_append, List.nodup_cons] at this
        exact this.1 hin
      rcases hyAB with h | h
      · exact hA ((mem_validOps A _).mpr ⟨y, h, hyv, heq.symm⟩)
      · exact hB ((mem_validOps B _).mpr ⟨y, h, hyv, heq.symm⟩)
    have hlt : l.operationNumber < y.operationNumber :=
      lt_of_le_of_ne (hmin y hy) hlop
    have := J2 y hy l hlmem hyv hv hlt
    rw [hyt] at this
    exact this
  refine ⟨⟨hfull, ?_⟩, ?_⟩
  · intro hge
    by_contra hnv
    have h1 : (validTags (A ++ l :: B)).length ≤ A.length + B.length := by
      rw [validTags_append_cons, if_neg hnv]
      simp only [List.append_nil, List.length_append]
      have := validTags_length_le A
      have := validTags_length_le B
      omega
    have h2 := J1.length_eq
    rw [List.length_take] at h2
    omega
  · intro hv
    obtain ⟨h1, h2⟩ := hlast hv
    refine ⟨h1, h2, ?_⟩
    have hp := J1
    rw [validTags_append_cons, if_pos hv, h2, List.append_assoc] at hp
    have hp1 : (l.tag :: (validTags A ++ validTags B)).Perm
        (l.tag :: m.take (E - 1)) := by
      refine (List.perm_middle.symm.trans hp).trans ?_
      exact List.perm_append_singleton _ _
    exact hp1.cons_inv

/-- One reference keeps the relation between the row and the model: the line
`l` of the row is overwritten by a valid line holding `t` with the new counter
value, either on a hit (`l` held `t`) or on a miss (no valid line held `t` and
`l` carried the least `operationNumber`), and `t` moves to the front of the
model. -/
theorem lruRow_step {E n : Nat} (t : Nat) {A B : List Line} {l : Line} {m : List Nat}
    (hlen : (A ++ l :: B).length = E) (hok : ∀ x ∈ A ++ l :: B, LineOk n x) (hm : m.Nodup)
    (hrow : LruRow E (A ++ l :: B) m)
    (hcase : (l.validBit = 1 ∧ l.tag = t) ∨
      ((∀ x ∈ A ++ l :: B, ¬ Holds t x) ∧
        (∀ x ∈ A ++ l :: B, l.operationNumber ≤ x.operationNumber))) :
    LruRow E (A ++ { validBit := 1, tag := t, operationNumber := (n : Int) + 1 } :: B)
      (touch t m) := by
  have hrow' := hrow
  obtain ⟨J1, J2, J3⟩ := hrow
  have hlmem : l ∈ A ++ l :: B := by simp
  have hE : 1 ≤ E := by
    rw [← hlen]
    simp
    omega
  have hmemA : ∀ x ∈ A, x ∈ A ++ l :: B := fun x hx => List.mem_append_left _ hx
  have hmemB : ∀ x ∈ B, x ∈ A ++ l :: B :=
    fun x hx => List.mem_append_right _ (List.mem_cons_of_mem _ hx)
  have hndT : (validTags (A ++ l :: B)).Nodup :=
    J1.nodup_iff.mpr ((List.take_sublist E m).nodup hm)
  -- valid lines other than `l` hold tags different from `t`
  have hF : ∀ x, (x ∈ A ∨ x ∈ B) → x.validBit = 1 → x.tag ≠ t := by
    intro x hx hv
    rcases hcase with ⟨hlv, hlt⟩ | ⟨hno, _⟩
    · rw [validTags_append_cons, if_pos hlv, hlt, List.append_assoc] at hndT
      have hA : t ∉ validTags A := by
        intro hin
        exact (List.nodup_append.mp hndT).2.2 hin (by simp)
      have hB : t ∉ validTags B := by
        intro hin
        have := (List.nodup_append.mp hndT).2.1
        simp only [List.singleton_append, List.nodup_cons] at this
        exact this.1 hin
      intro heq
      rcases hx with h | h
      · exact hA ((mem_validTags A t).mpr ⟨x, h, hv, heq⟩)
      · exact hB ((mem_validTags B t).mpr ⟨x, h, hv, heq⟩)
    · intro heq
      rcases hx with h | h
      · exact hno x (hmemA x h) ⟨hv, heq⟩
      · exact hno x (hmemB x h) ⟨hv, heq⟩
  have hinm : ∀ x, (x ∈ A ∨ x ∈ B) → x.validBit = 1 → x.tag ∈ m := by
    intro x hx hv
    have hxrow : x ∈ A ++ l :: B := by
      rcases hx with h | h
      · exact hmemA x h
      · exact hmemB x h
    have : x.tag ∈ m.take E := by
      rw [← J1.mem_iff, mem_validTags]
      exact ⟨x, hxrow, hv, rfl⟩
    exact List.mem_of_mem_take this
  refine ⟨?_, ?_, ?_⟩
  · -- the tags of the valid lines
    rw [validTags_append_cons, if_pos rfl]
    simp only []
    rcases hcase with ⟨hlv, hlt⟩ | ⟨hno, hmin⟩
    · have hsame : validTags A ++ [t] ++ validTags B = validTags (A ++ l :: B) := by
        rw [validTags_append_cons, if_pos hlv, hlt]
      rw [hsame]
      have htin : t ∈ m.take E := by
        rw [← J1.mem_iff, mem_validTags]
        exact ⟨l, hlmem, hlv, hlt⟩
      exact J1.trans (take_touch_perm t m E hm htin).symm
    · have htnot : t ∉ m.take E := by
        rw [← lruRow_holds_iff hrow' t]
        rintro ⟨x, hx, hh⟩
        exact hno x hx hh
      obtain ⟨hv1, hv2⟩ := lruRow_victim hlen hok hm hrow' hmin
      by_cases hlv : l.validBit = 1
      · obtain ⟨_, htake, hperm⟩ := hv2 hlv
        have htnot' : t ∉ m.take (E - 1) := by
          intro hin
          apply htnot
          rw [htake]
          exact List.mem_append_left _ hin
        have htouch : (touch t m).take E = t :: m.take (E - 1) := by
          obtain ⟨k, rfl⟩ : ∃ k, E = k + 1 := ⟨E - 1, by omega⟩
          simp only [touch, List.take_succ_cons, Nat.add_sub_cancel]
          rw [filter_take_of_not_mem t m k (by simpa using htnot')]
        rw [htouch, List.append_assoc]
        exact List.perm_middle.trans (List.Perm.cons t hperm)
      · have hlt : m.length < E := by
          by_contra hge
          exact hlv (hv1.mpr (by omega))
        have htake : m.take E = m := List.take_of_length_le (by omega)
        rw [htake] at htnot J1
        have hfil : m.filter (fun x => x ≠ t) = m := by
          rw [List.filter_eq_self]
          intro a ha
          simp only [ne_eq, decide_eq_true_eq]
          intro hat
          exact htnot (hat ▸ ha)
        have htouch : (touch t m).take E = t :: m := by
          unfold touch
          rw [hfil]
          exact List.take_of_length_le (by simp; omega)
        rw [validTags_append_cons, if_neg hlv] at J1
        simp only [List.append_nil] at J1
        rw [htouch, List.append_assoc]
        exact List.perm_middle.trans (List.Perm.cons t J1)
  · -- the order of the valid lines
    intro a ha c hc hav hcv hlt
    have hsplit : ∀ x, x ∈ A ++ ({ validBit := 1, tag := t, operationNumber := (n : Int) + 1 }
        : Line) :: B → (x ∈ A ∨ x ∈ B) ∨
        x = { validBit := 1, tag := t, operationNumber := (n : Int) + 1 } := by
      intro x hx
      rcases List.mem_append.mp hx with h | h
      · exact Or.inl (Or.inl h)
      · rcases List.mem_cons.mp h with h | h
        · exact Or.inr h
        · exact Or.inl (Or.inr h)
    have hold : ∀ x, (x ∈ A ∨ x ∈ B) → x ∈ A ++ l :: B := by
      intro x hx
      rcases hx with h | h
      · exact hmemA x h
      · exact hmemB x h
    unfold touch
    rcases hsplit a ha with haold | hanew
    · rcases hsplit c hc with hcold | hcnew
      · have hsub := J2 a (hold a haold) c (hold c hcold) hav hcv hlt
        have hfil := List.Sublist.filter (fun x => decide (x ≠ t)) hsub
        have hpair : [a.tag, c.tag].filter (fun x => decide (x ≠ t)) = [a.tag, c.tag] := by
          rw [List.filter_eq_self]
          intro x hx
          simp only [List.mem_cons, List.mem_singleton, List.not_mem_nil, or_false] at hx
          rcases hx with rfl | rfl
          · simpa using hF a haold hav
          · simpa using hF c hcold hcv
        rw [hpair] at hfil
        exact List.Sublist.cons t hfil
      · have h1 := (hok a (hold a haold)).2.1
        rw [hcnew] at hlt
        simp only at hlt
        omega
    · rcases hsplit c hc with hcold | hcnew
      · rw [hanew]
        simp only []
        refine List.Sublist.cons₂ t (List.singleton_sublist.mpr ?_)
        rw [List.mem_filter]
        exact ⟨hinm c hcold hcv, by simpa using hF c hcold hcv⟩
      · rw [hanew, hcnew] at hlt
        exact absurd hlt (lt_irrefl _)
  · -- the operation numbers of the valid lines
    rw [validOps_append_cons, if_pos rfl]
    simp only []
    have hsub : List.Sublist (validOps A ++ validOps B) (validOps (A ++ l :: B)) := by
      rw [validOps_append_cons, List.append_assoc]
      exact List.Sublist.append (List.Sublist.refl _) (List.sublist_append_right _ _)
    have hndAB := hsub.nodup J3
    have hle : ∀ o ∈ validOps A ++ validOps B, o ≤ (n : Int) := by
      intro o ho
      rcases List.mem_append.mp ho with h | h
      · obtain ⟨x, hx, _, hxo⟩ := (mem_validOps A o).mp h
        rw [← hxo]
        exact (hok x (hmemA x hx)).2.1
      · obtain ⟨x, hx, _, hxo⟩ := (mem_validOps B o).mp h
        rw [← hxo]
        exact (hok x (hmemB x hx)).2.1
    rw [List.append_assoc]
    refine List.nodup_middle.mpr (List.nodup_cons.mpr ⟨?_, hndAB⟩)
    intro hin
    have := hle _ hin
    omega

/-! ## A state and the reference models of its sets -/

theorem row_split {row : List Line} {j : Nat} {l : Line} (hj : row[j]? = some l)
    (new : Line) :
    row = row.take j ++ l :: row.drop (j + 1) ∧
    row.set j new = row.take j ++ new :: row.drop (j + 1) := by
  obtain ⟨hlt, hget⟩ := List.getElem?_eq_some.mp hj
  constructor
  · conv_lhs => rw [← List.take_append_drop j row]
    rw [List.drop_eq_getElem_cons hlt, hget]
  · rw [List.set_eq_take_append_cons_drop, if_pos hlt]

theorem lruInv_initState (S E : Nat) : LruInv E (fun _ => []) (initState S E) := by
  intro i row hrow
  have hmem := List.getElem?_mem hrow
  simp only [initState] at hmem
  have hr := List.eq_of_mem_replicate hmem
  subst hr
  have hz : ∀ x ∈ List.replicate E zeroLine, x.validBit ≠ 1 := by
    intro x hx
    rw [List.eq_of_mem_replicate hx]
    decide
  have hfil : (List.replicate E zeroLine).filter (fun l => decide (l.validBit = 1)) = [] := by
    rw [List.filter_eq_nil_iff]
    intro a ha
    simpa using hz a ha
  refine ⟨⟨?_, ?_, ?_⟩, List.nodup_nil⟩
  · simp [validTags, hfil]
  · intro l hl _ _ hv
    exact absurd hv (hz l hl)
  · simp [validOps, hfil]

/-- One memory reference keeps the relation between the state and the models:
the model of the addressed set moves the tag to the front. -/
theorem access_lru {S E n : Nat} {st st' : SimState} {tag set : Nat} {M : Nat → List Nat}
    (hinv : Inv S E n st) (hlru : LruInv E M st) (hE : 1 ≤ E) (hn : n + 1 < 2 ^ 31)
    (h : access st tag set E = some st') :
    LruInv E (fun i => if i = set then touch tag (M i) else M i) st' := by
  obtain ⟨row, j, l, hrow, hlen, hjE, hj, hcache, _, hcases⟩ := access_step hinv hE hn h
  have hsetlt : set < st.cache.length := (List.getElem?_eq_some.mp hrow).1
  have hmemrow : row ∈ st.cache := List.getElem?_mem hrow
  intro i rowi hrowi
  rw [hcache] at hrowi
  by_cases hi : i = set
  · subst hi
    rw [List.getElem?_set_self hsetlt] at hrowi
    have hrowi' := (Option.some.inj hrowi).symm
    subst hrowi'
    simp only [if_true]
    obtain ⟨hl, hnd⟩ := hlru i row hrow
    obtain ⟨hsplit, hset⟩ :=
      row_split hj { validBit := 1, tag := tag, operationNumber := (n : Int) + 1 }
    refine ⟨?_, touch_nodup tag _ hnd⟩
    rw [hset]
    have hok : ∀ x ∈ row.take j ++ l :: row.drop (j + 1), LineOk n x := by
      rw [← hsplit]
      exact hinv.2.2.2.1 row hmemrow
    have hmemget : ∀ x ∈ row, ∃ (k : Nat), row[k]? = some x := by
      intro x hx
      exact List.mem_iff_getElem?.mp hx
    refine lruRow_step tag (by rw [← hsplit]; exact hlen) hok hnd (by rw [← hsplit]; exact hl) ?_
    rw [← hsplit]
    rcases hcases with ⟨hhold, _⟩ | ⟨hno, hmin, _⟩
    · exact Or.inl hhold
    · refine Or.inr ⟨?_, ?_⟩
      · intro x hx
        obtain ⟨k, hk⟩ := hmemget x hx
        exact hno k x hk
      · intro x hx
        obtain ⟨k, hk⟩ := hmemget x hx
        exact hmin k x hk
  · rw [List.getElem?_set_ne (Ne.symm hi)] at hrowi
    simp only [hi, if_false]
    exact hlru i rowi hrowi

/-- The outcome of one memory reference on a reachable state is the outcome of
the reference in the model of its set. -/
theorem accessOutcome_model {S E n : Nat} {st st' : SimState} {tag set : Nat}
    {M : Nat → List Nat} (hinv : Inv S E n st) (hlru : LruInv E M st) (hE : 1 ≤ E)
    (_hn : n + 1 < 2 ^ 31) (h : access st tag set E = some st') :
    accessOutcome st tag set E = some (modelOutcome E (M set) set tag, st') := by
  obtain ⟨hS, hshape, hc, hops, _⟩ := id hinv
  cases hrow : st.cache[set]? with
  | none =>
    rw [access, checkHitAndMiss_out_of_range hE hrow] at h
    cases h
  | some row =>
    have hmemrow : row ∈ st.cache := List.getElem?_mem hrow
    have hlen : row.length = E := hshape row hmemrow
    obtain ⟨hl, hnd⟩ := hlru set row hrow
    have hmemget : ∀ x ∈ row, ∃ (k : Nat), row[k]? = some x :=
      fun x hx => List.mem_iff_getElem?.mp hx
    unfold accessOutcome
    rw [h]
    simp only []
    rcases hitScan_spec tag hrow E 0 (by omega) with ⟨j, l, h1, _, _, h4, h5, _⟩ | ⟨h1, h2⟩
    · have htin : tag ∈ (M set).take E :=
        (lruRow_holds_iff hl tag).mp ⟨l, List.getElem?_mem h4, h5⟩
      rw [h1]
      simp only [modelOutcome, htin, if_true]
    · have hno : ∀ x ∈ row, ¬ Holds tag x := by
        intro x hx
        obtain ⟨k, hk⟩ := hmemget x hx
        have hklt := (List.getElem?_eq_some.mp hk).1
        exact h2 k x (Nat.zero_le _) (by omega) hk
      have htnot : tag ∉ (M set).take E := by
        rw [← lruRow_holds_iff hl tag]
        rintro ⟨x, hx, hh⟩
        exact hno x hx hh
      rw [h1]
      simp only []
      rcases lruScan_spec hrow E 0 st.operationNum 0 (by omega) with ⟨op, j, hs1, hs2⟩
      have h0 : 0 < row.length := by omega
      have hle0 : (row[0]).operationNumber ≤ st.operationNum := by
        rw [hc]
        exact (hops row hmemrow row[0] (List.getElem_mem h0)).2.1
      rcases hs2 with ⟨_, _, hall⟩ | ⟨_, hj2, _, ⟨l, hl1, hl2⟩, hmin, _⟩
      · have := hall 0 row[0] (le_refl 0) (by omega) (List.getElem?_eq_getElem h0)
        omega
      · rw [hs1]
        simp only [lineAt_eq hrow, hl1]
        obtain ⟨hsplit, _⟩ := row_split hl1 l
        have hmin' : ∀ x ∈ row.take j ++ l :: row.drop (j + 1),
            l.operationNumber ≤ x.operationNumber := by
          rw [← hsplit]
          intro x hx
          obtain ⟨k, hk⟩ := hmemget x hx
          have hklt := (List.getElem?_eq_some.mp hk).1
          rw [hl2]
          exact hmin k x (Nat.zero_le _) (by omega) hk
        have hok : ∀ x ∈ row.take j ++ l :: row.drop (j + 1), LineOk n x := by
          rw [← hsplit]
          exact hops row hmemrow
        have hlen' : (row.take j ++ l :: row.drop (j + 1)).length = E := by
          rw [← hsplit]
          exact hlen
        have hl' : LruRow E (row.take j ++ l :: row.drop (j + 1)) (M set) := by
          rw [← hsplit]
          exact hl
        obtain ⟨hv1, hv2⟩ := lruRow_victim hlen' hok hnd hl' hmin'
        by_cases hlv : l.validBit = 1
        · have hge := hv1.mp hlv
          obtain ⟨hget, _, _⟩ := hv2 hlv
          simp only [modelOutcome, htnot, if_false, hge, if_true, hlv, decide_True, hget]
        · have hlt : ¬ E ≤ (M set).length := fun hge => hlv (hv1.mpr hge)
          simp only [modelOutcome, htnot, if_false, hlt, hlv, decide_False]

/-! ## The replay loop and the reference model -/

theorem accessAll_append (E : Nat) : ∀ (xs ys : List (Nat × Nat)) (st : SimState),
    accessAll E st (xs ++ ys) = (accessAll E st xs).bind (fun st1 => accessAll E st1 ys) := by
  intro xs
  induction xs with
  | nil =>
    intro ys st
    rfl
  | cons p rest ih =>
    intro ys st
    simp only [List.cons_append, accessAll]
    cases access st p.2 p.1 E with
    | none => rfl
    | some st1 => exact ih ys st1

/-- The replay loop performs the memory references of the trace in order. -/
theorem replay_eq_accessAll (s E b : Nat) : ∀ (trace : List Record) (st : SimState),
    replay s E b st trace = accessAll E st (refsOf s b trace) := by
  intro trace
  induction trace with
  | nil =>
    intro st
    rfl
  | cons r rest ih =>
    intro st
    simp only [replay, refsOf, accessAll_append, processRecord]
    by_cases hM : r.operation = "M"
    · simp only [hM, if_true, accessAll]
      cases access st (setTagAndSet r.addr s b).2 (setTagAndSet r.addr s b).1 E with
      | none => rfl
      | some st1 =>
        simp only []
        cases access st1 (setTagAndSet r.addr s b).2 (setTagAndSet r.addr s b).1 E with
        | none => rfl
        | some st2 => exact ih st2
    · by_cases hI : r.operation = "I"
      · simp only [hM, hI, if_false, ne_eq, not_true_eq_false, accessAll, Option.some_bind]
        exact ih st
      · simp only [hM, hI, if_false, ne_eq, not_false_eq_true, if_true, accessAll]
        cases access st (setTagAndSet r.addr s b).2 (setTagAndSet r.addr s b).1 E with
        | none => rfl
        | some st1 => exact ih st1

theorem refsOf_length (s b : Nat) (trace : List Record) :
    (refsOf s b trace).length = refCount trace := by
  induction trace with
  | nil => rfl
  | cons r rest ih =>
    simp only [refsOf, refCount, List.length_append, ih]
    by_cases hM : r.operation = "M"
    · simp [hM]
    · by_cases hI : r.operation = "I"
      · simp [hI]
      · simp [hM, hI]

theorem refsOf_set_lt (s b : Nat) (hs1 : 1 ≤ s) (hs2 : s ≤ 32) (trace : List Record) :
    ∀ p ∈ refsOf s b trace, p.1 < 2 ^ s := by
  induction trace with
  | nil =>
    intro p hp
    cases hp
  | cons r rest ih =>
    intro p hp
    simp only [refsOf, List.mem_append] at hp
    rcases hp with hp | hp
    · have hp' : p = setTagAndSet r.addr s b := by
        by_cases hM : r.operation = "M"
        · simpa [hM] using hp
        · by_cases hI : r.operation = "I"
          · simp [hI] at hp
          · simpa [hM, hI] using hp
      rw [hp']
      exact setTagAndSet_set_lt r.addr s b hs1 hs2
    · exact ih p hp

/-- The references of the records of a trace whose address maps to set `i` are
the references of the trace that map to set `i`. -/
theorem refsOf_filter (s b i : Nat) (trace : List Record) :
    refsOf s b (trace.filter (fun r => (setTagAndSet r.addr s b).1 = i))
      = (refsOf s b trace).filter (fun p => p.1 = i) := by
  induction trace with
  | nil => rfl
  | cons r rest ih =>
    by_cases hi : (setTagAndSet r.addr s b).1 = i
    · rw [List.filter_cons_of_pos (by simpa using hi)]
      simp only [refsOf, List.filter_append, ih]
      congr 1
      by_cases hM : r.operation = "M"
      · simp [hM, hi]
      · by_cases hI : r.operation = "I"
        · simp [hI]
        · simp [hM, hI, hi]
    · rw [List.filter_cons_of_neg (by simpa using hi)]
      simp only [refsOf, List.filter_append, ih]
      have hnil : (if r.operation = "M" then
            [setTagAndSet r.addr s b, setTagAndSet r.addr s b]
          else if r.operation ≠ "I" then [setTagAndSet r.addr s b] else []).filter
            (fun p => decide (p.1 = i)) = [] := by
        by_cases hM : r.operation = "M"
        · simp [hM, hi]
        · by_cases hI : r.operation = "I"
          · simp [hI]
          · simp [hM, hI, hi]
      rw [hnil, List.nil_append]

theorem refCount_filter_le (p : Record → Bool) (trace : List Record) :
    refCount (trace.filter p) ≤ refCount trace := by
  induction trace with
  | nil => exact Nat.le_refl _
  | cons r rest ih =>
    cases hp : p r with
    | true =>
      rw [List.filter_cons_of_pos hp, refCount_cons r rest, refCount_cons r (rest.filter p)]
      omega
    | false =>
      rw [List.filter_cons_of_neg (by simp [hp]), refCount_cons r rest]
      omega

theorem modelAfter_eq (i : Nat) : ∀ (refs : List (Nat × Nat)) (M : Nat → List Nat),
    modelAfter M refs i = (tagsOfSet i refs).foldl (fun m t => touch t m) (M i) := by
  intro refs
  induction refs with
  | nil =>
    intro M
    rfl
  | cons p rest ih =>
    intro M
    rw [modelAfter, ih]
    by_cases hp : p.1 = i
    · simp [tagsOfSet, hp]
    · have hp' : ¬ i = p.1 := fun h => hp h.symm
      simp [tagsOfSet, hp, hp']

theorem modelAfter_empty (i : Nat) (refs : List (Nat × Nat)) :
    modelAfter (fun _ => []) refs i = mruTags (tagsOfSet i refs) :=
  modelAfter_eq i refs _

theorem modelAfter_append : ∀ (xs ys : List (Nat × Nat)) (M : Nat → List Nat),
    modelAfter M (xs ++ ys) = modelAfter (modelAfter M xs) ys := by
  intro xs
  induction xs with
  | nil =>
    intro ys M
    rfl
  | cons p rest ih =>
    intro ys M
    simp only [List.cons_append, modelAfter]
    exact ih ys _

/-- The references keep the invariant and the relation to the reference models. -/
theorem accessAll_model {S E : Nat} (hE : 1 ≤ E) :
    ∀ (refs : List (Nat × Nat)) (n : Nat) (M : Nat → List Nat) (st st' : SimState),
      Inv S E n st → LruInv E M st → n + refs.length < 2 ^ 31 →
      accessAll E st refs = some st' →
      Inv S E (n + refs.length) st' ∧ LruInv E (modelAfter M refs) st' := by
  intro refs
  induction refs with
  | nil =>
    intro n M st st' hinv hlru _ h
    simp only [accessAll, Option.some.injEq] at h
    subst h
    exact ⟨hinv, hlru⟩
  | cons p rest ih =>
    intro n M st st' hinv hlru hn h
    simp only [List.length_cons] at hn
    simp only [accessAll] at h
    cases h1 : access st p.2 p.1 E with
    | none =>
      rw [h1] at h
      cases h
    | some st1 =>
      rw [h1] at h
      have hinv1 := access_inv hinv hE (by omega) h1
      have hlru1 := access_lru hinv hlru hE (by omega) h1
      have := ih (n + 1) _ st1 st' hinv1 hlru1 (by omega) h
      simp only [List.length_cons, modelAfter]
      rw [show n + (rest.length + 1) = n + 1 + rest.length by omega]
      exact this

/-- The references are defined while the set indices stay below the number of
sets. -/
theorem accessAll_some {S E : Nat} (hE : 1 ≤ E) :
    ∀ (refs : List (Nat × Nat)) (n : Nat) (st : SimState),
      Inv S E n st → n + refs.length < 2 ^ 31 → (∀ p ∈ refs, p.1 < S) →
      ∃ (st' : SimState), accessAll E st refs = some st' := by
  intro refs
  induction refs with
  | nil =>
    intro n st _ _ _
    exact ⟨st, rfl⟩
  | cons p rest ih =>
    intro n st hinv hn hlt
    simp only [List.length_cons] at hn
    obtain ⟨st1, h1⟩ := access_some p.2 hinv hE (hlt p (List.mem_cons_self _ _))
    have hinv1 := access_inv hinv hE (by omega) h1
    obtain ⟨st', h'⟩ := ih (n + 1) st1 hinv1 (by omega)
      (fun q hq => hlt q (List.mem_cons_of_mem _ hq))
    exact ⟨st', by simp only [accessAll, h1, h']⟩

/-- The outcomes of the references are the outcomes in the reference model. -/
theorem outcomesAll_model {S E : Nat} (hE : 1 ≤ E) :
    ∀ (refs : List (Nat × Nat)) (n : Nat) (M : Nat → List Nat) (st : SimState),
      Inv S E n st → LruInv E M st → n + refs.length < 2 ^ 31 → (∀ p ∈ refs, p.1 < S) →
      outcomesAll E st refs = some (modelRun E M refs) := by
  intro refs
  induction refs with
  | nil =>
    intro n M st _ _ _ _
    rfl
  | cons p rest ih =>
    intro n M st hinv hlru hn hlt
    simp only [List.length_cons] at hn
    obtain ⟨st1, h1⟩ := access_some p.2 hinv hE (hlt p (List.mem_cons_self _ _))
    have hinv1 := access_inv hinv hE (by omega) h1
    have hlru1 := access_lru hinv hlru hE (by omega) h1
    have ho := accessOutcome_model hinv hlru hE (by omega) h1
    have hrest := ih (n + 1) _ st1 hinv1 hlru1 (by omega)
      (fun q hq => hlt q (List.mem_cons_of_mem _ hq))
    simp only [outcomesAll, ho, hrest, modelRun]

theorem modelOutcome_set (E : Nat) (m : List Nat) (set tag : Nat) :
    (modelOutcome E m set tag).set = set := by
  unfold modelOutcome
  split_ifs <;> rfl

theorem modelOutcome_hit (E : Nat) (m : List Nat) (set tag : Nat) :
    (modelOutcome E m set tag).hit = true ↔ tag ∈ m.take E := by
  unfold modelOutcome
  split_ifs with h1 h2 <;> simp [h1]

theorem modelRun_congr (E : Nat) : ∀ (refs : List (Nat × Nat)) (M M' : Nat → List Nat),
    (∀ p ∈ refs, M p.1 = M' p.1) → modelRun E M refs = modelRun E M' refs := by
  intro refs
  induction refs with
  | nil =>
    intro M M' _
    rfl
  | cons p rest ih =>
    intro M M' h
    simp only [modelRun]
    rw [h p (List.mem_cons_self _ _)]
    congr 1
    apply ih
    intro q hq
    simp only [h q (List.mem_cons_of_mem _ hq), h p (List.mem_cons_self _ _)]

/-- In the reference model the outcomes of the references of one set do not
depend on the references of the other sets. -/
theorem modelRun_filter (E i : Nat) : ∀ (refs : List (Nat × Nat)) (M : Nat → List Nat),
    (modelRun E M refs).filter (fun o => o.set = i)
      = modelRun E M (refs.filter (fun p => p.1 = i)) := by
  intro refs
  induction refs with
  | nil =>
    intro M
    rfl
  | cons p rest ih =>
    intro M
    simp only [modelRun]
    by_cases hp : p.1 = i
    · rw [List.filter_cons_of_pos (by simpa [modelOutcome_set] using hp),
        List.filter_cons_of_pos (by simpa using hp), ih]
      rfl
    · rw [List.filter_cons_of_neg (by simpa [modelOutcome_set] using hp),
        List.filter_cons_of_neg (by simpa using hp), ih]
      apply modelRun_congr
      intro q hq
      have hq1 : q.1 = i := by simpa using (List.mem_filter.mp hq).2
      have : ¬ q.1 = p.1 := by
        rw [hq1]
        exact fun h => hp h.symm
      simp only [this, if_false]

/-- The outcome of the reference number `k` in the reference model is the
outcome in the model of its set after the first `k` references. -/
theorem modelRun_getElem (E : Nat) : ∀ (refs : List (Nat × Nat)) (M : Nat → List Nat)
    (k : Nat) (p : Nat × Nat), refs[k]? = some p →
    (modelRun E M refs)[k]? = some (modelOutcome E (modelAfter M (refs.take k) p.1) p.1 p.2) := by
  intro refs
  induction refs with
  | nil =>
    intro M k p h
    simp at h
  | cons q rest ih =>
    intro M k p h
    cases k with
    | zero =>
      simp only [List.getElem?_cons_zero, Option.some.injEq] at h
      subst h
      simp [modelRun, modelAfter]
    | succ k =>
      simp only [List.getElem?_cons_succ] at h
      simp only [modelRun, List.getElem?_cons_succ, List.take_succ_cons, modelAfter]
      exact ih _ k p h

/-! ## C17: the LRU reference model -/

theorem mem_touch (t x : Nat) (m : List Nat) : x ∈ touch t m ↔ x = t ∨ x ∈ m := by
  unfold touch
  by_cases hx : x = t
  · simp [hx]
  · simp [hx]

theorem mem_mruTags (x : Nat) (refs : List Nat) : x ∈ mruTags refs ↔ x ∈ refs := by
  induction refs using List.reverseRecOn with
  | nil => simp [mruTags]
  | append_singleton rest t ih =>
    rw [mruTags_append, mem_touch, ih]
    simp [or_comm]

/-- A reference on a reachable state increases the hit count exactly when its
tag is among the first `E` tags of the model of its set. -/
theorem access_hit_iff {S E n : Nat} {st st' : SimState} {tag set : Nat} {M : Nat → List Nat}
    (hinv : Inv S E n st) (hlru : LruInv E M st) (hE : 1 ≤ E) (hn : n + 1 < 2 ^ 31)
    (h : access st tag set E = some st') :
    st'.numHits = st.numHits + 1 ↔ tag ∈ (M set).take E := by
  obtain ⟨row, j, l, hrow, _, _, hj, _, _, hcases⟩ := access_step hinv hE hn h
  obtain ⟨hl, _⟩ := hlru set row hrow
  rw [← lruRow_holds_iff hl tag]
  rcases hcases with ⟨hhold, _, hh, _⟩ | ⟨hno, _, _, hh, _⟩
  · exact ⟨fun _ => ⟨l, List.getElem?_mem hj, hhold⟩, fun _ => hh⟩
  · constructor
    · intro h1
      omega
    · rintro ⟨x, hx, hhx⟩
      obtain ⟨k, hk⟩ := List.mem_iff_getElem?.mp hx
      exact absurd hhx (hno k x hk)

/-- C17 (as stated, refuted): with `s = 0` (one set) the load of address `0x10`
is a reference to set 16, outside the one-set cache, so that there is no state
after that reference; with `s = 31` the number of sets does not fit the `int`
`S` and no trace is replayed. -/
theorem lru_reference_model_refuted :
    (numSets 0 = some 1 ∧
      refsOf 0 0 [{ operation := "L", addr := 16 }] = [(16, 16)] ∧
      (initState 1 1).cache.length = 1 ∧
      accessAll 1 (initState 1 1) (refsOf 0 0 [{ operation := "L", addr := 16 }]) = none ∧
      runState 0 1 0 [{ operation := "L", addr := 16 }] = none) ∧
    (numSets 31 = none ∧ runState 31 1 0 [{ operation := "L", addr := 16 }] = none) := by
  refine ⟨⟨by decide, by decide, by decide, by decide, by decide⟩, by decide, by decide⟩

/-- C17 (amended): for every geometry with `1 ≤ s ≤ 30` and `E ≥ 1` and every trace
of fewer than `2^31` references replayed on a freshly initialised cache, there is
a state `st` after the first `k` references (the final state of `runSimulation`
when `k` reaches the number of references), and in it, for every set `i`, the
tags held by the valid lines of the set are the first `min(E, k')` tags of the
list of the distinct tags referenced in that set so far, most recently
referenced first (`k'` being the length of that list), each held by one line;
the next reference is a hit, and increases the hit count, if and only if its tag
is among the first `E` tags of that list for its set. -/
theorem lru_reference_model (s E b : Nat) (trace : List Record) (k : Nat)
    (hs1 : 1 ≤ s) (hs2 : s ≤ 30) (hE : 1 ≤ E) (hrefs : refCount trace < 2 ^ 31) :
    ∃ (st : SimState),
      accessAll E (initState (2 ^ s) E) ((refsOf s b trace).take k) = some st ∧
      (refCount trace ≤ k → runState s E b trace = some st) ∧
      (∀ (i : Nat), i < 2 ^ s → ∃ (row : List Line), st.cache[i]? = some row ∧
        (validTags row).Perm ((mruTags (tagsOfSet i ((refsOf s b trace).take k))).take E) ∧
        (validTags row).Nodup ∧
        (validTags row).length
          = min E (mruTags (tagsOfSet i ((refsOf s b trace).take k))).length ∧
        (mruTags (tagsOfSet i ((refsOf s b trace).take k))).Nodup ∧
        (∀ (t : Nat), t ∈ mruTags (tagsOfSet i ((refsOf s b trace).take k))
          ↔ t ∈ tagsOfSet i ((refsOf s b trace).take k))) ∧
      (∀ (p : Nat × Nat), (refsOf s b trace)[k]? = some p →
        ∃ (o : Outcome) (st' : SimState), accessOutcome st p.2 p.1 E = some (o, st') ∧
          accessAll E (initState (2 ^ s) E) ((refsOf s b trace).take (k + 1)) = some st' ∧
          (o.hit = true
            ↔ p.2 ∈ (mruTags (tagsOfSet p.1 ((refsOf s b trace).take k))).take E) ∧
          (st'.numHits = st.numHits + 1 ↔ o.hit = true)) := by
  have hlen : (refsOf s b trace).length < 2 ^ 31 := by
    rw [refsOf_length]
    exact hrefs
  have hlt := refsOf_set_lt s b hs1 (by omega) trace
  have htake : ((refsOf s b trace).take k).length ≤ (refsOf s b trace).length := by
    rw [List.length_take]
    exact Nat.min_le_right _ _
  have hlt' : ∀ p ∈ (refsOf s b trace).take k, p.1 < 2 ^ s :=
    fun p hp => hlt p (List.mem_of_mem_take hp)
  obtain ⟨st, hst⟩ := accessAll_some hE ((refsOf s b trace).take k) 0 (initState (2 ^ s) E)
    (inv_initState _ _) (by omega) hlt'
  obtain ⟨hinv, hlru⟩ := accessAll_model hE ((refsOf s b trace).take k) 0 (fun _ => [])
    (initState (2 ^ s) E) st (inv_initState _ _) (lruInv_initState _ _) (by omega) hst
  refine ⟨st, hst, ?_, ?_, ?_⟩
  · intro hk
    have hnum : numSets s = some (2 ^ s) := by simp [numSets, hs2]
    rw [runState_of_numSets hnum, replay_eq_accessAll, ← hst,
      List.take_of_length_le (by rw [refsOf_length]; exact hk)]
  · intro i hi
    have hilt : i < st.cache.length := by
      rw [hinv.1]
      exact hi
    have hrow : st.cache[i]? = some st.cache[i] := List.getElem?_eq_getElem hilt
    obtain ⟨hl, hnd⟩ := hlru i _ hrow
    rw [modelAfter_empty] at hl hnd
    refine ⟨_, hrow, hl.1, ?_, ?_, hnd, fun t => mem_mruTags t _⟩
    · exact (List.Perm.nodup_iff hl.1).mpr
        (List.Nodup.sublist (List.take_sublist _ _) hnd)
    · rw [hl.1.length_eq, List.length_take]
  · intro p hp
    obtain ⟨hklt, hget⟩ := List.getElem?_eq_some.mp hp
    have hpmem : p ∈ refsOf s b trace := List.getElem?_mem hp
    have hk : ((refsOf s b trace).take k).length = k := by
      rw [List.length_take]
      omega
    have hn1 : 0 + ((refsOf s b trace).take k).length + 1 < 2 ^ 31 := by omega
    obtain ⟨st', h1⟩ := access_some p.2 hinv hE (hlt p hpmem)
    have ho := accessOutcome_model hinv hlru hE hn1 h1
    refine ⟨_, st', ho, ?_, ?_, ?_⟩
    · rw [List.take_succ, accessAll_append, hst, hp]
      simp only [Option.some_bind, Option.toList, accessAll, h1]
    · rw [modelOutcome_hit, modelAfter_empty]
    · rw [modelOutcome_hit]
      exact access_hit_iff hinv hlru hE hn1 h1

/-- C17 (amended), instance: with `s = 1`, `E = 1`, `b = 0` and the trace `L 0`, `L 2`,
`L 0` (set 0, tags 0, 1, 0), there is a state after two references, and the third
reference is a hit exactly when tag 0 is the most recently referenced tag of
set 0, which it is not. -/
theorem lru_reference_model_witness :
    (1 ≤ 1 ∧ 1 ≤ 30 ∧ 1 ≤ 1 ∧
      refCount [{ operation := "L", addr := 0 }, { operation := "L", addr := 2 },
        { operation := "L", addr := 0 }] < 2 ^ 31) ∧
    ∃ (st : SimState),
      accessAll 1 (initState (2 ^ 1) 1)
        ((refsOf 1 0 [{ operation := "L", addr := 0 }, { operation := "L", addr := 2 },
        { operation := "L", addr := 0 }]).take 2) = some st ∧
      ∃ (o : Outcome) (st' : SimState), accessOutcome st 0 0 1 = some (o, st') ∧
        (o.hit = true ↔ 0 ∈ (mruTags (tagsOfSet 0 ((refsOf 1 0
          [{ operation := "L", addr := 0 }, { operation := "L", addr := 2 },
        { operation := "L", addr := 0 }]).take 2))).take 1) ∧
        (0 : Nat) ∉ (mruTags (tagsOfSet 0 ((refsOf 1 0
          [{ operation := "L", addr := 0 }, { operation := "L", addr := 2 },
        { operation := "L", addr := 0 }]).take 2))).take 1 := by
  refine ⟨by decide, ?_⟩
  obtain ⟨st, h1, _, _, h4⟩ := lru_reference_model 1 1 0
    [{ operation := "L", addr := 0 }, { operation := "L", addr := 2 },
        { operation := "L", addr := 0 }] 2
    (by decide) (by decide) (by decide) (by decide)
  obtain ⟨o, st', h5, _, h6, _⟩ := h4 (0, 0) (by decide)
  exact ⟨st, h1, o, st', h5, h6, by decide⟩

/-! ## C20: set isolation -/

/-- The outcome recorded for a reference agrees with the call of
`checkHitAndMiss`: the eviction flag is the returned `isEviction`, and the
reference is a hit exactly when the call steps the hit count. -/
theorem accessOutcome_sound {st st' : SimState} {tag set E : Nat} {o : Outcome}
    (h : accessOutcome st tag set E = some (o, st')) :
    ∃ (ev : Bool) (st1 : SimState), checkHitAndMiss st tag set E = some (ev, st1) ∧
      st' = countEviction (ev, st1) ∧ o.set = set ∧ o.tag = tag ∧ o.eviction = ev ∧
      (o.hit = true ↔ st1.numHits = wrapInt (st.numHits + 1)) ∧
      (o.hit = false ↔ st1.numMisses = wrapInt (st.numMisses + 1)) := by
  unfold accessOutcome at h
  unfold access at h
  unfold checkHitAndMiss at h ⊢
  cases hs : hitScan st.cache tag set E 0 with
  | none =>
    rw [hs] at h
    simp at h
  | some r =>
    rw [hs] at h
    cases r with
    | some i =>
      simp only [] at h ⊢
      cases hl : lineAt st.cache set i with
      | none =>
        rw [hl] at h
        simp at h
      | some l =>
        rw [hl] at h
        simp only [Option.map_some', Option.some.injEq, Prod.mk.injEq] at h
        obtain ⟨ho, hst⟩ := h
        subst ho
        refine ⟨_, _, rfl, hst.symm, rfl, rfl, rfl, ?_, ?_⟩
        · simp
        · simp only [Bool.true_eq_false, false_iff]
          exact fun hh => wrapInt_succ_ne _ hh.symm
    | none =>
      simp only [] at h ⊢
      cases hsc : lruScan st.cache set E 0 st.operationNum 0 with
      | none =>
        rw [hsc] at h
        simp at h
      | some q =>
        rw [hsc] at h
        obtain ⟨op, j⟩ := q
        simp only [] at h ⊢
        cases hl : lineAt st.cache set j with
        | none =>
          rw [hl] at h
          simp at h
        | some l =>
          rw [hl] at h
          simp only [Option.map_some', Option.some.injEq, Prod.mk.injEq] at h
          obtain ⟨ho, hst⟩ := h
          subst ho
          refine ⟨_, _, rfl, hst.symm, rfl, rfl, rfl, ?_, ?_⟩
          · simp only [Bool.false_eq_true, false_iff]
            exact fun hh => wrapInt_succ_ne _ hh.symm
          · simp

theorem outcomesAll_cons_of_some {E : Nat} {st st1 : SimState} {p : Nat × Nat} {o : Outcome}
    (h : accessOutcome st p.2 p.1 E = some (o, st1)) (rest : List (Nat × Nat)) :
    outcomesAll E st (p :: rest) = (outcomesAll E st1 rest).map (fun os => o :: os) := by
  simp only [outcomesAll, h]
  cases outcomesAll E st1 rest <;> rfl

/-- With `s = 1`, `E = 2`: on a state whose set 1 holds tag 0, `n + 1` references
to tag 0 of set 1 are `n + 1` hits, which advance the counter and the hit count
`n + 1` times in `int` arithmetic and leave set 0 as it is. -/
theorem outcomesAll_repeated_hit (rest : List (Nat × Nat)) (n : Nat) : ∀ (c h : Int),
    outcomesAll 2
      { cache := [[{ validBit := 1, tag := 1, operationNumber := 2 },
            { validBit := 1, tag := 0, operationNumber := 1 }],
          [zeroLine, { validBit := 1, tag := 0, operationNumber := c }]],
        operationNum := c, numEviction := 0, numHits := h, numMisses := 3 }
      (List.replicate (n + 1) (1, 0) ++ rest)
    = (outcomesAll 2
      { cache := [[{ validBit := 1, tag := 1, operationNumber := 2 },
            { validBit := 1, tag := 0, operationNumber := 1 }],
          [zeroLine, { validBit := 1, tag := 0, operationNumber := wrapInt (c + ((n + 1 : Nat) : Int)) }]],
        operationNum := wrapInt (c + ((n + 1 : Nat) : Int)), numEviction := 0, numHits := wrapInt (h + ((n + 1 : Nat) : Int)), numMisses := 3 }
      rest).map (fun os => List.replicate (n + 1)
        ({ set := 1, tag := 0, hit := true, eviction := false, replaced := none } : Outcome) ++ os) := by
  have hstep : ∀ (c h : Int),
          accessOutcome
            { cache := [[{ validBit := 1, tag := 1, operationNumber := 2 },
                { validBit := 1, tag := 0, operationNumber := 1 }],
              [zeroLine, { validBit := 1, tag := 0, operationNumber := c }]],
              operationNum := c, numEviction := 0, numHits := h, numMisses := 3 }
            (1, 0).2 (1, 0).1 2
          = some ({ set := 1, tag := 0, hit := true, eviction := false, replaced := none },
            { cache := [[{ validBit := 1, tag := 1, operationNumber := 2 },
                { validBit := 1, tag := 0, operationNumber := 1 }],
              [zeroLine, { validBit := 1, tag := 0, operationNumber := wrapInt (c + 1) }]],
              operationNum := wrapInt (c + 1), numEviction := 0, numHits := wrapInt (h + 1), numMisses := 3 }) := by
    intro c h
    simp [accessOutcome, access, checkHitAndMiss, hitScan, lineAt, storeLine, countEviction,
      zeroLine]
  induction n with
  | zero =>
    intro c h
    rw [List.replicate_succ, List.cons_append, outcomesAll_cons_of_some (hstep c h)]
    simp
  | succ n ih =>
    intro c h
    rw [List.replicate_succ, List.cons_append, outcomesAll_cons_of_some (hstep c h),
      ih (wrapInt (c + 1)) (wrapInt (h + 1))]
    have e1 : wrapInt (wrapInt (c + 1) + ((n + 1 : Nat) : Int))
        = wrapInt (c + ((n + 1 + 1 : Nat) : Int)) := by
      rw [wrapInt_wrapInt_add]
      congr 1
      push_cast
      ring
    have e2 : wrapInt (wrapInt (h + 1) + ((n + 1 : Nat) : Int))
        = wrapInt (h + ((n + 1 + 1 : Nat) : Int)) := by
      rw [wrapInt_wrapInt_add]
      congr 1
      push_cast
      ring
    rw [e1, e2, Option.map_map]
    rfl

theorem runOutcomes_of_numSets {s S : Nat} (h : numSets s = some S) (E b : Nat)
    (trace : List Record) :
    runOutcomes s E b trace = outcomesAll E (initState S E) (refsOf s b trace) := by
  simp only [runOutcomes, h]

theorem refsOf_cons_load (s b addr : Nat) (rest : List Record) :
    refsOf s b ({ operation := "L", addr := addr } :: rest)
      = setTagAndSet addr s b :: refsOf s b rest := by
  simp [refsOf]

theorem refsOf_append (s b : Nat) (xs ys : List Record) :
    refsOf s b (xs ++ ys) = refsOf s b xs ++ refsOf s b ys := by
  induction xs with
  | nil => rfl
  | cons r rest ih => rw [List.cons_append, refsOf, refsOf, ih, List.append_assoc]

theorem refsOf_replicate_load (s b addr n : Nat) :
    refsOf s b (List.replicate n { operation := "L", addr := addr })
      = List.replicate n (setTagAndSet addr s b) := by
  induction n with
  | zero => rfl
  | succ n ih => rw [List.replicate_succ, refsOf_cons_load, ih, List.replicate_succ]

/-- With `s = 1`, `E = 2`, `b = 0`: the outcomes of the loads of the addresses 0 and
2 (set 0, tags 0 and 1) and 1 (set 1, tag 0), of `n + 1` further loads of
address 1, and of a load of address 4 (set 0, tag 2) at the end. -/
theorem runOutcomes_long_trace (n : Nat) :
    runOutcomes 1 2 0
      ({ operation := "L", addr := 0 } :: { operation := "L", addr := 2 } ::
        { operation := "L", addr := 1 } ::
        (List.replicate (n + 1) { operation := "L", addr := 1 } ++
          [{ operation := "L", addr := 4 }]))
    = (outcomesAll 2
        { cache := [[{ validBit := 1, tag := 1, operationNumber := 2 },
            { validBit := 1, tag := 0, operationNumber := 1 }],
          [zeroLine, { validBit := 1, tag := 0, operationNumber := wrapInt (3 + ((n + 1 : Nat) : Int)) }]],
          operationNum := wrapInt (3 + ((n + 1 : Nat) : Int)), numEviction := 0, numHits := wrapInt (0 + ((n + 1 : Nat) : Int)), numMisses := 3 }
        [(0, 2)]).map (fun os =>
          { set := 0, tag := 0, hit := false, eviction := false, replaced := none } ::
          { set := 0, tag := 1, hit := false, eviction := false, replaced := none } ::
          { set := 1, tag := 0, hit := false, eviction := false, replaced := none } ::
          (List.replicate (n + 1)
            ({ set := 1, tag := 0, hit := true, eviction := false, replaced := none } : Outcome) ++ os)) := by
  have hnum : numSets 1 = some 2 := by decide
  have hA : setTagAndSet 0 1 0 = (0, 0) := by decide
  have hB : setTagAndSet 2 1 0 = (0, 1) := by decide
  have hX : setTagAndSet 1 1 0 = (1, 0) := by decide
  have hC : setTagAndSet 4 1 0 = (0, 2) := by decide
  have hnil : refsOf 1 0 [] = [] := rfl
  have h1 : accessOutcome (initState 2 2) (0, 0).2 (0, 0).1 2
      = some ({ set := 0, tag := 0, hit := false, eviction := false, replaced := none },
          { cache := [[zeroLine, { validBit := 1, tag := 0, operationNumber := 1 }],
                [zeroLine, zeroLine]],
            operationNum := 1, numEviction := 0, numHits := 0, numMisses := 1 }) := by
    decide
  have h2 : accessOutcome
        { cache := [[zeroLine, { validBit := 1, tag := 0, operationNumber := 1 }],
              [zeroLine, zeroLine]],
          operationNum := 1, numEviction := 0, numHits := 0, numMisses := 1 }
        (0, 1).2 (0, 1).1 2
      = some ({ set := 0, tag := 1, hit := false, eviction := false, replaced := none },
          { cache := [[{ validBit := 1, tag := 1, operationNumber := 2 },
                  { validBit := 1, tag := 0, operationNumber := 1 }],
                [zeroLine, zeroLine]],
            operationNum := 2, numEviction := 0, numHits := 0, numMisses := 2 }) := by
    decide
  have h3 : accessOutcome
        { cache := [[{ validBit := 1, tag := 1, operationNumber := 2 },
                { validBit := 1, tag := 0, operationNumber := 1 }],
              [zeroLine, zeroLine]],
          operationNum := 2, numEviction := 0, numHits := 0, numMisses := 2 }
        (1, 0).2 (1, 0).1 2
      = some ({ set := 1, tag := 0, hit := false, eviction := false, replaced := none },
          { cache := [[{ validBit := 1, tag := 1, operationNumber := 2 },
              { validBit := 1, tag := 0, operationNumber := 1 }],
            [zeroLine, { validBit := 1, tag := 0, operationNumber := 3 }]],
            operationNum := 3, numEviction := 0, numHits := 0, numMisses := 3 }) := by
    decide
  rw [runOutcomes_of_numSets hnum, refsOf_cons_load, refsOf_cons_load, refsOf_cons_load,
    refsOf_append, refsOf_replicate_load, refsOf_cons_load, hnil, hA, hB, hX, hC,
    outcomesAll_cons_of_some h1, outcomesAll_cons_of_some h2, outcomesAll_cons_of_some h3,
    outcomesAll_repeated_hit [(0, 2)] n 3 0, Option.map_map, Option.map_map, Option.map_map]
  rfl

/-- C20 (as stated, refuted): with `s = 0` the load of address `0x10` is a
reference to set 16, outside the one-set cache, so that the replay of the whole
trace has no outcomes while the replay of the references of set 0 has; with
`s = 31` nothing is replayed; and with `s = 1`, `E = 2`, `b = 0`, after the loads of
the addresses 0 and 2 (set 0, tags 0 and 1) and `2^31 - 2` loads of address 1
(set 1) the shared `int` counter has wrapped to `-2^31`, so that the load of
address 4 (set 0, tag 2) replaces tag 1, whereas it replaces tag 0 when only the
references of set 0 are replayed. -/
theorem set_isolation_refuted :
    (runOutcomes 0 1 0 [({ operation := "L", addr := 16 } : Record), ({ operation := "L", addr := 0 } : Record)] = none ∧
      runOutcomes 0 1 0
        ([({ operation := "L", addr := 16 } : Record), ({ operation := "L", addr := 0 } : Record)].filter
          (fun r => (setTagAndSet r.addr 0 0).1 = 0))
        = some [{ set := 0, tag := 0, hit := false, eviction := false, replaced := none }]) ∧
    runOutcomes 31 1 0 [({ operation := "L", addr := 0 } : Record)] = none ∧
    (runOutcomes 1 2 0
        (({ operation := "L", addr := 0 } : Record) :: ({ operation := "L", addr := 2 } : Record) ::
        ({ operation := "L", addr := 1 } : Record) ::
        (List.replicate 2147483645 ({ operation := "L", addr := 1 } : Record) ++
          [({ operation := "L", addr := 4 } : Record)]))).map
        (fun os => os.filter (fun o => o.set = 0))
      = some [{ set := 0, tag := 0, hit := false, eviction := false, replaced := none },
          { set := 0, tag := 1, hit := false, eviction := false, replaced := none },
          { set := 0, tag := 2, hit := false, eviction := true, replaced := some 1 }] ∧
    runOutcomes 1 2 0
        ((({ operation := "L", addr := 0 } : Record) :: ({ operation := "L", addr := 2 } : Record) ::
        ({ operation := "L", addr := 1 } : Record) ::
        (List.replicate 2147483645 ({ operation := "L", addr := 1 } : Record) ++
          [({ operation := "L", addr := 4 } : Record)])).filter
          (fun r => (setTagAndSet r.addr 1 0).1 = 0))
      = some [{ set := 0, tag := 0, hit := false, eviction := false, replaced := none },
          { set := 0, tag := 1, hit := false, eviction := false, replaced := none },
          { set := 0, tag := 2, hit := false, eviction := true, replaced := some 0 }] := by
  refine ⟨⟨by decide, by decide⟩, by decide, ?_, ?_⟩
  · have hbig : (({ operation := "L", addr := 0 } : Record) :: ({ operation := "L", addr := 2 } : Record) ::
        ({ operation := "L", addr := 1 } : Record) ::
        (List.replicate 2147483645 ({ operation := "L", addr := 1 } : Record) ++
          [({ operation := "L", addr := 4 } : Record)]))
        = (({ operation := "L", addr := 0 } : Record) :: ({ operation := "L", addr := 2 } : Record) ::
        ({ operation := "L", addr := 1 } : Record) ::
        (List.replicate (2147483644 + 1) ({ operation := "L", addr := 1 } : Record) ++
          [({ operation := "L", addr := 4 } : Record)])) := rfl
    have e1 : wrapInt (3 + ((2147483644 + 1 : Nat) : Int)) = -2147483648 := by decide
    have e2 : wrapInt (0 + ((2147483644 + 1 : Nat) : Int)) = 2147483645 := by decide
    have hlast : outcomesAll 2
        { cache := [[{ validBit := 1, tag := 1, operationNumber := 2 },
            { validBit := 1, tag := 0, operationNumber := 1 }],
          [zeroLine, { validBit := 1, tag := 0, operationNumber := -2147483648 }]],
          operationNum := -2147483648, numEviction := 0, numHits := 2147483645, numMisses := 3 }
        [(0, 2)] = some [{ set := 0, tag := 2, hit := false, eviction := true, replaced := some 1 }] := by
      decide
    rw [hbig, runOutcomes_long_trace 2147483644, e1, e2, hlast]
    simp only [Option.map_some', Option.some.injEq]
    rw [List.filter_cons_of_pos (by decide), List.filter_cons_of_pos (by decide),
      List.filter_cons_of_neg (by decide), List.filter_append,
      List.filter_replicate_of_neg (by decide)]
    decide
  · rw [List.filter_cons_of_pos (by decide), List.filter_cons_of_pos (by decide),
      List.filter_cons_of_neg (by decide), List.filter_append,
      List.filter_replicate_of_neg (by decide)]
    decide

/-- C20 (amended): for every geometry with `1 ≤ s ≤ 30` and `E ≥ 1`, every trace of
fewer than `2^31` references and every set index `i`, the replay of the whole
trace and the replay of the records whose address maps to set `i` both have
outcomes, and the outcomes (hit, miss, miss with eviction, and the replaced tag)
of the references to set `i` in the whole replay are, in order, the outcomes of
the replay of those records alone. -/
theorem set_isolation (s E b : Nat) (trace : List Record) (i : Nat)
    (hs1 : 1 ≤ s) (hs2 : s ≤ 30) (hE : 1 ≤ E) (hrefs : refCount trace < 2 ^ 31) :
    ∃ (whole part : List Outcome),
      runOutcomes s E b trace = some whole ∧
      runOutcomes s E b (trace.filter (fun r => (setTagAndSet r.addr s b).1 = i)) = some part ∧
      whole.filter (fun o => o.set = i) = part := by
  have hnum : numSets s = some (2 ^ s) := by simp [numSets, hs2]
  have hlt := refsOf_set_lt s b hs1 (by omega) trace
  have hwhole := outcomesAll_model hE (refsOf s b trace) 0 (fun _ => []) (initState (2 ^ s) E)
    (inv_initState _ _) (lruInv_initState _ _) (by rw [refsOf_length]; omega) hlt
  have hle := refCount_filter_le (fun r => decide ((setTagAndSet r.addr s b).1 = i)) trace
  have hpart := outcomesAll_model hE
    (refsOf s b (trace.filter (fun r => (setTagAndSet r.addr s b).1 = i))) 0 (fun _ => [])
    (initState (2 ^ s) E) (inv_initState _ _) (lruInv_initState _ _)
    (by rw [refsOf_length]; omega)
    (refsOf_set_lt s b hs1 (by omega) _)
  refine ⟨modelRun E (fun _ => []) (refsOf s b trace),
    modelRun E (fun _ => [])
      (refsOf s b (trace.filter (fun r => (setTagAndSet r.addr s b).1 = i))), ?_, ?_, ?_⟩
  · rw [runOutcomes_of_numSets hnum]
    exact hwhole
  · rw [runOutcomes_of_numSets hnum]
    exact hpart
  · rw [modelRun_filter, refsOf_filter]

/-- C20, instance: with `s = 1`, `E = 1`, `b = 0` and the trace `L 0`, `L 1`, `L 2`, `L 0`
(sets 0, 1, 0, 0), the references to set 0 are a miss, a miss that replaces tag 0
and a miss that replaces tag 1, in the whole replay and in the replay of the
loads of 0, 2, 0 alone. -/
theorem set_isolation_witness :
    (1 ≤ 1 ∧ 1 ≤ 30 ∧ 1 ≤ 1 ∧
      refCount [{ operation := "L", addr := 0 }, { operation := "L", addr := 1 },
        { operation := "L", addr := 2 }, { operation := "L", addr := 0 }] < 2 ^ 31) ∧
    ∃ (whole part : List Outcome),
      runOutcomes 1 1 0 [{ operation := "L", addr := 0 }, { operation := "L", addr := 1 },
        { operation := "L", addr := 2 }, { operation := "L", addr := 0 }] = some whole ∧
      runOutcomes 1 1 0
        ([{ operation := "L", addr := 0 }, { operation := "L", addr := 1 },
          { operation := "L", addr := 2 }, { operation := "L", addr := 0 }].filter
          (fun r => (setTagAndSet r.addr 1 0).1 = 0)) = some part ∧
      whole.filter (fun o => o.set = 0) = part :=
  ⟨by decide,
    set_isolation 1 1 0 [{ operation := "L", addr := 0 }, { operation := "L", addr := 1 },
      { operation := "L", addr := 2 }, { operation := "L", addr := 0 }] 0
      (by decide) (by decide) (by decide) (by decide)⟩
end CacheSim
